import Mathlib

/-!
# hisat-3n-table: a shallow embedding of the reference window and the main loop

The definitions below follow `utility_3n_table.h`, `position_3n_table.h` and
`hisat_3n_table.cpp` function by function.

Conventions of the embedding.

* `std::string` is `List Char` (`Str`); the reference file is its text, and the
  read position of `refFile` is the unread remainder of that text.
* `int`, `long long` and `streampos` values are `Int`.  The two narrowing
  conversions of `getIndex` are written with `toInt32`; the `short` field of a
  position with `toInt16`; the `unsigned short` counters wrap modulo `65536`.
  The additions to `reloadPos` are not reduced to 64 bits; the theorems on the
  extend loop state when every value it takes is a `long long` value
  (`InLongLong`) and exhibit a run in which the sum leaves that range.
* `refPositions` is a function from indices to positions.  The C++ array has
  `2 * loadingBlockSize + 123` slots; an index outside that range has no
  meaning in the program and the theorems that rely on stored data carry the
  hypotheses that keep every index inside it.
* `throw 1` and `exit(-1)` are values of `Fault`; a function that can raise one
  returns `Except`.
* Loops whose trip count is not syntactically bounded take a fuel argument; the
  wrappers named after the source functions supply enough of it, and this is
  proved (`fillLoop_fuel`, `findChromosomeAux_fuel`, `outputLoop_walk`,
  `syncLoop_exit`, `getSAMLoop_error`).
* The scans of `CIGAR::getNextSegment` and `MD_tag::getNextSegment` run over the
  characters of `s` from `currentIndex` on, with `currentIndex` carried along; the end
  of that list is the case `currentIndex >= stringLen`.  Both are total.  A call of
  `CIGAR::getNextSegment` that reads past the end of the string or in which `stoi`
  throws is a value of `ScanFault`.
-/

namespace Hisat3n

/-- Byte strings of the program. -/
abbrev Str := List Char

/-! ## utility_3n_table.h -/

def loadingBlockSize : Int := 60000
def convertFrom : Char := 'C'
def convertTo : Char := 'T'
def convertFromComplement : Char := 'G'
def convertToComplement : Char := 'A'

/-- Conversion of an integer value to a 32-bit `int`. -/
def toInt32 (x : Int) : Int := (x + 2147483648) % 4294967296 - 2147483648

/-- Conversion of an integer value to a 16-bit `short`. -/
def toInt16 (x : Int) : Int := (x + 32768) % 65536 - 32768

/-- Ways in which the program stops abnormally. -/
inductive Fault where
  /-- The statement `throw 1` (unknown chromosome, unsorted input); `main` returns 1. -/
  | throw1
  /-- The call `exit(-1)` of the position-mismatch check. -/
  | exitMinus1
  /-- A `std::exception` (raised by `stoll`); `main` returns 1. -/
  | stdException
  /-- The model ran out of fuel; never produced by the wrappers (see the fuel lemmas). -/
  | outOfFuel
  deriving DecidableEq, Repr

/-- Class `PosQuality`. -/
structure PosQuality where
  readPos : Int
  refPos : Int
  qual : Char
  converted : Bool
  remove : Bool
  deriving DecidableEq, Repr

/-- Class `ChromosomeFilePosition`: a chromosome name and the stream position
of the line that follows its header. -/
structure ChromosomeFilePosition where
  chromosome : Str
  linePos : Int
  deriving DecidableEq, Repr

/-- The method `ChromosomeFilePositions::getChromesomeString`; the vector is read at
`index`, which the program only does for indices of stored entries. -/
def getChromesomeString (pos : List ChromosomeFilePosition) (index : Int) : Str :=
  if index < 0 then [] else
    match pos.get? index.toNat with
    | some e => e.chromosome
    | none => []

/-- The recursion of `ChromosomeFilePositions::findChromosome`, with fuel for the
recursion depth. -/
def findChromosomeAux (pos : List ChromosomeFilePosition) (targetChromosome : Str) :
    Nat → Int → Int → Except Fault Int
  | 0, _, _ => .error .outOfFuel
  | fuel + 1, start, end_ =>
    if start ≤ end_ then
      let middle := (start + end_).tdiv 2
      let name := getChromesomeString pos middle
      if name = targetChromosome then .ok middle
      else if targetChromosome < name then
        findChromosomeAux pos targetChromosome fuel start (middle - 1)
      else findChromosomeAux pos targetChromosome fuel (middle + 1) end_
    else .error .throw1

/-- The method `ChromosomeFilePositions::findChromosome`. -/
def findChromosome (pos : List ChromosomeFilePosition) (targetChromosome : Str)
    (start end_ : Int) : Except Fault Int :=
  findChromosomeAux pos targetChromosome ((end_ - start + 1).toNat + 1) start end_

/-- The method `ChromosomeFilePositions::getChromosomePosInRefFile`. -/
def getChromosomePosInRefFile (pos : List ChromosomeFilePosition) (targetChromosome : Str) :
    Except Fault Int :=
  match findChromosome pos targetChromosome 0 ((pos.length : Int) - 1) with
  | .ok index =>
    .ok (match pos.get? index.toNat with
         | some e => e.linePos
         | none => 0)
  | .error e => .error e

/-- The method `ChromosomeFilePositions::sort`: entries ordered by chromosome name. -/
def sortChromosomes (pos : List ChromosomeFilePosition) : List ChromosomeFilePosition :=
  pos.insertionSort (fun a b => a.chromosome ≤ b.chromosome)

/-! ## position_3n_table.h -/

/-- Class `Position`. -/
structure Position where
  chromosomeId : Int
  location : Int
  strand : Char
  convertedCount : Nat
  unconvertedCount : Nat
  empty : Bool
  deriving DecidableEq, Repr

/-- The method `Position::initialize`; every field is overwritten, so the result does
not depend on the previous contents of the slot. -/
def Position.initialize : Position :=
  { chromosomeId := -1, location := -1, strand := '?',
    convertedCount := 0, unconvertedCount := 0, empty := true }

/-- The method `Position::set(int, long long)`. -/
def Position.set (p : Position) (InChromosomeId : Int) (inputLoc : Int) : Position :=
  { p with chromosomeId := toInt16 InChromosomeId, location := inputLoc + 1 }

/-- The method `Position::set(char)`. -/
def Position.setStrand (p : Position) (inputStrand : Char) : Position :=
  { p with strand := inputStrand }

/-- The method `Position::appendBase`; the counters are `unsigned short`. -/
def Position.appendBase (p : Position) (input : PosQuality) : Position :=
  if input.converted then
    { p with empty := false, convertedCount := (p.convertedCount + 1) % 65536 }
  else
    { p with empty := false, unconvertedCount := (p.unconvertedCount + 1) % 65536 }

/-- Modelled from the spec: the class `Alignment` of `alignment_3n_table.h`, which is
not among the sources.  The fields are the ones `appendPositions` reads: the mapped
flag, the 1-based leftmost coordinate, the read sequence (only its length is used)
and the per-base calls, one per character of the sequence. -/
structure Alignment where
  mapped : Bool
  location : Int
  sequence : Str
  bases : List PosQuality
  deriving DecidableEq, Repr

/-- One line written to `cout` by `startOutput`. -/
structure Row where
  chr : Str
  location : Int
  strand : Char
  convertedCount : Nat
  unconvertedCount : Nat
  deriving DecidableEq, Repr

/-- The call `getline(refFile, line)` on the unread text: the line, the text left,
and `refFile.good()` afterwards.  Reaching the end of the file before a newline
sets `eofbit` (and `failbit` too when nothing was read), so the stream is no
longer good. -/
def getline : Str → Str × Str × Bool
  | [] => ([], [], false)
  | c :: cs =>
    if c = '\n' then ([], cs, true)
    else
      let r := getline cs
      (c :: r.1, r.2.1, r.2.2)

/-- The function `isspace` in the "C" locale. -/
def isspace (c : Char) : Bool :=
  c = ' ' || c = '\t' || c = '\n' || c = '\x0b' || c = '\x0c' || c = '\r'

/-- The loop of `Positions::getChrName` from index `i` on. -/
def getChrNameLoop : Str → Str
  | [] => []
  | c :: cs => if isspace c then [] else c :: getChrNameLoop cs

/-- The method `Positions::getChrName`: the loop starts at index 1. -/
def getChrName (inputLine : Str) : Str := getChrNameLoop inputLine.tail

/-- Class `Positions`.  The fields `refText`, `refRest`, `refGood` are the state of
`refFile`: the text of the file, its unread part and `good()`. -/
structure Positions where
  refPositions : Int → Position
  chromosome : Str
  curChromosomeId : Int
  refPosStartPtr : Int
  refPosEndPtr : Int
  location : Int
  refCoveredPosition : Int
  refText : Str
  refRest : Str
  refGood : Bool
  chromosomePos : List ChromosomeFilePosition

/-- The call `refFile.tellg()`: the offset of the unread part, or `-1` when the
stream is not good. -/
def tellg (text rest : Str) (good : Bool) : Int :=
  if good then (text.length : Int) - rest.length else -1

/-- The loop of `Positions::LoadChromosomeNamesPos`: unread text, `good()`, the
entries collected so far. -/
def loadNamesLoop (text : Str) :
    Nat → Str → Bool → List ChromosomeFilePosition → List ChromosomeFilePosition
  | 0, _, _, acc => acc
  | fuel + 1, rest, good, acc =>
    if good then
      let r := getline rest
      if r.1.head? = some '>' then
        loadNamesLoop text fuel r.2.1 r.2.2
          (acc ++ [{ chromosome := getChrName r.1, linePos := tellg text r.2.1 r.2.2 }])
      else loadNamesLoop text fuel r.2.1 r.2.2 acc
    else acc

/-- The method `Positions::LoadChromosomeNamesPos`: the sorted index of the file. -/
def LoadChromosomeNamesPos (text : Str) : List ChromosomeFilePosition :=
  sortChromosomes (loadNamesLoop text (text.length + 2) text true [])

/-- The constructor `Positions(inputRefFileName)` for a file with the given text.
After the scan of `LoadChromosomeNamesPos` the file is at its end. -/
def Positions.new (text : Str) : Positions :=
  { refPositions := fun _ => Position.initialize
    chromosome := []
    curChromosomeId := 0
    refPosStartPtr := 0
    refPosEndPtr := 0
    location := 0
    refCoveredPosition := 0
    refText := text
    refRest := []
    refGood := false
    chromosomePos := LoadChromosomeNamesPos text }

/-- The method `Positions::Mod`. -/
def Mod (x : Int) : Int :=
  if x ≥ 2 * loadingBlockSize + 67 then x - (2 * loadingBlockSize + 67) else x

/-- The body of the loop of `startOutput` for slot `pos`: the row printed, if any. -/
def outputRow (chromosomePos : List ChromosomeFilePosition) (pos : Position) : List Row :=
  if !(pos.empty || pos.strand = '?') then
    [{ chr := getChromesomeString chromosomePos pos.chromosomeId
       location := pos.location
       strand := pos.strand
       convertedCount := pos.convertedCount
       unconvertedCount := pos.unconvertedCount }]
  else []

/-- The loop `for (i = start_id; i != end_id; i = Mod(i+1))` of `startOutput`. -/
def outputLoop (P : Positions) (end_id : Int) : Nat → Int → List Row
  | 0, _ => []
  | fuel + 1, i =>
    if i ≠ end_id then
      outputRow P.chromosomePos (P.refPositions i) ++ outputLoop P end_id fuel (Mod (i + 1))
    else []

/-- The method `Positions::startOutput`: the rows written to `cout`.  The window
itself is not modified.  The fuel is the ring size: with both cursors inside the
ring the loop meets `end_id` before it runs out (`outputLoop_walk`). -/
def startOutput (P : Positions) (final_ : Bool) : List Row :=
  let start_id := P.refPosStartPtr
  let end_id := if final_ then P.refPosEndPtr else Mod (P.refPosStartPtr + loadingBlockSize)
  outputLoop P end_id (2 * loadingBlockSize + 67).toNat start_id

/-- The method `Positions::getIndex`. -/
def getIndex (P : Positions) (targetPos : Int) : Int :=
  let firstPos := toInt32 (P.refPositions P.refPosStartPtr).location
  Mod (toInt32 (targetPos - firstPos + P.refPosStartPtr))

/-- One iteration of the loop of `appendRefPosition`: slot `Mod(cur + i)` is
initialised, given its coordinate and, for a monitored base, its strand. -/
def refSlot (curChromosomeId location : Int) (i : Int) (b : Char) : Position :=
  let p := Position.initialize.set curChromosomeId (location + i)
  if b = convertFrom then p.setStrand '+'
  else if b = convertFromComplement then p.setStrand '-'
  else p

/-- The loop of `appendRefPosition` over the bases of the line from index `i` on. -/
def appendRefLoop (curChromosomeId location cur : Int) :
    Str → Int → (Int → Position) → (Int → Position)
  | [], _, ref => ref
  | b :: bs, i, ref =>
    appendRefLoop curChromosomeId location cur bs (i + 1)
      (Function.update ref (Mod (cur + i)) (refSlot curChromosomeId location i b))

/-- The method `Positions::appendRefPosition`, called with `cur = refPosEndPtr`. -/
def appendRefPosition (P : Positions) (line : Str) : Positions :=
  { P with
    refPositions :=
      appendRefLoop P.curChromosomeId P.location P.refPosEndPtr line 0 P.refPositions
    location := P.location + line.length
    refPosEndPtr := Mod (P.refPosEndPtr + line.length) }

/-- The loop `while (refFile.good())` shared by `loadNewChromosome` and `loadMore`;
the second component is `meetNext`.  For an empty line `line.front()` is taken to
differ from `>`, so that the line is skipped by the test `line.empty()`. -/
def fillLoop : Nat → Positions → Positions × Int
  | 0, P => (P, 0)
  | fuel + 1, P =>
    if P.refGood then
      let r := getline P.refRest
      let P1 := { P with refRest := r.2.1, refGood := r.2.2 }
      if r.1.head? = some '>' then (P1, 1)
      else if r.1.isEmpty then fillLoop fuel P1
      else
        let P2 := appendRefPosition P1 r.1
        if P2.location ≥ P2.refCoveredPosition then (P2, 0) else fillLoop fuel P2
    else (P, 0)

/-- The calls `refFile.clear(); ...; refFile.seekg(startPos, ios::beg)`: a negative
position (the failed `tellg`) makes the seek fail. -/
def seekg (P : Positions) (startPos : Int) : Positions :=
  if startPos < 0 then { P with refGood := false }
  else { P with refRest := P.refText.drop startPos.toNat, refGood := true }

/-- The assignments of `loadNewChromosome` between the two look-ups and the fill
loop: chromosome name and id, the seek, and the cleared cursors. -/
def resetWindow (P : Positions) (targetChromosome : Str) (id startPos : Int) : Positions :=
  let P1 := seekg { P with chromosome := targetChromosome, curChromosomeId := id } startPos
  { P1 with
    refCoveredPosition := 2 * loadingBlockSize
    refPosStartPtr := 0
    location := 0
    refPosEndPtr := 0 }

/-- The method `Positions::loadNewChromosome`; the second component is `meetNext`. -/
def loadNewChromosome (P : Positions) (targetChromosome : Str) :
    Except Fault (Positions × Int) :=
  match getChromosomePosInRefFile P.chromosomePos targetChromosome with
  | .error e => .error e
  | .ok startPos =>
    match findChromosome P.chromosomePos targetChromosome 0
        ((P.chromosomePos.length : Int) - 1) with
    | .error e => .error e
    | .ok id =>
      .ok (fillLoop ((resetWindow P targetChromosome id startPos).refRest.length + 2)
            (resetWindow P targetChromosome id startPos))

/-- The assignments of `loadMore` before its fill loop. -/
def advanceWindow (P : Positions) : Positions :=
  { P with
    refCoveredPosition := P.refCoveredPosition + loadingBlockSize
    refPosStartPtr := Mod (P.refPosStartPtr + loadingBlockSize) }

/-- The method `Positions::loadMore`; the second component is `meetNext`. -/
def loadMore (P : Positions) : Positions × Int :=
  fillLoop ((advanceWindow P).refRest.length + 2) (advanceWindow P)

/-- The loop of `appendPositions` over the calls of the record. -/
def appendPositionsLoop (startPos index : Int) :
    List PosQuality → (Int → Position) → Except Fault (Int → Position)
  | [], ref => .ok ref
  | b :: bs, ref =>
    if b.remove then appendPositionsLoop startPos index bs ref
    else
      let slot := Mod (index + b.refPos)
      let pos := ref slot
      if pos.location ≠ startPos + b.refPos then .error .exitMinus1
      else if pos.strand = '?' then appendPositionsLoop startPos index bs ref
      else appendPositionsLoop startPos index bs (Function.update ref slot (pos.appendBase b))

/-- The method `Positions::appendPositions`.  The loop runs over the indices of
`sequence` and reads `bases[i]`. -/
def appendPositions (P : Positions) (newAlignment : Alignment) : Except Fault Positions :=
  if !newAlignment.mapped || newAlignment.bases.isEmpty then .ok P
  else
    let startPos := newAlignment.location
    let index := getIndex P newAlignment.location
    match appendPositionsLoop startPos index
        (newAlignment.bases.take newAlignment.sequence.length) P.refPositions with
    | .ok ref => .ok { P with refPositions := ref }
    | .error e => .error e

/-! ## hisat_3n_table.cpp -/

/-- The constant `inf` of `hisat_3n_table.cpp`. -/
def inf : Int := 1234567890

/-- The call `line.find("\t", startPosition)` on the part of the line that starts at
`startPosition`: the text before the first tab and the text after it. -/
def findTab : Str → Option (Str × Str)
  | [] => none
  | c :: cs =>
    if c = '\t' then some ([], cs)
    else match findTab cs with
      | some (f, r) => some (c :: f, r)
      | none => none

/-- The value of a run of decimal digits. -/
def digitsValue (ds : Str) : Nat :=
  ds.foldl (fun acc c => acc * 10 + (c.toNat - '0'.toNat)) 0

/-- The function `std::stoll` (base 10): leading white space, an optional sign, then
digits; `none` stands for the exceptions `invalid_argument` (no digit) and
`out_of_range`. -/
def stoll (s : Str) : Option Int :=
  let s1 := s.dropWhile isspace
  let neg := s1.head? = some '-'
  let s2 := if s1.head? = some '-' ∨ s1.head? = some '+' then s1.tail else s1
  let ds := s2.takeWhile Char.isDigit
  if ds.isEmpty then none
  else
    let v : Int := if neg then -(digitsValue ds : Int) else (digitsValue ds : Int)
    if v < -9223372036854775808 ∨ v > 9223372036854775807 then none else some v

/-- The loop of `getSAMChromosomePos`: `rest` is the line from `startPosition` on.
The result is the returned flag with the final values of `chr` and `pos`.  The
loop returns when `count` is 3, so four iterations are the most it can make. -/
def getSAMLoop : Nat → Str → Nat → Str → Int → Except Fault (Bool × Str × Int)
  | 0, _, _, _, _ => .error .outOfFuel
  | fuel + 1, rest, count, chr, pos =>
    match findTab rest with
    | none => .ok (false, chr, pos)
    | some (field, rest1) =>
      if count = 2 then getSAMLoop fuel rest1 (count + 1) field pos
      else if count = 3 then
        match stoll field with
        | none => .error .stdException
        | some v => .ok (if chr = ['*'] then false else true, chr, v)
      else getSAMLoop fuel rest1 (count + 1) chr pos

/-- The function `getSAMChromosomePos`; `chr` and `pos` are passed by reference. -/
def getSAMChromosomePos (line : Str) (chr : Str) (pos : Int) :
    Except Fault (Bool × Str × Int) :=
  getSAMLoop 4 line 0 chr pos

/-- Local variables of `hisat_3n_table` that live across iterations, and `cout`. -/
structure MainState where
  positions : Positions
  samChromosome : Str
  samPos : Int
  reloadPos : Int
  lastPos : Int
  cout : List Row

/-- The body of the loop `while (samPos > reloadPos)`: flush one block, then
`loadMore`, then raise `reloadPos`.  The sum is the mathematical one, not reduced to 64
bits: it is the value of the program's `long long` addition as long as it satisfies
`InLongLong`; a sum outside that range is an overflow of the program. -/
def syncStep (s : MainState) : MainState :=
  let out := startOutput s.positions false
  let r := loadMore s.positions
  { s with
    positions := r.1
    reloadPos := s.reloadPos + (if r.2 ≠ 0 then inf else loadingBlockSize)
    cout := s.cout ++ out }

/-- The loop `while (samPos > reloadPos)` of `hisat_3n_table`. -/
def syncLoop (samPos : Int) : Nat → MainState → MainState
  | 0, s => s
  | fuel + 1, s => if samPos > s.reloadPos then syncLoop samPos fuel (syncStep s) else s

/-- Fuel that lets `syncLoop` run to its exit: every iteration raises `reloadPos`
by at least one block. -/
def syncFuel (samPos reloadPos : Int) : Nat :=
  ((samPos - reloadPos) / loadingBlockSize).toNat + 2

/-- The body of the `if (samChromosome != positions.chromosome)` of `hisat_3n_table`.
An error carries the state at the point of the `throw`. -/
def changeChromosome (s : MainState) : Except (Fault × MainState) MainState :=
  if s.samChromosome ≠ s.positions.chromosome then
    let s1 := { s with cout := s.cout ++ startOutput s.positions true }
    match loadNewChromosome s1.positions s1.samChromosome with
    | .error e => .error (e, s1)
    | .ok (P, meetNext) =>
      .ok { s1 with
            positions := P
            reloadPos := if meetNext ≠ 0 then inf else loadingBlockSize
            lastPos := 0 }
  else .ok s

/-- The second half of an iteration of the `while (true)` of `hisat_3n_table`: the
extend loop, the sortedness test and `appendSync`.  `parse` is `Alignment::parse` of
the absent `alignment_3n_table.h`, called by `appendSync`. -/
def acceptRecord (parse : Str → Alignment) (line : Str) (s2 : MainState) :
    Except (Fault × MainState) MainState :=
  if (syncLoop s2.samPos (syncFuel s2.samPos s2.reloadPos) s2).lastPos >
      (syncLoop s2.samPos (syncFuel s2.samPos s2.reloadPos) s2).samPos then
    .error (.throw1, syncLoop s2.samPos (syncFuel s2.samPos s2.reloadPos) s2)
  else
    match appendPositions (syncLoop s2.samPos (syncFuel s2.samPos s2.reloadPos) s2).positions
        (parse line) with
    | .error e => .error (e, syncLoop s2.samPos (syncFuel s2.samPos s2.reloadPos) s2)
    | .ok P =>
      .ok { syncLoop s2.samPos (syncFuel s2.samPos s2.reloadPos) s2 with
            positions := P
            lastPos := (syncLoop s2.samPos (syncFuel s2.samPos s2.reloadPos) s2).samPos }

/-- One iteration of the `while (true)` of `hisat_3n_table` for the line `line` read
by `fgets`.  An error carries the state at the point where the program stops. -/
def processLine (parse : Str → Alignment) (s : MainState) (line : Str) :
    Except (Fault × MainState) MainState :=
  if line.isEmpty || line.head? = some '@' then .ok s
  else
    match getSAMChromosomePos line s.samChromosome s.samPos with
    | .error e => .error (e, s)
    | .ok (mapped, chr, pos) =>
      if !mapped then .ok { s with samChromosome := chr, samPos := pos }
      else
        match changeChromosome { s with samChromosome := chr, samPos := pos } with
        | .error e => .error e
        | .ok s2 => acceptRecord parse line s2

/-- The `while (true)` loop of `hisat_3n_table` over the lines of standard input. -/
def mainLoop (parse : Str → Alignment) : MainState → List Str →
    Except (Fault × MainState) MainState
  | s, [] => .ok s
  | s, line :: rest =>
    match processLine parse s line with
    | .error e => .error e
    | .ok s1 => mainLoop parse s1 rest

/-- The state of `hisat_3n_table` before the first line; `reloadPos` has no
initialiser in the source, its first value is the parameter `reloadPos0`. -/
def MainState.init (refText : Str) (reloadPos0 : Int) : MainState :=
  { positions := Positions.new refText
    samChromosome := []
    samPos := 0
    reloadPos := reloadPos0
    lastPos := 0
    cout := [] }

/-- The state in which an iteration of the main loop ends: the new state, or the
state at the point where the program stops. -/
def finalState : Except (Fault × MainState) MainState → MainState
  | .ok s => s
  | .error (_, s) => s

/-- The exit status of the process for each way of stopping (`main`'s handlers
return the thrown value 1, `exit(-1)` is status 255).  `outOfFuel` is not an exit
of the program and gets 0 so that no theorem about failure can rest on it. -/
def exitStatus : Fault → Int
  | .throw1 => 1
  | .stdException => 1
  | .exitMinus1 => 255
  | .outOfFuel => 0

/-- The function `hisat_3n_table` as run by `main`: the rows written to `cout` and
the exit status of the process. -/
def hisat_3n_table (parse : Str → Alignment) (refText : Str) (reloadPos0 : Int)
    (stdin : List Str) : List Row × Int :=
  match mainLoop parse (MainState.init refText reloadPos0) stdin with
  | .error (e, s) => (s.cout, exitStatus e)
  | .ok s => (s.cout ++ startOutput s.positions true, 0)

/-! ## Scenarios and auxiliary runs -/

/-- The reference text of Scenario A. -/
def scenarioRef : Str := ">chr1\nCCGGCC\n".toList

/-- A call at offset `i` that is not removed and is classified converted. -/
def convertedCall (i : Int) : PosQuality := ⟨i, i, 'I', true, false⟩

/-- The record of Scenario A: mapped at coordinate 1, six converted calls at offsets 0..5. -/
def scenarioRecord : Alignment :=
  ⟨true, 1, "CCGGCC".toList,
    [convertedCall 0, convertedCall 1, convertedCall 2, convertedCall 3, convertedCall 4,
     convertedCall 5]⟩

/-- The window of Scenario A: reset to chr1, then the record applied. -/
def scenarioWindow : Except Fault Positions :=
  match loadNewChromosome (Positions.new scenarioRef) "chr1".toList with
  | .error e => .error e
  | .ok r => appendPositions r.1 scenarioRecord

/-- The rows expected in Scenario A. -/
def scenarioRows : List Row :=
  [⟨"chr1".toList, 1, '+', 1, 0⟩, ⟨"chr1".toList, 2, '+', 1, 0⟩, ⟨"chr1".toList, 3, '-', 1, 0⟩,
   ⟨"chr1".toList, 4, '-', 1, 0⟩, ⟨"chr1".toList, 5, '+', 1, 0⟩, ⟨"chr1".toList, 6, '+', 1, 0⟩]

/-- Records applied one after the other with `appendPositions`. -/
def appendAll : Positions → List Alignment → Except Fault Positions
  | P, [] => .ok P
  | P, a :: rest =>
    match appendPositions P a with
    | .error e => .error e
    | .ok P1 => appendAll P1 rest

/-- The chromosome index is sorted by name and has no repeated name. -/
def SortedIndex (pos : List ChromosomeFilePosition) : Prop :=
  pos.Pairwise (fun a b => a.chromosome < b.chromosome)

/-- A decoder that reports every line as an unmapped record, for the examples in
which the base calls play no part. -/
def parseUnmapped : Str → Alignment := fun _ => ⟨false, 0, [], []⟩

/-- The line is read as a mapped record by the main loop: it is neither empty nor a
header line, and `getSAMChromosomePos` returns true with `chr` and `pos`. -/
def MappedLine (s : MainState) (line : Str) (chr : Str) (pos : Int) : Prop :=
  (line.isEmpty || line.head? = some '@') = false ∧
  getSAMChromosomePos line s.samChromosome s.samPos = .ok (true, chr, pos)

/-- The state of the main loop on Scenario A's reference after one line, a record at
chr1:1 (decoded as carrying no call). -/
def scenarioState : MainState :=
  finalState (mainLoop parseUnmapped (MainState.init scenarioRef 0) ["r\t0\tchr1\t1\t".toList])

/-- The line is a mapped record with chromosome `chr` and coordinate `pos` whatever the
previous values of the variables `chr` and `pos` of `getSAMChromosomePos` are. -/
def MappedAs (line : Str) (chr : Str) (pos : Int) : Prop :=
  (line.isEmpty || line.head? = some '@') = false ∧
  ∀ (c : Str) (p : Int), getSAMChromosomePos line c p = .ok (true, chr, pos)

/-- The line is not read as a mapped record: it is skipped by the main loop. -/
def SkippedLine (line : Str) : Prop :=
  ∀ (s : MainState) (chr : Str) (pos : Int), ¬ MappedLine s line chr pos

/-- A reference with two chromosomes of two bases each. -/
def twoChrRef : Str := ">chr1\nCC\n>chr2\nCC\n".toList

/-! ## Lines of the reference and reachable windows -/

/-- The lines of a text, as successive calls of `getline` return them. -/
def fileLines : Str → List Str
  | [] => []
  | c :: cs =>
    if c = '\n' then [] :: fileLines cs
    else
      match fileLines cs with
      | [] => [[c]]
      | l :: ls => (c :: l) :: ls

/-- Every sequence line of the text, that is every line that does not start with `>`,
has at most `w` characters. -/
def SeqLinesBounded (w : Nat) (text : Str) : Prop :=
  ∀ l ∈ fileLines text, l.head? ≠ some '>' → l.length ≤ w

/-- Window states over the reference `text`: reached by a reset
(`loadNewChromosome`, from any object holding the file and its index) followed by
any number of extends (`loadMore`) and applied records (`appendPositions`). -/
inductive WindowState (text : Str) : Positions → Prop
  | reset (P P2 : Positions) (name : Str) (m : Int) :
      P.refText = text → P.chromosomePos = LoadChromosomeNamesPos text →
      loadNewChromosome P name = .ok (P2, m) → WindowState text P2
  | extend (P : Positions) : WindowState text P → WindowState text (loadMore P).1
  | record (P P2 : Positions) (a : Alignment) :
      WindowState text P → appendPositions P a = .ok P2 → WindowState text P2

/-- The ring holds the last coordinates loaded: the end cursor is the write cursor
`location` reduced modulo the ring size, and the slot of every coordinate `q + 1`
among the last `2 * 60000 + 67` loaded still stores that coordinate. -/
def RingOk (P : Positions) : Prop :=
  0 ≤ P.location ∧ P.refPosEndPtr = P.location % 120067 ∧
  ∀ q : Int, 0 ≤ q → P.location - 120067 ≤ q → q < P.location →
    (P.refPositions (q % 120067)).location = q + 1

/-- A stream position of the index: the failed `tellg`, or an offset from which on the
sequence lines are bounded. -/
def GoodOffset (w : Nat) (text : Str) (off : Int) : Prop :=
  off < 0 ∨ SeqLinesBounded w (text.drop off.toNat)

/-- Invariant of the window: the ring is consistent, the high-water mark is a whole
number of blocks with the start cursor two blocks below it (modulo the ring size),
the write cursor is less than 67 past the mark, and the unread text has bounded
sequence lines. -/
def WinOk (P : Positions) : Prop :=
  RingOk P ∧
  (∃ k : Nat, P.refCoveredPosition = (k + 2) * 60000 ∧
    P.refPosStartPtr = (k * 60000 : Int) % 120067) ∧
  P.location < P.refCoveredPosition + 67 ∧
  (P.refGood = true → SeqLinesBounded 67 P.refRest)

/-- The method `loadNewChromosome` for the examples: the new window, or the old one
when the chromosome is unknown. -/
def loadOr (P : Positions) (name : Str) : Positions :=
  match loadNewChromosome P name with
  | .ok r => r.1
  | .error _ => P

/-- A reference whose last chromosome, chr1, is shorter than the one before it. -/
def staleRef : Str := ">chr2\nCCGGCCA\n>chr1\nCCGGCC\n".toList

/-- The window after a reset to chr2, a reset to chr1 and one extend. -/
def degenerateWindow : Positions :=
  (loadMore (loadOr (loadOr (Positions.new staleRef) "chr2".toList) "chr1".toList)).1

/-- The window of Scenario A after the reset to chr1. -/
def scenarioLoaded : Positions := loadOr (Positions.new scenarioRef) "chr1".toList

/-- A mapped record at coordinate `c` with one converted call at offset 0. -/
def recordAt (c : Int) : Alignment := ⟨true, c, ['C'], [convertedCall 0]⟩

/-- The number of bases in the lines that precede the next header line. -/
def seqBases : List Str → Nat
  | [] => 0
  | l :: ls => if l.head? = some '>' then 0 else l.length + seqBases ls

/-- The number of bases of the current chromosome that `refFile` has not delivered yet. -/
def remaining (P : Positions) : Int :=
  if P.refGood then (seqBases (fileLines P.refRest) : Int) else 0

/-- The length of chromosome `name`: the bases between its header line and the next
header line or the end of the file (0 when the name is unknown). -/
def chromosomeLength (P : Positions) (name : Str) : Int :=
  match getChromosomePosInRefFile P.chromosomePos name with
  | .ok off => if off < 0 then 0 else (seqBases (fileLines (P.refText.drop off.toNat)) : Int)
  | .error _ => 0

/-- Invariant of the main loop while the window stays on one chromosome of length `L`,
`c0` being the rows written before its reset: the window is a reached window state
whose write cursor is not below its start; either the next header was met (all `L`
bases are loaded and `reloadPos` is out of reach) or `reloadPos` is one block below
the high-water mark, `location` plus the bases still to come is `L`, and the fill
stopped at the mark or at the end of the chromosome; the rows written since are
strictly ascending and lie at or below the start of the window. -/
def SegInv (text : Str) (L : Int) (c0 : List Row) (s : MainState) : Prop :=
  WindowState text s.positions ∧
  s.positions.refCoveredPosition - 2 * loadingBlockSize ≤ s.positions.location ∧
  ((s.positions.location = L ∧ s.positions.location ≤ s.reloadPos) ∨
   (s.reloadPos = s.positions.refCoveredPosition - loadingBlockSize ∧
    s.positions.location + remaining s.positions = L ∧
    (s.positions.refCoveredPosition ≤ s.positions.location ∨ remaining s.positions = 0))) ∧
  ∃ rows, s.cout = c0 ++ rows ∧ rows.Pairwise (fun a b => a.location < b.location) ∧
    ∀ r ∈ rows, r.location ≤ s.positions.refCoveredPosition - 2 * loadingBlockSize

/-! ## A reference with one long sequence line -/

/-- A reference with the single chromosome `c` whose bases `body` stand on one line. -/
def longRef (body : Str) : Str := '>' :: 'c' :: '\n' :: (body ++ ['\n'])

/-- The window of `loadNewChromosome` on `longRef body` just before the fill loop has
read the line. -/
def longBase (body : Str) : Positions :=
  { refPositions := fun _ => Position.initialize
    chromosome := ['c']
    curChromosomeId := 0
    refPosStartPtr := 0
    refPosEndPtr := 0
    location := 0
    refCoveredPosition := 2 * loadingBlockSize
    refText := longRef body
    refRest := []
    refGood := true
    chromosomePos := [⟨['c'], 3⟩] }

/-- The window after the reset to `c` on `longRef body`. -/
def longLoaded (body : Str) : Positions := appendRefPosition (longBase body) body

/-- The function `isalpha` in the "C" locale. -/
def isalpha (c : Char) : Bool := c.isAlpha

/-- The function `std::stoi` (base 10): as `stoll`, with the range of `int`; `none`
stands for the exceptions `invalid_argument` and `out_of_range`. -/
def stoi (s : Str) : Option Int :=
  match stoll s with
  | some v => if v < -2147483648 ∨ v > 2147483647 then none else some v
  | none => none

/-- The call `s.substr(pos, len)`. -/
def substr (s : Str) (pos len : Int) : Str := (s.drop pos.toNat).take len.toNat

/-- Class `string_search`. -/
structure string_search where
  start : Int
  s : Str
  stringLen : Int
  deriving DecidableEq, Repr

/-- The method `string_search::loadString`. -/
def string_search.loadString (intputString : Str) : string_search :=
  { start := 0, s := intputString, stringLen := intputString.length }

/-- Ways in which a call of `CIGAR::getNextSegment` does not return. -/
inductive ScanFault where
  /-- The call of `std::stoi` threw an exception. -/
  | stoiException
  /-- The scan went past the end of the string: `s[currentIndex]` is read outside it. -/
  | pastEnd
  deriving DecidableEq, Repr

/-- The loop `while (true)` of `CIGAR::getNextSegment` over the characters from
`currentIndex` on: the index of the first alphabetic character.  At the end of the
string `s[currentIndex]` is the terminating zero, which is not alphabetic, and the
following read is outside the string. -/
def cigarLoop : Str → Int → Option Int
  | [], _ => none
  | c :: cs, currentIndex =>
    if isalpha c then some currentIndex else cigarLoop cs (currentIndex + 1)

/-- The method `CIGAR::getNextSegment`; `len` and `symbol` are passed by reference.
The result is the returned flag, `len`, `symbol` and the object after the call. -/
def CIGAR.getNextSegment (c : string_search) (len : Int) (symbol : Char) :
    Except ScanFault (Bool × Int × Char × string_search) :=
  if c.start = c.stringLen then .ok (false, len, symbol, c)
  else
    match cigarLoop (c.s.drop c.start.toNat) c.start with
    | none => .error .pastEnd
    | some currentIndex =>
      match stoi (substr c.s c.start (currentIndex - c.start)) with
      | none => .error .stoiException
      | some v =>
        .ok (true, v, (c.s.get? currentIndex.toNat).getD '\x00',
          { c with start := currentIndex + 1 })

/-- Successive calls of `CIGAR::getNextSegment`, at most `n`, up to the first one that
returns false: the `(len, symbol)` pairs of the calls that returned true. -/
def CIGAR.calls : Nat → string_search → Except ScanFault (List (Int × Char))
  | 0, _ => .ok []
  | n + 1, c =>
    match CIGAR.getNextSegment c 0 '\x00' with
    | .error e => .error e
    | .ok (false, _, _, _) => .ok []
    | .ok (true, len, symbol, c1) =>
      match CIGAR.calls n c1 with
      | .error e => .error e
      | .ok l => .ok ((len, symbol) :: l)

/-- The loop `while (true)` of `MD_tag::getNextSegment` over the characters from
`currentIndex` on, with the local variables `seg` and `deletion`: the returned flag,
`seg` and the new value of `start`.  The empty list is the case
`currentIndex >= stringLen`. -/
def mdLoop : Str → Int → Str → Bool → Bool × Str × Int
  | [], currentIndex, seg, _ => (!seg.isEmpty, seg, currentIndex + 1)
  | c :: cs, currentIndex, seg, deletion =>
    if seg.isEmpty && c = '0' then mdLoop cs (currentIndex + 1) seg deletion
    else if isalpha c then
      if seg.isEmpty then (true, [c], currentIndex + 1)
      else if deletion then mdLoop cs (currentIndex + 1) (seg ++ [c]) deletion
      else (true, seg, currentIndex)
    else if c = '^' then
      if seg.isEmpty then mdLoop cs (currentIndex + 1) [c] true
      else (true, seg, currentIndex)
    else
      if seg.isEmpty then mdLoop cs (currentIndex + 1) [c] deletion
      else if deletion || (match seg.getLast? with
                           | some l => isalpha l
                           | none => false) then (true, seg, currentIndex)
      else mdLoop cs (currentIndex + 1) (seg ++ [c]) deletion

/-- The method `MD_tag::getNextSegment`; `seg` is passed by reference.  The result is
the returned flag, `seg` and the object after the call. -/
def MD_tag.getNextSegment (m : string_search) (seg : Str) : Bool × Str × string_search :=
  if m.start ≥ m.stringLen then (false, seg, m)
  else
    let r := mdLoop (m.s.drop m.start.toNat) m.start [] false
    (r.1, r.2.1, { m with start := r.2.2 })

/-- Successive calls of `MD_tag::getNextSegment`, at most `n`, up to the first one that
returns false: the segments of the calls that returned true. -/
def MD_tag.calls : Nat → string_search → List Str
  | 0, _ => []
  | n + 1, m =>
    let r := MD_tag.getNextSegment m []
    if r.1 then r.2.1 :: MD_tag.calls n r.2.2 else []

/-- The CIGAR string of a list of tokens, each a digit string and an operation symbol. -/
def cigarString (tokens : List (Str × Char)) : Str :=
  tokens.flatMap (fun t => t.1 ++ [t.2])

/-- A CIGAR token the scan of `CIGAR::getNextSegment` delimits: one or more decimal
digits whose value fits an `int`, followed by an alphabetic operation symbol. -/
def CigarToken (t : Str × Char) : Prop :=
  t.1 ≠ [] ∧ (∀ c ∈ t.1, c.isDigit = true) ∧ digitsValue t.1 ≤ 2147483647 ∧ isalpha t.2 = true

/-! ## MD strings -/

/-- An item of an MD string between two numbers: a substituted reference base, or a
deletion (`^` followed by the deleted bases). -/
inductive MdItem where
  | substitution (base : Char)
  | deletion (bases : Str)
  deriving DecidableEq, Repr

/-- The characters of an item. -/
def MdItem.text : MdItem → Str
  | .substitution base => [base]
  | .deletion bases => '^' :: bases

/-- An item is a single letter, or `^` followed by one or more letters. -/
def MdItem.WellFormed : MdItem → Prop
  | .substitution base => isalpha base = true
  | .deletion bases => bases ≠ [] ∧ ∀ c ∈ bases, isalpha c = true

/-- A number of an MD string: one or more decimal digits. -/
def MdNumber (n : Str) : Prop := n ≠ [] ∧ ∀ c ∈ n, c.isDigit = true

/-- The MD string `number (item number)*`. -/
def mdString (n0 : Str) (items : List (MdItem × Str)) : Str :=
  n0 ++ items.flatMap (fun p => p.1.text ++ p.2)

/-- The segment owed to a number: none when its value is zero, else its digits without
the leading zeros. -/
def numberSegment (n : Str) : List Str :=
  if digitsValue n = 0 then [] else [n.dropWhile (fun c => c = '0')]

/-- The segments owed to the MD string `mdString n0 items`, in left-to-right order. -/
def mdSegments (n0 : Str) (items : List (MdItem × Str)) : List Str :=
  numberSegment n0 ++ items.flatMap (fun p => p.1.text :: numberSegment p.2)

/-- The object holding the string `pre ++ rest` with the cursor `start` behind `pre`. -/
def stateAt (pre rest : Str) : string_search :=
  { start := pre.length, s := pre ++ rest, stringLen := (pre ++ rest).length }

/-- The body of the loop `while (samPos > reloadPos)` executed `n` times. -/
def syncN : Nat → MainState → MainState
  | 0, s => s
  | n + 1, s => syncN n (syncStep s)

/-! ## The effect of a record on the window -/

/-- The calls of a record that `appendPositions` applies: none for an unmapped record or
a record without calls, else the calls `bases[i]` for `i < sequence.size()` that are not
marked `remove`. -/
def visitedCalls (a : Alignment) : List PosQuality :=
  if !a.mapped || a.bases.isEmpty then []
  else (a.bases.take a.sequence.length).filter (fun b => !b.remove)

/-- The number of calls among `bs` that are not marked `remove`, have the flag
`converted` equal to `conv` and are aimed at slot `i`. -/
def callsAt (index : Int) (bs : List PosQuality) (conv : Bool) (i : Int) : Nat :=
  (bs.filter (fun b => !b.remove && (b.converted == conv) &&
    decide (Mod (index + b.refPos) = i))).length

/-- The number of calls among `bs` that are not marked `remove`, have the flag
`converted` equal to `conv` and whose coordinate is `c`. -/
def callsOn (startPos : Int) (bs : List PosQuality) (conv : Bool) (c : Int) : Nat :=
  (bs.filter (fun b => !b.remove && (b.converted == conv) &&
    decide (startPos + b.refPos = c))).length

/-- A position after `n1` converted and `n0` unconverted calls have been aimed at it:
unchanged when its strand is unset, else the counters grow (as `unsigned short`) and
the position is not empty once a call has arrived. -/
def Position.addCalls (p : Position) (n1 n0 : Nat) : Position :=
  if p.strand = '?' then p
  else
    { p with
      convertedCount := if n1 = 0 then p.convertedCount else (p.convertedCount + n1) % 65536
      unconvertedCount :=
        if n0 = 0 then p.unconvertedCount else (p.unconvertedCount + n0) % 65536
      empty := if n1 + n0 = 0 then p.empty else false }

/-- The coordinate just below the first resident one: the high-water mark less two
blocks. -/
def windowBase (P : Positions) : Int := P.refCoveredPosition - 2 * loadingBlockSize

/-- The last accepted record lies inside the window: its coordinate is above the window
base, unless the window still starts at the beginning of the chromosome. -/
def LowInv (s : MainState) : Prop :=
  windowBase s.positions = 0 ∨ windowBase s.positions < s.lastPos

/-- What the segment theorems ask of a line: if it is read as a mapped record, it names
chromosome `X` at a coordinate from 1 to `L`, the decoder reports the same coordinate,
and every call it applies has an offset from 0 to `blockSize - 1` and a coordinate up to
`L`. -/
def RecordInside (parse : Str → Alignment) (X : Str) (L : Int) (l : Str) : Prop :=
  ∀ (st : MainState) (chr : Str) (pos : Int), MappedLine st l chr pos →
    chr = X ∧ 1 ≤ pos ∧ pos ≤ L ∧ (parse l).location = pos ∧
    ∀ b ∈ visitedCalls (parse l),
      0 ≤ b.refPos ∧ b.refPos < loadingBlockSize ∧ pos + b.refPos ≤ L

/-- A record of chromosome `c` at coordinate 1. -/
def lapLine : Str := "r\t0\tc\t1\t".toList

/-! ## Chromosome ids of the resident slots -/

/-- The slot of every coordinate among the last `2 * 60000 + 67` loaded carries the id of
the window's chromosome (as the `short` it is stored in). -/
def RingChr (P : Positions) : Prop :=
  ∀ q : Int, 0 ≤ q → P.location - 120067 ≤ q → q < P.location →
    (P.refPositions (q % 120067)).chromosomeId = toInt16 P.curChromosomeId

/-- Invariant of the main loop while the window stays on chromosome `X`, `c0` being the
rows written before its reset: the id of the window is the one of `X` in the index, and
every row written since names `X`. -/
def ChrInv (X : Str) (c0 : List Row) (s : MainState) : Prop :=
  getChromesomeString s.positions.chromosomePos (toInt16 s.positions.curChromosomeId) = X ∧
  ∃ rows, s.cout = c0 ++ rows ∧ ∀ r ∈ rows, r.chr = X

/-! ## Counters of a position -/

/-- The method `Position::appendBase` called once for each call of the list, in order. -/
def appendBases (p : Position) (calls : List PosQuality) : Position :=
  calls.foldl Position.appendBase p

/-- The number of calls of the list that are classified converted. -/
def convertedCalls (calls : List PosQuality) : Nat :=
  (calls.filter (fun b => b.converted)).length

/-! ## Repeated calls of `MD_tag::getNextSegment` -/

/-- The object after `n` calls of `MD_tag::getNextSegment`, whatever they returned. -/
def MD_tag.after : Nat → string_search → string_search
  | 0, m => m
  | n + 1, m => MD_tag.after n (MD_tag.getNextSegment m []).2.2

/-- The object holds a loaded string: `stringLen` is the size of `s`, and the cursor is
not negative (as after `loadString` and after every call of `getNextSegment`). -/
def MdLoaded (m : string_search) : Prop := m.stringLen = m.s.length ∧ 0 ≤ m.start

/-! ## Room in the ring -/

/-- The argument `x` of a call of `Mod` lies in `[0, 2 * (2 * blockSize + 67))`, where
the one conditional subtraction of `Mod` gives the remainder. -/
def ModExact (x : Int) : Prop :=
  0 ≤ x ∧ x < 2 * (2 * loadingBlockSize + 67) ∧ Mod x = x % (2 * loadingBlockSize + 67)

/-- What holds of the window `F` at every iteration of a fill loop that works for a
window whose positions loaded before the fill are those up to coordinate `loc0` held by
`ref0`: the end cursor is inside the ring, fewer positions are resident than the ring
has slots, every call `Mod(cur + i)` of `appendRefPosition` for a line of at most 67
bases is exact, and the slot of every coordinate that was loaded before and is still
resident is as it was. -/
def FillOk (ref0 : Int → Position) (loc0 : Int) (F : Positions) : Prop :=
  0 ≤ F.refPosEndPtr ∧ F.refPosEndPtr < 2 * loadingBlockSize + 67 ∧
  F.location - windowBase F < 2 * loadingBlockSize + 67 ∧
  (∀ i : Int, 0 ≤ i → i ≤ 67 → ModExact (F.refPosEndPtr + i)) ∧
  ∀ c : Int, windowBase F < c → c ≤ loc0 →
    F.refPositions ((c - 1) % (2 * loadingBlockSize + 67))
      = ref0 ((c - 1) % (2 * loadingBlockSize + 67))

/-! ## Rows of a flush -/

/-- The value `x` can be held by a `long long`. -/
def InLongLong (x : Int) : Prop := -9223372036854775808 ≤ x ∧ x ≤ 9223372036854775807

/-- Conversion of an integer value to a 64-bit `long long` (two's complement). -/
def toInt64 (x : Int) : Int :=
  (x + 9223372036854775808) % 18446744073709551616 - 9223372036854775808

/-- A record of chr1 at the largest coordinate `stoll` returns. -/
def overflowLine : Str := "r\t0\tchr1\t9223372036854775807\t".toList

/-- The state of the main loop on Scenario A's reference when the first line is
`overflowLine`, after the reset to chr1 and before the loop `while (samPos > reloadPos)`. -/
def overflowState : MainState :=
  finalState (changeChromosome
    { MainState.init scenarioRef 0 with
      samChromosome := "chr1".toList, samPos := 9223372036854775807 })

/-! ## Rows owed to a chromosome -/

theorem Mod_of_lt {x : Int} (h : x < 120067) : Mod x = x := by
  unfold Mod loadingBlockSize; split <;> omega

theorem Mod_of_ge {x : Int} (h : 120067 ≤ x) : Mod x = x - 120067 := by
  unfold Mod loadingBlockSize; split <;> omega

theorem Mod_inj {a b : Int} (hab : a - b < 120067) (hba : b - a < 120067)
    (h : Mod a = Mod b) : a = b := by
  unfold Mod loadingBlockSize at h
  split at h <;> split at h <;> omega

theorem appendRefLoop_other (id loc cur : Int) (line : Str) (i0 : Int) (ref : Int → Position)
    (j : Int) (hj : ∀ k : Nat, k < line.length → Mod (cur + (i0 + k)) ≠ j) :
    appendRefLoop id loc cur line i0 ref j = ref j := by
  induction line generalizing i0 ref with
  | nil => rfl
  | cons b bs ih =>
    simp only [appendRefLoop]
    rw [ih]
    · have h0 := hj 0 (by simp)
      simp only [Nat.cast_zero, add_zero] at h0
      exact Function.update_noteq (Ne.symm h0) _ _
    · intro k hk
      have := hj (k + 1) (by simp; omega)
      have e : i0 + 1 + (k : Int) = i0 + ((k + 1 : Nat) : Int) := by push_cast; ring
      rw [e]; exact this

theorem appendRefLoop_at (id loc cur : Int) (line : Str) (i0 : Int) (ref : Int → Position)
    (k : Nat) (b : Char) (hk : line.get? k = some b)
    (hlast : ∀ k2 : Nat, k < k2 → k2 < line.length → Mod (cur + (i0 + k2)) ≠ Mod (cur + (i0 + k))) :
    appendRefLoop id loc cur line i0 ref (Mod (cur + (i0 + k))) = refSlot id loc (i0 + k) b := by
  induction line generalizing i0 ref k with
  | nil => simp at hk
  | cons c cs ih =>
    simp only [appendRefLoop]
    cases k with
    | zero =>
      simp at hk
      subst hk
      rw [appendRefLoop_other]
      · rw [show i0 + ((0 : Nat) : Int) = i0 by simp, Function.update_same]
      · intro k2 hk2
        have := hlast (k2 + 1) (by omega) (by simp; omega)
        simp only [Nat.cast_zero, add_zero] at this ⊢
        have e : i0 + 1 + (k2 : Int) = i0 + ((k2 + 1 : Nat) : Int) := by push_cast; ring
        rw [e]; exact this
    | succ k =>
      simp at hk
      have e : i0 + ((k + 1 : Nat) : Int) = i0 + 1 + (k : Int) := by push_cast; ring
      rw [e]
      apply ih _ _ _ (by simpa using hk)
      intro k2 h1 h2
      have := hlast (k2 + 1) (by omega) (by simp; omega)
      have e2 : i0 + ((k2 + 1 : Nat) : Int) = i0 + 1 + (k2 : Int) := by push_cast; ring
      rw [e, e2] at this
      exact this

/-- C1. Scenario A: on the reference ">chr1\nCCGGCC\n", a reset to chr1, one mapped
record at coordinate 1 with six converted calls at offsets 0..5, and a final flush
print exactly the rows 1 +, 2 +, 3 -, 4 -, 5 +, 6 +, each with counts 1 and 0. -/
theorem scenarioA_rows :
    ∃ P : Positions, scenarioWindow = .ok P ∧
      startOutput P true =
        [⟨"chr1".toList, 1, '+', 1, 0⟩, ⟨"chr1".toList, 2, '+', 1, 0⟩,
         ⟨"chr1".toList, 3, '-', 1, 0⟩, ⟨"chr1".toList, 4, '-', 1, 0⟩,
         ⟨"chr1".toList, 5, '+', 1, 0⟩, ⟨"chr1".toList, 6, '+', 1, 0⟩] :=
  ⟨_, rfl, rfl⟩

theorem outputRow_strand (cp : List ChromosomeFilePosition) (p : Position) (r : Row)
    (h : r ∈ outputRow cp p) : r.strand ≠ '?' ∧ p.strand ≠ '?' ∧ p.empty = false := by
  unfold outputRow at h
  split at h
  · rename_i hc
    simp at h
    subst h
    simp at hc
    simp [hc]
  · simp at h

theorem outputRow_unset (cp : List ChromosomeFilePosition) (p : Position)
    (h : p.strand = '?') : outputRow cp p = [] := by
  simp [outputRow, h]

theorem outputLoop_strand (P : Positions) (e : Int) (fuel : Nat) (i : Int) (r : Row)
    (h : r ∈ outputLoop P e fuel i) : r.strand ≠ '?' := by
  induction fuel generalizing i with
  | zero => simp [outputLoop] at h
  | succ n ih =>
    simp only [outputLoop] at h
    split at h
    · rcases List.mem_append.mp h with h1 | h1
      · exact (outputRow_strand _ _ _ h1).1
      · exact ih _ h1
    · simp at h

theorem appendBase_frame (p : Position) (b : PosQuality) :
    (p.appendBase b).location = p.location ∧ (p.appendBase b).strand = p.strand ∧
    (p.appendBase b).chromosomeId = p.chromosomeId := by
  unfold Position.appendBase; split <;> simp

theorem appendPositionsLoop_frame (startPos index : Int) (bs : List PosQuality)
    (ref ref2 : Int → Position) (h : appendPositionsLoop startPos index bs ref = .ok ref2) (j : Int) :
    (ref2 j).location = (ref j).location ∧ (ref2 j).strand = (ref j).strand ∧
    (ref2 j).chromosomeId = (ref j).chromosomeId ∧
    ((ref j).strand = '?' → ref2 j = ref j) := by
  induction bs generalizing ref with
  | nil => simp [appendPositionsLoop] at h; subst h; simp
  | cons b bs ih =>
    simp only [appendPositionsLoop] at h
    split at h
    · exact ih ref h
    · split at h
      · simp at h
      · split at h
        · exact ih ref h
        · rename_i hs
          have := ih _ h
          by_cases hj : j = Mod (index + b.refPos)
          · subst hj
            simp only [Function.update_same] at this
            have f := appendBase_frame (ref (Mod (index + b.refPos))) b
            refine ⟨this.1.trans f.1, this.2.1.trans f.2.1, this.2.2.1.trans f.2.2, ?_⟩
            intro h2; exact absurd h2 hs
          · simp only [Function.update_noteq hj] at this
            exact this

theorem appendPositions_frame (P P2 : Positions) (a : Alignment)
    (h : appendPositions P a = .ok P2) (j : Int) :
    (P2.refPositions j).location = (P.refPositions j).location ∧
    (P2.refPositions j).strand = (P.refPositions j).strand ∧
    (P2.refPositions j).chromosomeId = (P.refPositions j).chromosomeId ∧
    ((P.refPositions j).strand = '?' → P2.refPositions j = P.refPositions j) := by
  unfold appendPositions at h
  split at h
  · simp at h; subst h; simp
  · dsimp only at h
    split at h
    · rename_i ref hl
      simp at h; subst h
      exact appendPositionsLoop_frame _ _ _ _ _ hl j
    · simp at h

theorem appendPositions_cursors (P P2 : Positions) (a : Alignment)
    (h : appendPositions P a = .ok P2) :
    P2.refPosStartPtr = P.refPosStartPtr ∧ P2.refPosEndPtr = P.refPosEndPtr ∧
    P2.location = P.location ∧ P2.refCoveredPosition = P.refCoveredPosition ∧
    P2.chromosome = P.chromosome ∧ P2.curChromosomeId = P.curChromosomeId ∧
    P2.chromosomePos = P.chromosomePos ∧ P2.refText = P.refText ∧ P2.refRest = P.refRest ∧
    P2.refGood = P.refGood := by
  unfold appendPositions at h
  split at h
  · simp at h; subst h; simp
  · dsimp only at h
    split at h
    · simp at h; subst h; simp
    · simp at h

theorem appendAll_frame (P P2 : Positions) (records : List Alignment)
    (h : appendAll P records = .ok P2) (j : Int) :
    (P2.refPositions j).strand = (P.refPositions j).strand ∧
    ((P.refPositions j).strand = '?' → P2.refPositions j = P.refPositions j) := by
  induction records generalizing P with
  | nil => simp [appendAll] at h; subst h; simp
  | cons a rest ih =>
    simp only [appendAll] at h
    split at h
    · simp at h
    · rename_i P1 h1
      have f := appendPositions_frame P P1 a h1 j
      have g := ih P1 h
      refine ⟨g.1.trans f.2.1, ?_⟩
      intro hs
      rw [g.2 (f.2.1.trans hs), f.2.2.2 hs]

theorem refSlot_strand (id loc i : Int) (b : Char) :
    (refSlot id loc i b).strand =
      (if b = convertFrom then '+' else if b = convertFromComplement then '-' else '?') ∧
    (refSlot id loc i b).location = loc + i + 1 ∧
    (refSlot id loc i b).empty = true ∧
    (refSlot id loc i b).chromosomeId = toInt16 id := by
  unfold refSlot
  simp only [Position.set, Position.setStrand, Position.initialize]
  split
  · simp
  · split <;> simp

/-- Slot written by `appendRefPosition` for the base at index `k` of the line, when
the line does not lap the ring. -/
theorem appendRefPosition_slot (P : Positions) (line : Str) (k : Nat) (b : Char)
    (hlen : (line.length : Int) ≤ 2 * loadingBlockSize + 67)
    (hk : line.get? k = some b) :
    (appendRefPosition P line).refPositions (Mod (P.refPosEndPtr + k)) =
      refSlot P.curChromosomeId P.location k b := by
  have h := appendRefLoop_at P.curChromosomeId P.location P.refPosEndPtr line 0 P.refPositions k b hk
  simp only [zero_add] at h
  apply h
  intro k2 h1 h2 heq
  have hk2 : k < line.length := by
    rcases List.get?_eq_some.mp hk with ⟨hh, _⟩; exact hh
  unfold loadingBlockSize at hlen
  have := Mod_inj (a := P.refPosEndPtr + k2) (b := P.refPosEndPtr + k) (by omega) (by omega) heq
  omega

/-- C3. A reference base loaded by `appendRefPosition` gets strand `+` when it is the
monitored base `C`, `-` when it is the complement `G`, and keeps the unset strand `?`
otherwise (the slot of the base at index `k` is read after the call, provided no
later base of the same line was written over it); whatever records are then applied,
no row printed by `startOutput` has an unset strand, and a slot with unset strand is
left untouched and prints no row. -/
theorem strand_classification (P : Positions) (line : Str) (k : Nat) (b : Char)
    (records : List Alignment) (final_ : Bool)
    (hk : line.get? k = some b)
    (hlast : ∀ k2 : Nat, k < k2 → k2 < line.length →
      Mod (P.refPosEndPtr + k2) ≠ Mod (P.refPosEndPtr + k)) :
    ((appendRefPosition P line).refPositions (Mod (P.refPosEndPtr + k))).strand =
      (if b = convertFrom then '+' else if b = convertFromComplement then '-' else '?') ∧
    ∀ P2, appendAll (appendRefPosition P line) records = .ok P2 →
      (∀ r ∈ startOutput P2 final_, r.strand ≠ '?') ∧
      ∀ j, ((appendRefPosition P line).refPositions j).strand = '?' →
        P2.refPositions j = (appendRefPosition P line).refPositions j ∧
        outputRow P2.chromosomePos (P2.refPositions j) = [] := by
  refine ⟨?_, ?_⟩
  · have h := appendRefLoop_at P.curChromosomeId P.location P.refPosEndPtr line 0
      P.refPositions k b hk (by simpa only [zero_add] using hlast)
    simp only [zero_add] at h
    show (appendRefLoop P.curChromosomeId P.location P.refPosEndPtr line 0 P.refPositions
      (Mod (P.refPosEndPtr + k))).strand = _
    rw [h]
    exact (refSlot_strand _ _ _ _).1
  · intro P2 h2
    refine ⟨?_, ?_⟩
    · intro r hr
      exact outputLoop_strand _ _ _ _ _ hr
    · intro j hj
      have f := appendAll_frame _ _ _ h2 j
      refine ⟨f.2 hj, ?_⟩
      apply outputRow_unset
      rw [f.1]; exact hj

/-- Witness of `strand_classification`: the line "CGA" loaded into the new window of
Scenario A's reference, base `A` at index 2, followed by a record at coordinate 1. -/
theorem strand_classification_witness :
    ((appendRefPosition (Positions.new scenarioRef) "CGA".toList).refPositions
        (Mod ((Positions.new scenarioRef).refPosEndPtr + (2 : Nat)))).strand =
      (if 'A' = convertFrom then '+' else if 'A' = convertFromComplement then '-' else '?') ∧
    ∀ P2, appendAll (appendRefPosition (Positions.new scenarioRef) "CGA".toList)
        [recordAt 1] = .ok P2 →
      (∀ r ∈ startOutput P2 true, r.strand ≠ '?') ∧
      ∀ j, ((appendRefPosition (Positions.new scenarioRef) "CGA".toList).refPositions j).strand
          = '?' →
        P2.refPositions j =
          (appendRefPosition (Positions.new scenarioRef) "CGA".toList).refPositions j ∧
        outputRow P2.chromosomePos (P2.refPositions j) = [] :=
  strand_classification (Positions.new scenarioRef) "CGA".toList 2 'A' [recordAt 1] true
    (by decide) (by intro k2 h1 h2; simp at h2; omega)

/-- C8 (as stated, refuted). In Scenario A the window is flushed by `startOutput(true)`;
a second call, with no record applied in between, prints the six rows again. -/
theorem flush_twice_repeats :
    ∃ P : Positions, scenarioWindow = .ok P ∧
      startOutput P true = scenarioRows ∧ startOutput P true ≠ [] :=
  ⟨_, rfl, rfl, fun hc => List.noConfusion (hc.symm.trans rfl : [] = scenarioRows)⟩

theorem outputLoop_self (P : Positions) (e : Int) (fuel : Nat) : outputLoop P e fuel e = [] := by
  cases fuel <;> simp [outputLoop]

/-- C8 (amended). `startOutput(true)` on an empty range, start cursor equal to end
cursor, prints no row. -/
theorem flush_empty_range (P : Positions) (h : P.refPosStartPtr = P.refPosEndPtr) :
    startOutput P true = [] := by
  unfold startOutput
  simp only [if_true, h]
  exact outputLoop_self _ _ _

/-- Witness of `flush_empty_range`: the window just after construction. -/
theorem flush_empty_range_witness :
    (Positions.new scenarioRef).refPosStartPtr = (Positions.new scenarioRef).refPosEndPtr ∧
    startOutput (Positions.new scenarioRef) true = [] :=
  ⟨rfl, flush_empty_range (Positions.new scenarioRef) rfl⟩

theorem getChromesomeString_nat (pos : List ChromosomeFilePosition) (i : Nat)
    (e : ChromosomeFilePosition) (h : pos.get? i = some e) :
    getChromesomeString pos (i : Int) = e.chromosome := by
  unfold getChromesomeString
  have h2 : pos.get? (i : Int).toNat = some e := by simpa using h
  rw [if_neg (by omega), h2]

theorem sortedIndex_lt {pos : List ChromosomeFilePosition} (hs : SortedIndex pos)
    {i j : Nat} {a b : ChromosomeFilePosition} (hi : pos.get? i = some a)
    (hj : pos.get? j = some b) (hij : i < j) : a.chromosome < b.chromosome := by
  rcases List.get?_eq_some.mp hi with ⟨h1, rfl⟩
  rcases List.get?_eq_some.mp hj with ⟨h2, rfl⟩
  exact (List.pairwise_iff_get.mp hs) ⟨i, h1⟩ ⟨j, h2⟩ hij

theorem findChromosomeAux_spec (pos : List ChromosomeFilePosition) (hs : SortedIndex pos)
    (name : Str) (fuel : Nat) (start end_ : Int) (h0 : 0 ≤ start)
    (h1 : end_ < pos.length) (hf : (end_ - start + 1).toNat < fuel) :
    ((∀ (i : Nat) (e : ChromosomeFilePosition), start ≤ i → (i : Int) ≤ end_ →
        pos.get? i = some e → e.chromosome ≠ name) →
      findChromosomeAux pos name fuel start end_ = .error .throw1) ∧
    (∀ (i : Nat) (e : ChromosomeFilePosition), start ≤ i → (i : Int) ≤ end_ →
        pos.get? i = some e → e.chromosome = name →
      findChromosomeAux pos name fuel start end_ = .ok (i : Int)) := by
  induction fuel generalizing start end_ with
  | zero => omega
  | succ n ih =>
    simp only [findChromosomeAux]
    by_cases hse : start ≤ end_
    · simp only [hse, if_true]
      have hm : (start + end_).tdiv 2 = (start + end_) / 2 :=
        Int.tdiv_eq_ediv (by omega) (by omega)
      rw [hm]
      obtain ⟨m, hmm⟩ : ∃ m : Nat, ((start + end_) / 2 : Int) = m :=
        ⟨((start + end_) / 2).toNat, by omega⟩
      rw [hmm]
      have hml : m < pos.length := by omega
      obtain ⟨em, hem⟩ : ∃ em, pos.get? m = some em :=
        ⟨pos.get ⟨m, hml⟩, List.get?_eq_get hml⟩
      rw [getChromesomeString_nat pos m em hem]
      by_cases heq : em.chromosome = name
      · simp only [heq, if_true]
        constructor
        · intro hall
          exact absurd heq (hall m em (by omega) (by omega) hem)
        · intro i e hi1 hi2 hie hname
          rcases Nat.lt_trichotomy i m with hlt | heq2 | hgt
          · have := sortedIndex_lt hs hie hem hlt
            rw [hname, heq] at this
            exact absurd this (lt_irrefl _)
          · rw [heq2]
          · have := sortedIndex_lt hs hem hie hgt
            rw [hname, heq] at this
            exact absurd this (lt_irrefl _)
      · simp only [heq, if_false]
        by_cases hlt : name < em.chromosome
        · simp only [hlt, if_true]
          have := ih start ((m : Int) - 1) h0 (by omega) (by omega)
          constructor
          · intro hall
            exact this.1 (fun i e a b c => hall i e a (by omega) c)
          · intro i e hi1 hi2 hie hname
            apply this.2 i e hi1 _ hie hname
            by_contra hc
            have hmi : m ≤ i := by omega
            rcases Nat.lt_or_eq_of_le hmi with h3 | h3
            · have := sortedIndex_lt hs hem hie h3
              rw [hname] at this
              exact absurd (lt_trans hlt this) (lt_irrefl _)
            · subst h3
              rw [hem] at hie
              cases hie
              exact heq hname
        · simp only [hlt, if_false]
          have := ih ((m : Int) + 1) end_ (by omega) h1 (by omega)
          constructor
          · intro hall
            exact this.1 (fun i e a b c => hall i e (by omega) b c)
          · intro i e hi1 hi2 hie hname
            apply this.2 i e _ hi2 hie hname
            by_contra hc
            have hmi : i ≤ m := by omega
            rcases Nat.lt_or_eq_of_le hmi with h3 | h3
            · have := sortedIndex_lt hs hie hem h3
              rw [hname] at this
              exact hlt this
            · subst h3
              rw [hem] at hie
              cases hie
              exact heq hname
    · simp only [hse, if_false]
      constructor
      · intro _; trivial
      · intro i e hi1 hi2; omega

/-- The recursion of `findChromosome` never runs out of the fuel the wrapper supplies:
more fuel gives the same result. -/
theorem findChromosomeAux_fuel (pos : List ChromosomeFilePosition) (name : Str)
    (fuel : Nat) (start end_ : Int) (h0 : 0 ≤ start) (h1 : end_ < pos.length)
    (hf : (end_ - start + 1).toNat < fuel) :
    findChromosomeAux pos name fuel start end_ = findChromosome pos name start end_ := by
  unfold findChromosome
  generalize hg : (end_ - start + 1).toNat + 1 = g
  have hg2 : (end_ - start + 1).toNat < g := by omega
  clear hg
  induction fuel generalizing start end_ g with
  | zero => omega
  | succ n ih =>
    cases g with
    | zero => omega
    | succ g =>
      simp only [findChromosomeAux]
      by_cases hse : start ≤ end_
      · simp only [hse, if_true]
        have hm : (start + end_).tdiv 2 = (start + end_) / 2 :=
          Int.tdiv_eq_ediv (by omega) (by omega)
        rw [hm]
        split
        · rfl
        · split
          · exact ih start _ h0 (by omega) (by omega) g (by omega)
          · exact ih _ end_ (by omega) h1 (by omega) g (by omega)
      · simp only [hse, if_false]

/-- C6. On a chromosome index sorted by name without repeated names (the empty index
included), `findChromosome(name, 0, size-1)` returns the index of the entry named
`name` when there is one and `getChromosomePosInRefFile` returns that entry's file
offset; the search ends in `throw 1` exactly when no entry has that name. -/
theorem findChromosome_sorted (pos : List ChromosomeFilePosition) (name : Str)
    (hs : SortedIndex pos) :
    (∀ (i : Nat) (e : ChromosomeFilePosition), pos.get? i = some e → e.chromosome = name →
      findChromosome pos name 0 ((pos.length : Int) - 1) = .ok (i : Int) ∧
      getChromosomePosInRefFile pos name = .ok e.linePos) ∧
    (findChromosome pos name 0 ((pos.length : Int) - 1) = .error .throw1 ↔
      ∀ e ∈ pos, e.chromosome ≠ name) ∧
    (getChromosomePosInRefFile pos name = .error .throw1 ↔
      ∀ e ∈ pos, e.chromosome ≠ name) := by
  have key := findChromosomeAux_spec pos hs name
    (((pos.length : Int) - 1 - 0 + 1).toNat + 1) 0 ((pos.length : Int) - 1)
    (le_refl _) (by omega) (by omega)
  have hpresent : ∀ (i : Nat) (e : ChromosomeFilePosition), pos.get? i = some e →
      e.chromosome = name →
      findChromosome pos name 0 ((pos.length : Int) - 1) = .ok (i : Int) := by
    intro i e hie hname
    rcases List.get?_eq_some.mp hie with ⟨hlt, _⟩
    exact key.2 i e (by omega) (by omega) hie hname
  have habsent : (∀ e ∈ pos, e.chromosome ≠ name) →
      findChromosome pos name 0 ((pos.length : Int) - 1) = .error .throw1 := by
    intro hall
    apply key.1
    intro i e _ _ hie
    exact hall e (List.get?_mem hie)
  have hiff : findChromosome pos name 0 ((pos.length : Int) - 1) = .error .throw1 ↔
      ∀ e ∈ pos, e.chromosome ≠ name := by
    constructor
    · intro herr e he hname
      rcases List.mem_iff_get?.mp he with ⟨i, hi⟩
      rw [hpresent i e hi hname] at herr
      cases herr
    · exact habsent
  refine ⟨?_, hiff, ?_⟩
  · intro i e hie hname
    refine ⟨hpresent i e hie hname, ?_⟩
    unfold getChromosomePosInRefFile
    rw [hpresent i e hie hname]
    have h2 : pos.get? (i : Int).toNat = some e := by simpa using hie
    simp only [h2]
  · unfold getChromosomePosInRefFile
    constructor
    · intro h
      apply hiff.mp
      split at h
      · cases h
      · rename_i e2 h2
        rw [h2]
        cases h
        rfl
    · intro hall
      rw [hiff.mpr hall]

/-- Witness of `findChromosome_sorted`: an index with the entries chr1 and chr2. -/
theorem findChromosome_sorted_witness :
    SortedIndex [⟨"chr1".toList, 6⟩, ⟨"chr2".toList, 20⟩] ∧
    findChromosome [⟨"chr1".toList, 6⟩, ⟨"chr2".toList, 20⟩] "chr2".toList 0
      ((([⟨"chr1".toList, 6⟩, ⟨"chr2".toList, 20⟩] : List ChromosomeFilePosition).length : Int)
        - 1) = .ok ((1 : Nat) : Int) ∧
    getChromosomePosInRefFile [⟨"chr1".toList, 6⟩, ⟨"chr2".toList, 20⟩] "chr2".toList
      = .ok 20 :=
  have hs : SortedIndex [⟨"chr1".toList, 6⟩, ⟨"chr2".toList, 20⟩] := by
    unfold SortedIndex; decide
  ⟨hs, (findChromosome_sorted _ "chr2".toList hs).1 1 ⟨"chr2".toList, 20⟩ rfl rfl⟩

theorem getline_length (s : Str) :
    (getline s).2.1.length ≤ s.length ∧
    ((getline s).2.2 = true → (getline s).2.1.length < s.length) := by
  induction s with
  | nil => simp [getline]
  | cons c cs ih =>
    simp only [getline]
    split
    · simp
    · simp only [List.length_cons]
      constructor
      · omega
      · intro h; have := ih.2 h; omega

theorem appendRefPosition_frame (P : Positions) (line : Str) :
    (appendRefPosition P line).refCoveredPosition = P.refCoveredPosition ∧
    (appendRefPosition P line).refPosStartPtr = P.refPosStartPtr ∧
    (appendRefPosition P line).chromosome = P.chromosome ∧
    (appendRefPosition P line).curChromosomeId = P.curChromosomeId ∧
    (appendRefPosition P line).chromosomePos = P.chromosomePos ∧
    (appendRefPosition P line).refText = P.refText ∧
    (appendRefPosition P line).refRest = P.refRest ∧
    (appendRefPosition P line).refGood = P.refGood := by
  simp [appendRefPosition]

theorem fillLoop_frame (n : Nat) (P : Positions) :
    (fillLoop n P).1.refCoveredPosition = P.refCoveredPosition ∧
    (fillLoop n P).1.refPosStartPtr = P.refPosStartPtr ∧
    (fillLoop n P).1.chromosome = P.chromosome ∧
    (fillLoop n P).1.curChromosomeId = P.curChromosomeId ∧
    (fillLoop n P).1.chromosomePos = P.chromosomePos ∧
    (fillLoop n P).1.refText = P.refText ∧
    ((fillLoop n P).2 = 0 ∨ (fillLoop n P).2 = 1) := by
  induction n generalizing P with
  | zero => simp [fillLoop]
  | succ n ih =>
    simp only [fillLoop]
    split
    · split
      · simp
      · split
        · have := ih { P with refRest := (getline P.refRest).2.1, refGood := (getline P.refRest).2.2 }
          simpa using this
        · split
          · simp [appendRefPosition]
          · have := ih (appendRefPosition
              { P with refRest := (getline P.refRest).2.1, refGood := (getline P.refRest).2.2 }
              (getline P.refRest).1)
            simpa [appendRefPosition] using this
    · simp

/-- Fuel needed by the fill loop in state `P`. -/
theorem fillLoop_fuel_aux (n m : Nat) (P : Positions)
    (hn : (if P.refGood then P.refRest.length + 2 else 1) ≤ n)
    (hm : (if P.refGood then P.refRest.length + 2 else 1) ≤ m) :
    fillLoop n P = fillLoop m P := by
  induction n generalizing m P with
  | zero => split at hn <;> omega
  | succ n ih =>
    cases m with
    | zero => split at hm <;> omega
    | succ m =>
      simp only [fillLoop]
      by_cases hg : P.refGood = true
      · simp only [hg, if_true] at hn hm ⊢
        have hl := getline_length P.refRest
        have hb : (if (getline P.refRest).2.2 = true then (getline P.refRest).2.1.length + 2
            else 1) ≤ P.refRest.length + 1 := by
          split
          · rename_i h; have := hl.2 h; omega
          · omega
        split
        · rfl
        · split
          · apply ih
            · simp only; omega
            · simp only; omega
          · split
            · rfl
            · apply ih
              · simp only [appendRefPosition]; omega
              · simp only [appendRefPosition]; omega
      · simp [hg]

/-- The fill loop never uses up the fuel supplied by `loadNewChromosome` and
`loadMore`: any larger amount gives the same result. -/
theorem fillLoop_fuel (n : Nat) (P : Positions) (hn : P.refRest.length + 2 ≤ n) :
    fillLoop n P = fillLoop (P.refRest.length + 2) P := by
  apply fillLoop_fuel_aux
  · split <;> omega
  · split <;> omega

theorem loadMore_frame (P : Positions) :
    (loadMore P).1.refCoveredPosition = P.refCoveredPosition + loadingBlockSize ∧
    (loadMore P).1.refPosStartPtr = Mod (P.refPosStartPtr + loadingBlockSize) ∧
    (loadMore P).1.chromosome = P.chromosome ∧
    (loadMore P).1.curChromosomeId = P.curChromosomeId ∧
    (loadMore P).1.chromosomePos = P.chromosomePos ∧
    (loadMore P).1.refText = P.refText ∧
    ((loadMore P).2 = 0 ∨ (loadMore P).2 = 1) := by
  unfold loadMore
  exact fillLoop_frame _ (advanceWindow P)

theorem syncStep_frame (s : MainState) :
    (syncStep s).samPos = s.samPos ∧ (syncStep s).samChromosome = s.samChromosome ∧
    (syncStep s).lastPos = s.lastPos ∧
    (syncStep s).positions.chromosome = s.positions.chromosome ∧
    (syncStep s).positions.refCoveredPosition =
      s.positions.refCoveredPosition + loadingBlockSize ∧
    s.reloadPos + loadingBlockSize ≤ (syncStep s).reloadPos ∧
    (syncStep s).positions = (loadMore s.positions).1 ∧
    (syncStep s).cout = s.cout ++ startOutput s.positions false := by
  have h := loadMore_frame s.positions
  refine ⟨rfl, rfl, rfl, h.2.2.1, h.1, ?_, rfl, rfl⟩
  simp only [syncStep]
  split
  · unfold inf loadingBlockSize; omega
  · omega

theorem syncLoop_frame (samPos : Int) (fuel : Nat) (s : MainState) :
    (syncLoop samPos fuel s).samPos = s.samPos ∧
    (syncLoop samPos fuel s).samChromosome = s.samChromosome ∧
    (syncLoop samPos fuel s).lastPos = s.lastPos ∧
    (syncLoop samPos fuel s).positions.chromosome = s.positions.chromosome ∧
    s.reloadPos ≤ (syncLoop samPos fuel s).reloadPos := by
  induction fuel generalizing s with
  | zero => simp [syncLoop]
  | succ n ih =>
    simp only [syncLoop]
    split
    · have h := ih (syncStep s)
      have g := syncStep_frame s
      refine ⟨h.1.trans g.1, h.2.1.trans g.2.1, h.2.2.1.trans g.2.2.1,
        h.2.2.2.1.trans g.2.2.2.1, ?_⟩
      have := g.2.2.2.2.2.1
      unfold loadingBlockSize at this
      omega
    · simp

/-- With enough fuel the loop `while (samPos > reloadPos)` runs to its exit. -/
theorem syncLoop_exit (samPos : Int) (fuel : Nat) (s : MainState)
    (hf : samPos - s.reloadPos < fuel * loadingBlockSize) :
    samPos ≤ (syncLoop samPos fuel s).reloadPos := by
  induction fuel generalizing s with
  | zero => simp at hf; simp only [syncLoop]; omega
  | succ n ih =>
    simp only [syncLoop]
    split
    · apply ih
      have := (syncStep_frame s).2.2.2.2.2.1
      push_cast at hf
      unfold loadingBlockSize at *
      omega
    · omega

theorem syncFuel_enough (samPos reloadPos : Int) :
    samPos - reloadPos < (syncFuel samPos reloadPos : Nat) * loadingBlockSize := by
  unfold syncFuel loadingBlockSize
  push_cast
  have : ((samPos - reloadPos) / 60000).toNat = max ((samPos - reloadPos) / 60000) 0 := by
    simp [Int.toNat_eq_max]
  rw [this]
  omega

theorem syncLoop_none (samPos : Int) (fuel : Nat) (s : MainState)
    (h : samPos ≤ s.reloadPos) : syncLoop samPos fuel s = s := by
  cases fuel with
  | zero => rfl
  | succ n => simp only [syncLoop]; rw [if_neg (by omega)]

theorem syncLoop_once (samPos : Int) (fuel : Nat) (s : MainState)
    (h1 : s.reloadPos < samPos) (h2 : samPos ≤ s.reloadPos + loadingBlockSize) :
    syncLoop samPos (fuel + 2) s = syncStep s := by
  simp only [syncLoop]
  rw [if_pos (by omega), if_neg]
  have := (syncStep_frame s).2.2.2.2.2.1
  omega

theorem processLine_sameChr (parse : Str → Alignment) (s : MainState) (line chr : Str)
    (pos : Int) (hm : MappedLine s line chr pos) (hchr : chr = s.positions.chromosome) :
    processLine parse s line =
      (if (syncLoop pos (syncFuel pos s.reloadPos)
            { s with samChromosome := chr, samPos := pos }).lastPos >
          (syncLoop pos (syncFuel pos s.reloadPos)
            { s with samChromosome := chr, samPos := pos }).samPos then
        .error (.throw1, syncLoop pos (syncFuel pos s.reloadPos)
            { s with samChromosome := chr, samPos := pos })
      else
        match appendPositions (syncLoop pos (syncFuel pos s.reloadPos)
            { s with samChromosome := chr, samPos := pos }).positions (parse line) with
        | .error e => .error (e, syncLoop pos (syncFuel pos s.reloadPos)
            { s with samChromosome := chr, samPos := pos })
        | .ok P => .ok { syncLoop pos (syncFuel pos s.reloadPos)
            { s with samChromosome := chr, samPos := pos } with
            positions := P
            lastPos := (syncLoop pos (syncFuel pos s.reloadPos)
              { s with samChromosome := chr, samPos := pos }).samPos }) := by
  unfold processLine
  rw [hm.1, hm.2]
  simp only [Bool.false_eq_true, if_false, Bool.not_true, changeChromosome, hchr, ne_eq,
    not_true_eq_false, acceptRecord]

theorem finalState_sameChr (parse : Str → Alignment) (s : MainState) (line chr : Str)
    (pos : Int) (hm : MappedLine s line chr pos) (hchr : chr = s.positions.chromosome) :
    (finalState (processLine parse s line)).positions.refCoveredPosition =
      (syncLoop pos (syncFuel pos s.reloadPos)
        { s with samChromosome := chr, samPos := pos }).positions.refCoveredPosition ∧
    (finalState (processLine parse s line)).cout =
      (syncLoop pos (syncFuel pos s.reloadPos)
        { s with samChromosome := chr, samPos := pos }).cout := by
  rw [processLine_sameChr parse s line chr pos hm hchr]
  split
  · simp [finalState]
  · split
    · simp [finalState]
    · rename_i P hP
      simp only [finalState]
      exact ⟨(appendPositions_cursors _ _ _ hP).2.2.2.1, trivial⟩

/-- C9 (amended). The threshold of the extend loop is `reloadPos`, which lies one
block below the high-water mark `refCoveredPosition`: for a mapped record on the
window's chromosome, a coordinate equal to `reloadPos` triggers no `loadMore`, a
coordinate `reloadPos + 1` exactly one (the high-water mark rises by one block and
one block is flushed), and so does a coordinate equal to the high-water mark when
`reloadPos` is one block below it. -/
theorem extend_threshold (parse : Str → Alignment) (s : MainState) (line chr : Str)
    (pos : Int) (hm : MappedLine s line chr pos) (hchr : chr = s.positions.chromosome) :
    (pos = s.reloadPos →
      (finalState (processLine parse s line)).positions.refCoveredPosition =
        s.positions.refCoveredPosition ∧
      (finalState (processLine parse s line)).cout = s.cout) ∧
    (pos = s.reloadPos + 1 →
      (finalState (processLine parse s line)).positions.refCoveredPosition =
        s.positions.refCoveredPosition + loadingBlockSize ∧
      (finalState (processLine parse s line)).cout =
        s.cout ++ startOutput s.positions false) ∧
    (s.reloadPos = s.positions.refCoveredPosition - loadingBlockSize →
      pos = s.positions.refCoveredPosition →
      (finalState (processLine parse s line)).positions.refCoveredPosition =
        s.positions.refCoveredPosition + loadingBlockSize ∧
      (finalState (processLine parse s line)).cout =
        s.cout ++ startOutput s.positions false) := by
  have hf := finalState_sameChr parse s line chr pos hm hchr
  rw [hf.1, hf.2]
  have once : s.reloadPos < pos → pos ≤ s.reloadPos + loadingBlockSize →
      syncLoop pos (syncFuel pos s.reloadPos) { s with samChromosome := chr, samPos := pos }
        = syncStep { s with samChromosome := chr, samPos := pos } := by
    intro h1 h2
    unfold syncFuel
    exact syncLoop_once pos _ _ h1 h2
  refine ⟨?_, ?_, ?_⟩
  · intro h
    rw [syncLoop_none pos _ _ (by simp only; omega)]
    exact ⟨rfl, rfl⟩
  · intro h
    rw [once (by omega) (by unfold loadingBlockSize; omega)]
    exact ⟨(syncStep_frame _).2.2.2.2.1, (syncStep_frame _).2.2.2.2.2.2.2⟩
  · intro h1 h2
    rw [once (by unfold loadingBlockSize at h1; omega) (by omega)]
    exact ⟨(syncStep_frame _).2.2.2.2.1, (syncStep_frame _).2.2.2.2.2.2.2⟩

/-- Witness of `extend_threshold`: in Scenario A's reference, after a record at chr1:1,
a record at chr1:60001, one past `reloadPos`. -/
theorem extend_threshold_witness :
    MappedLine scenarioState "r\t0\tchr1\t60001\t".toList "chr1".toList 60001 ∧
    60001 = scenarioState.reloadPos + 1 ∧
    (finalState (processLine parseUnmapped scenarioState "r\t0\tchr1\t60001\t".toList)
      ).positions.refCoveredPosition =
        scenarioState.positions.refCoveredPosition + loadingBlockSize :=
  ⟨⟨rfl, rfl⟩, rfl,
    ((extend_threshold parseUnmapped scenarioState "r\t0\tchr1\t60001\t".toList
      "chr1".toList 60001 ⟨rfl, rfl⟩ rfl).2.1 rfl).1⟩

/-- C9 (as stated, refuted). After the reset of Scenario A the high-water mark
`refCoveredPosition` is `2 * 60000`; a record located exactly at it makes the loop
call `loadMore` once: the mark rises to `3 * 60000`. -/
theorem record_at_highWaterMark_extends :
    mainLoop parseUnmapped (MainState.init scenarioRef 0) ["r\t0\tchr1\t1\t".toList]
      = .ok scenarioState ∧
    scenarioState.positions.chromosome = "chr1".toList ∧
    scenarioState.positions.refCoveredPosition = 120000 ∧
    MappedLine scenarioState "r\t0\tchr1\t120000\t".toList "chr1".toList 120000 ∧
    (finalState (processLine parseUnmapped scenarioState "r\t0\tchr1\t120000\t".toList)
      ).positions.refCoveredPosition = 180000 :=
  ⟨rfl, rfl, rfl, ⟨rfl, rfl⟩, rfl⟩

theorem resetWindow_frame (P : Positions) (name : Str) (id startPos : Int) :
    (resetWindow P name id startPos).chromosome = name ∧
    (resetWindow P name id startPos).refCoveredPosition = 2 * loadingBlockSize ∧
    (resetWindow P name id startPos).refPosStartPtr = 0 ∧
    (resetWindow P name id startPos).chromosomePos = P.chromosomePos ∧
    (resetWindow P name id startPos).refText = P.refText ∧
    (resetWindow P name id startPos).curChromosomeId = id ∧
    (resetWindow P name id startPos).location = 0 ∧
    (resetWindow P name id startPos).refPosEndPtr = 0 := by
  unfold resetWindow seekg
  split <;> simp

theorem loadNewChromosome_ok (P P2 : Positions) (name : Str) (m : Int)
    (h : loadNewChromosome P name = .ok (P2, m)) :
    P2.chromosome = name ∧ P2.refCoveredPosition = 2 * loadingBlockSize ∧
    P2.refPosStartPtr = 0 ∧ P2.chromosomePos = P.chromosomePos ∧ P2.refText = P.refText ∧
    (m = 0 ∨ m = 1) ∧
    findChromosome P.chromosomePos name 0 ((P.chromosomePos.length : Int) - 1)
      = .ok P2.curChromosomeId := by
  unfold loadNewChromosome at h
  split at h
  · cases h
  · rename_i startPos hsp
    split at h
    · cases h
    · rename_i id hid
      simp only [Except.ok.injEq] at h
      have h1 := congrArg Prod.fst h
      have h2 := congrArg Prod.snd h
      simp only at h1 h2
      rw [← h1, ← h2]
      have f := fillLoop_frame ((resetWindow P name id startPos).refRest.length + 2)
        (resetWindow P name id startPos)
      have g := resetWindow_frame P name id startPos
      exact ⟨f.2.2.1.trans g.1, f.1.trans g.2.1, f.2.1.trans g.2.2.1,
        f.2.2.2.2.1.trans g.2.2.2.1, f.2.2.2.2.2.1.trans g.2.2.2.2.1, f.2.2.2.2.2.2,
        by rw [hid, f.2.2.2.1, g.2.2.2.2.2.1]⟩

theorem changeChromosome_ok (s s2 : MainState) (h : changeChromosome s = .ok s2) :
    s2.samPos = s.samPos ∧ s2.samChromosome = s.samChromosome ∧
    s2.positions.chromosome = s.samChromosome := by
  unfold changeChromosome at h
  split at h
  · dsimp only at h
    split at h
    · cases h
    · rename_i P m hl
      cases h
      exact ⟨rfl, rfl, (loadNewChromosome_ok _ _ _ _ hl).1⟩
  · rename_i hc
    cases h
    simp only [ne_eq, not_not] at hc
    exact ⟨rfl, rfl, hc.symm⟩

/-- What `processLine` leaves behind when it succeeds: either the line was skipped
and nothing but `samChromosome`, `samPos` changed, or a record was accepted and then
`lastPos` is its coordinate, not above `reloadPos`, on the window's chromosome. -/
theorem processLine_ok (parse : Str → Alignment) (s s2 : MainState) (line : Str)
    (h : processLine parse s line = .ok s2) :
    (s2.positions = s.positions ∧ s2.reloadPos = s.reloadPos ∧ s2.lastPos = s.lastPos ∧
      s2.cout = s.cout ∧ ∀ chr pos, ¬ MappedLine s line chr pos) ∨
    (s2.lastPos = s2.samPos ∧ s2.lastPos ≤ s2.reloadPos ∧
      s2.positions.chromosome = s2.samChromosome ∧
      ∃ chr pos, MappedLine s line chr pos ∧ s2.samPos = pos ∧ s2.samChromosome = chr) := by
  unfold processLine at h
  split at h
  · rename_i hskip
    cases h
    left
    refine ⟨rfl, rfl, rfl, rfl, ?_⟩
    intro chr pos hm
    rw [hm.1] at hskip
    cases hskip
  · rename_i hskip
    split at h
    · cases h
    · rename_i mapped chr pos hsam
      split at h
      · rename_i hmap
        cases h
        left
        refine ⟨rfl, rfl, rfl, rfl, ?_⟩
        intro chr2 pos2 hm
        rw [hm.2] at hsam
        simp only [Except.ok.injEq, Prod.mk.injEq] at hsam
        rw [← hsam.1] at hmap
        simp at hmap
      · rename_i hmap
        split at h
        · cases h
        · rename_i s3 hcc
          unfold acceptRecord at h
          split at h
          · cases h
          · split at h
            · cases h
            · rename_i P hP
              cases h
              right
              have hc := changeChromosome_ok _ _ hcc
              have hf := syncLoop_frame s3.samPos (syncFuel s3.samPos s3.reloadPos) s3
              have he := syncLoop_exit s3.samPos (syncFuel s3.samPos s3.reloadPos) s3
                (syncFuel_enough _ _)
              have hcur := appendPositions_cursors _ _ _ hP
              simp only at hc
              refine ⟨rfl, ?_, ?_, chr, pos, ⟨?_, ?_⟩, ?_, ?_⟩
              · simp only; rw [hf.1]; exact he
              · simp only; rw [hcur.2.2.2.2.1, hf.2.2.2.1, hf.2.1, hc.2.2, hc.2.1]
              · simpa using hskip
              · rw [hsam]
                simp only [Bool.not_eq_true] at hmap
                cases mapped
                · simp at hmap
                · rfl
              · simp only; rw [hf.1, hc.1]
              · simp only; rw [hf.2.1, hc.2.1]

theorem mainLoop_synced (parse : Str → Alignment) (s s2 : MainState) (lines : List Str)
    (h : mainLoop parse s lines = .ok s2) (hs : s.lastPos ≤ s.reloadPos) :
    s2.lastPos ≤ s2.reloadPos := by
  induction lines generalizing s with
  | nil => simp only [mainLoop, Except.ok.injEq] at h; subst h; exact hs
  | cons l rest ih =>
    simp only [mainLoop] at h
    split at h
    · cases h
    · rename_i s1 h1
      apply ih s1 h
      rcases processLine_ok parse s s1 l h1 with hh | hh
      · rw [hh.2.1, hh.2.2.1]; exact hs
      · exact hh.2.1

/-- C4. In a state of the main loop reached after an accepted record (`line0`, then
any lines `rest` read without error), a mapped record on the window's chromosome
whose coordinate is below `lastPos`, the coordinate of the previously accepted
record, stops the program with `throw 1`; the record is not applied: the window with
every counter, the cursors and the rows written so far are those of before. -/
theorem unsorted_record_rejected (parse : Str → Alignment) (s0 s1 s : MainState)
    (line0 : Str) (chr0 : Str) (pos0 : Int) (rest : List Str) (line chr : Str) (pos : Int)
    (hacc : MappedLine s0 line0 chr0 pos0)
    (h0 : processLine parse s0 line0 = .ok s1)
    (hrest : mainLoop parse s1 rest = .ok s)
    (hm : MappedLine s line chr pos) (hchr : chr = s.positions.chromosome)
    (hlt : pos < s.lastPos) :
    ∃ s2, processLine parse s line = .error (.throw1, s2) ∧
      s2.positions = s.positions ∧ s2.cout = s.cout ∧
      (∀ j, (s2.positions.refPositions j).convertedCount =
              (s.positions.refPositions j).convertedCount ∧
            (s2.positions.refPositions j).unconvertedCount =
              (s.positions.refPositions j).unconvertedCount) := by
  have hs1 : s1.lastPos ≤ s1.reloadPos := by
    rcases processLine_ok parse s0 s1 line0 h0 with hh | hh
    · exact absurd hacc (hh.2.2.2.2 chr0 pos0)
    · exact hh.2.1
  have hs : s.lastPos ≤ s.reloadPos := mainLoop_synced parse s1 s rest hrest hs1
  refine ⟨{ s with samChromosome := chr, samPos := pos }, ?_, rfl, rfl, fun j => ⟨rfl, rfl⟩⟩
  rw [processLine_sameChr parse s line chr pos hm hchr]
  rw [syncLoop_none pos _ _ (by simp only; omega)]
  rw [if_pos (by simp only; omega)]

/-- Witness of `unsorted_record_rejected`: on Scenario A's reference a record at chr1:5
is accepted, then a record at chr1:3 arrives. -/
theorem unsorted_record_rejected_witness :
    ∃ s2, processLine parseUnmapped
        (finalState (processLine parseUnmapped (MainState.init scenarioRef 0)
          "r\t0\tchr1\t5\t".toList)) "r\t0\tchr1\t3\t".toList = .error (.throw1, s2) ∧
      s2.positions = (finalState (processLine parseUnmapped (MainState.init scenarioRef 0)
          "r\t0\tchr1\t5\t".toList)).positions ∧
      s2.cout = (finalState (processLine parseUnmapped (MainState.init scenarioRef 0)
          "r\t0\tchr1\t5\t".toList)).cout ∧
      (∀ j, (s2.positions.refPositions j).convertedCount =
              ((finalState (processLine parseUnmapped (MainState.init scenarioRef 0)
                "r\t0\tchr1\t5\t".toList)).positions.refPositions j).convertedCount ∧
            (s2.positions.refPositions j).unconvertedCount =
              ((finalState (processLine parseUnmapped (MainState.init scenarioRef 0)
                "r\t0\tchr1\t5\t".toList)).positions.refPositions j).unconvertedCount) :=
  unsorted_record_rejected parseUnmapped (MainState.init scenarioRef 0)
    (finalState (processLine parseUnmapped (MainState.init scenarioRef 0)
      "r\t0\tchr1\t5\t".toList))
    (finalState (processLine parseUnmapped (MainState.init scenarioRef 0)
      "r\t0\tchr1\t5\t".toList))
    "r\t0\tchr1\t5\t".toList "chr1".toList 5 [] "r\t0\tchr1\t3\t".toList "chr1".toList 3
    ⟨rfl, rfl⟩ rfl rfl ⟨rfl, rfl⟩ rfl (by decide)

theorem getSAMLoop_error (fuel : Nat) (rest : Str) (count : Nat) (chr : Str) (pos : Int)
    (e : Fault) (hf : 4 ≤ count + fuel) (hc : count ≤ 3)
    (h : getSAMLoop fuel rest count chr pos = .error e) : e = .stdException := by
  induction fuel generalizing rest count chr pos with
  | zero => omega
  | succ n ih =>
    simp only [getSAMLoop] at h
    split at h
    · cases h
    · split at h
      · exact ih _ _ _ _ (by omega) (by omega) h
      · split at h
        · split at h
          · cases h; rfl
          · cases h
        · exact ih _ _ _ _ (by omega) (by omega) h

theorem findChromosomeAux_error (pos : List ChromosomeFilePosition) (name : Str)
    (fuel : Nat) (start end_ : Int) (e : Fault) (h0 : 0 ≤ start)
    (hf : (end_ - start + 1).toNat < fuel)
    (h : findChromosomeAux pos name fuel start end_ = .error e) : e = .throw1 := by
  induction fuel generalizing start end_ with
  | zero => omega
  | succ n ih =>
    simp only [findChromosomeAux] at h
    by_cases hse : start ≤ end_
    · simp only [hse, if_true] at h
      have hm : (start + end_).tdiv 2 = (start + end_) / 2 :=
        Int.tdiv_eq_ediv (by omega) (by omega)
      rw [hm] at h
      split at h
      · cases h
      · split at h
        · exact ih start _ h0 (by omega) h
        · exact ih _ end_ (by omega) (by omega) h
    · simp only [hse, if_false] at h
      cases h; rfl

theorem loadNewChromosome_error (P : Positions) (name : Str) (e : Fault)
    (h : loadNewChromosome P name = .error e) : e = .throw1 := by
  have key : ∀ e2, findChromosome P.chromosomePos name 0 ((P.chromosomePos.length : Int) - 1)
      = .error e2 → e2 = .throw1 := by
    intro e2 h2
    exact findChromosomeAux_error _ _ _ _ _ _ (le_refl _) (by omega) h2
  unfold loadNewChromosome getChromosomePosInRefFile at h
  split at h
  · rename_i e2 h2
    cases h
    split at h2
    · cases h2
    · rename_i e3 h3
      cases h2
      exact key _ h3
  · split at h
    · rename_i e2 h2
      cases h
      exact key _ h2
    · cases h

theorem appendPositionsLoop_error (startPos index : Int) (bs : List PosQuality)
    (ref : Int → Position) (e : Fault)
    (h : appendPositionsLoop startPos index bs ref = .error e) : e = .exitMinus1 := by
  induction bs generalizing ref with
  | nil => simp [appendPositionsLoop] at h
  | cons b bs ih =>
    simp only [appendPositionsLoop] at h
    split at h
    · exact ih _ h
    · split at h
      · cases h; rfl
      · split at h
        · exact ih _ h
        · exact ih _ h

theorem appendPositions_error (P : Positions) (a : Alignment) (e : Fault)
    (h : appendPositions P a = .error e) : e = .exitMinus1 := by
  unfold appendPositions at h
  split at h
  · cases h
  · dsimp only at h
    split at h
    · cases h
    · rename_i e2 h2
      cases h
      exact appendPositionsLoop_error _ _ _ _ _ h2

/-- Every way in which an iteration of the main loop stops the program has a non-zero
exit status; in particular the model never runs out of fuel. -/
theorem processLine_error (parse : Str → Alignment) (s s2 : MainState) (line : Str)
    (e : Fault) (h : processLine parse s line = .error (e, s2)) : exitStatus e ≠ 0 := by
  have key : e = .throw1 ∨ e = .exitMinus1 ∨ e = .stdException := by
    unfold processLine at h
    split at h
    · cases h
    · split at h
      · rename_i e2 h2
        cases h
        right; right
        exact getSAMLoop_error _ _ _ _ _ _ (by omega) (by omega) h2
      · split at h
        · cases h
        · split at h
          · rename_i e2 h2
            cases h
            left
            unfold changeChromosome at h2
            split at h2
            · dsimp only at h2
              split at h2
              · rename_i e3 h3
                cases h2
                exact loadNewChromosome_error _ _ _ h3
              · cases h2
            · cases h2
          · unfold acceptRecord at h
            split at h
            · cases h; left; rfl
            · split at h
              · rename_i e2 h2
                cases h
                right; left
                exact appendPositions_error _ _ _ h2
              · cases h
  rcases key with h1 | h1 | h1 <;> subst h1 <;> decide

theorem mainLoop_error (parse : Str → Alignment) (s s2 : MainState) (lines : List Str)
    (e : Fault) (h : mainLoop parse s lines = .error (e, s2)) : exitStatus e ≠ 0 := by
  induction lines generalizing s with
  | nil => cases h
  | cons l rest ih =>
    simp only [mainLoop] at h
    split at h
    · rename_i e2 h2
      cases h
      exact processLine_error parse _ _ _ _ h2
    · exact ih _ h

theorem mainLoop_append (parse : Str → Alignment) (s : MainState) (a b : List Str) :
    mainLoop parse s (a ++ b) =
      match mainLoop parse s a with
      | .error e => .error e
      | .ok s1 => mainLoop parse s1 b := by
  induction a generalizing s with
  | nil => rfl
  | cons l rest ih =>
    simp only [List.cons_append, mainLoop]
    split
    · rfl
    · exact ih _

theorem mainLoop_skipped (parse : Str → Alignment) (s s2 : MainState) (lines : List Str)
    (hsk : ∀ l ∈ lines, SkippedLine l) (h : mainLoop parse s lines = .ok s2) :
    s2.positions = s.positions ∧ s2.reloadPos = s.reloadPos ∧ s2.lastPos = s.lastPos := by
  induction lines generalizing s with
  | nil => simp only [mainLoop, Except.ok.injEq] at h; subst h; exact ⟨rfl, rfl, rfl⟩
  | cons l rest ih =>
    simp only [mainLoop] at h
    split at h
    · cases h
    · rename_i s1 h1
      have := ih s1 (fun l2 hl2 => hsk l2 (List.mem_cons_of_mem _ hl2)) h
      rcases processLine_ok parse s s1 l h1 with hh | hh
      · rw [this.1, this.2.1, this.2.2, hh.1, hh.2.1, hh.2.2.1]
        exact ⟨rfl, rfl, rfl⟩
      · rcases hh.2.2.2 with ⟨chr, pos, hm, _⟩
        exact absurd hm (hsk l (List.mem_cons_self _ _) s chr pos)

/-- C5 (as stated, refuted). A stream in which chr1 reappears after a record of chr2
is not rejected: the window is reset to chr1 again and the run ends with exit
status 0. -/
theorem chromosome_reappears_accepted :
    MappedAs "r\t0\tchr1\t1\t".toList "chr1".toList 1 ∧
    MappedAs "r\t0\tchr2\t1\t".toList "chr2".toList 1 ∧
    (hisat_3n_table parseUnmapped twoChrRef 0
      ["r\t0\tchr1\t1\t".toList, "r\t0\tchr2\t1\t".toList, "r\t0\tchr1\t1\t".toList]).2 = 0 :=
  ⟨⟨rfl, fun _ _ => rfl⟩, ⟨rfl, fun _ _ => rfl⟩, rfl⟩

/-- C5 (amended). When a mapped record follows a mapped record of the same chromosome,
with only skipped lines in between, and has a smaller coordinate, the run ends with a
non-zero exit status, whatever comes before and after. -/
theorem descending_record_fails (parse : Str → Alignment) (refText : Str) (reloadPos0 : Int)
    (pre mid post : List Str) (l1 l2 chr : Str) (p1 p2 : Int)
    (h1 : MappedAs l1 chr p1) (h2 : MappedAs l2 chr p2)
    (hmid : ∀ l ∈ mid, SkippedLine l) (hlt : p2 < p1) :
    (hisat_3n_table parse refText reloadPos0 (pre ++ l1 :: (mid ++ l2 :: post))).2 ≠ 0 := by
  unfold hisat_3n_table
  rw [mainLoop_append]
  cases hpre : mainLoop parse (MainState.init refText reloadPos0) pre with
  | error e => exact mainLoop_error parse _ _ _ _ hpre
  | ok s =>
    simp only [mainLoop]
    cases hl1 : processLine parse s l1 with
    | error e => exact processLine_error parse _ _ _ _ hl1
    | ok s1 =>
      simp only
      rw [mainLoop_append]
      cases hm : mainLoop parse s1 mid with
      | error e => exact mainLoop_error parse _ _ _ _ hm
      | ok s2 =>
        simp only [mainLoop]
        have hs1 : s1.lastPos = p1 ∧ s1.lastPos ≤ s1.reloadPos ∧
            s1.positions.chromosome = chr := by
          rcases processLine_ok parse s s1 l1 hl1 with hh | hh
          · exact absurd ⟨h1.1, h1.2 _ _⟩ (hh.2.2.2.2 chr p1)
          · rcases hh.2.2.2 with ⟨c, p, hmp, hp, hc⟩
            have := hmp.2
            rw [h1.2] at this
            simp only [Except.ok.injEq, Prod.mk.injEq, true_and] at this
            refine ⟨?_, hh.2.1, ?_⟩
            · rw [hh.1, hp, this.2]
            · rw [hh.2.2.1, hc, this.1]
        have hs2 := mainLoop_skipped parse s1 s2 mid hmid hm
        have hthrow : processLine parse s2 l2 =
            .error (.throw1, { s2 with samChromosome := chr, samPos := p2 }) := by
          rw [processLine_sameChr parse s2 l2 chr p2 ⟨h2.1, h2.2 _ _⟩
            (by rw [hs2.1, hs1.2.2])]
          rw [syncLoop_none p2 _ _ (by simp only; rw [hs2.2.1]; rw [hs2.2.2] at *; omega)]
          rw [if_pos (by simp only; rw [hs2.2.2]; omega)]
        rw [hthrow]
        simp only [exitStatus]
        omega

/-- Witness of `descending_record_fails`: records at chr1:5 and chr1:3 with a header line
in between. -/
theorem descending_record_fails_witness :
    MappedAs "r\t0\tchr1\t5\t".toList "chr1".toList 5 ∧
    MappedAs "r\t0\tchr1\t3\t".toList "chr1".toList 3 ∧
    (∀ l ∈ ["@HD".toList], SkippedLine l) ∧
    (hisat_3n_table parseUnmapped scenarioRef 0
      ([] ++ "r\t0\tchr1\t5\t".toList :: (["@HD".toList] ++ "r\t0\tchr1\t3\t".toList :: []))).2
      ≠ 0 :=
  have hmid : ∀ l ∈ ["@HD".toList], SkippedLine l := by
    intro l hl s chr pos hm
    simp only [List.mem_singleton] at hl
    subst hl
    exact absurd hm.1 (by decide)
  ⟨⟨rfl, fun _ _ => rfl⟩, ⟨rfl, fun _ _ => rfl⟩, hmid,
    descending_record_fails parseUnmapped scenarioRef 0 [] ["@HD".toList] []
      "r\t0\tchr1\t5\t".toList "r\t0\tchr1\t3\t".toList "chr1".toList 5 3
      ⟨rfl, fun _ _ => rfl⟩ ⟨rfl, fun _ _ => rfl⟩ hmid (by decide)⟩

theorem fileLines_getline (s : Str) (h : s ≠ []) :
    fileLines s = (getline s).1 :: fileLines (getline s).2.1 := by
  induction s with
  | nil => exact absurd rfl h
  | cons c cs ih =>
    simp only [fileLines, getline]
    split
    · rfl
    · cases cs with
      | nil => simp [fileLines, getline]
      | cons d ds =>
        rw [ih (by simp)]

theorem getline_suffix (s : Str) : ∃ pre, s = pre ++ (getline s).2.1 := by
  induction s with
  | nil => exact ⟨[], rfl⟩
  | cons c cs ih =>
    simp only [getline]
    split
    · exact ⟨[c], rfl⟩
    · rcases ih with ⟨pre, hpre⟩
      exact ⟨c :: pre, by simp only [List.cons_append]; rw [← hpre]⟩

theorem seqLines_getline (w : Nat) (s : Str) (h : SeqLinesBounded w s) :
    ((getline s).1.head? ≠ some '>' → (getline s).1.length ≤ w) ∧
    SeqLinesBounded w (getline s).2.1 := by
  cases s with
  | nil =>
    simp only [getline]
    exact ⟨fun _ => by simp, h⟩
  | cons c cs =>
    have e := fileLines_getline (c :: cs) (by simp)
    unfold SeqLinesBounded at h ⊢
    rw [e] at h
    exact ⟨h _ (List.mem_cons_self _ _), fun l hl => h l (List.mem_cons_of_mem _ hl)⟩

theorem tellg_goodOffset (w : Nat) (text pre rest : Str) (good : Bool)
    (ht : text = pre ++ rest) (hr : SeqLinesBounded w rest) :
    GoodOffset w text (tellg text rest good) := by
  unfold GoodOffset tellg
  split
  · right
    have : ((text.length : Int) - rest.length).toNat = pre.length := by
      rw [ht]; simp
    rw [this, ht, List.drop_left]
    exact hr
  · left; omega

theorem loadNamesLoop_goodOffset (w : Nat) (text : Str) (fuel : Nat) (pre rest : Str)
    (good : Bool) (acc : List ChromosomeFilePosition)
    (ht : text = pre ++ rest) (hr : SeqLinesBounded w rest)
    (hacc : ∀ e ∈ acc, GoodOffset w text e.linePos) :
    ∀ e ∈ loadNamesLoop text fuel rest good acc, GoodOffset w text e.linePos := by
  induction fuel generalizing pre rest good acc with
  | zero => simpa [loadNamesLoop] using hacc
  | succ n ih =>
    simp only [loadNamesLoop]
    rcases getline_suffix rest with ⟨c, hc⟩
    have ht2 : text = (pre ++ c) ++ (getline rest).2.1 := by
      rw [List.append_assoc, ← hc]; exact ht
    have hr2 := (seqLines_getline w rest hr).2
    split
    · split
      · apply ih (pre ++ c) _ _ _ ht2 hr2
        intro e he
        rcases List.mem_append.mp he with h1 | h1
        · exact hacc e h1
        · simp only [List.mem_singleton] at h1
          subst h1
          exact tellg_goodOffset w text (pre ++ c) _ _ ht2 hr2
      · exact ih (pre ++ c) _ _ _ ht2 hr2 hacc
    · exact hacc

theorem index_goodOffset (w : Nat) (text : Str) (h : SeqLinesBounded w text) :
    ∀ e ∈ LoadChromosomeNamesPos text, GoodOffset w text e.linePos := by
  intro e he
  unfold LoadChromosomeNamesPos sortChromosomes at he
  have hp := (List.perm_insertionSort (fun a b : ChromosomeFilePosition =>
    a.chromosome ≤ b.chromosome) (loadNamesLoop text (text.length + 2) text true [])).mem_iff.mp he
  exact loadNamesLoop_goodOffset w text _ [] text true [] rfl h (by simp) e hp

theorem getChromosomePos_goodOffset (w : Nat) (text : Str) (h : SeqLinesBounded w text)
    (name : Str) (off : Int)
    (hs : getChromosomePosInRefFile (LoadChromosomeNamesPos text) name = .ok off) :
    GoodOffset w text off := by
  unfold getChromosomePosInRefFile at hs
  split at hs
  · simp only [Except.ok.injEq] at hs
    split at hs
    · rename_i e he
      rw [← hs]
      exact index_goodOffset w text h e (List.get?_mem he)
    · rw [← hs]
      right
      simpa using h
  · cases hs

theorem Mod_eq_emod {x : Int} (h0 : 0 ≤ x) (h1 : x < 240134) : Mod x = x % 120067 := by
  unfold Mod loadingBlockSize; split <;> omega

theorem appendRefPosition_ringOk (P : Positions) (line : Str) (hR : RingOk P)
    (hlen : line.length ≤ 120067) : RingOk (appendRefPosition P line) := by
  obtain ⟨h0, hend, hslots⟩ := hR
  refine ⟨?_, ?_, ?_⟩
  · simp only [appendRefPosition]; omega
  · simp only [appendRefPosition]
    rw [Mod_eq_emod (by omega) (by omega), hend]
    omega
  · intro q hq0 hq1 hq2
    have hloc : (appendRefPosition P line).location = P.location + line.length := rfl
    rw [hloc] at hq1 hq2
    by_cases hq : P.location ≤ q
    · obtain ⟨k, hk⟩ : ∃ k : Nat, q - P.location = k := ⟨(q - P.location).toNat, by omega⟩
      have hkl : k < line.length := by omega
      have hget : line.get? k = some (line.get ⟨k, hkl⟩) := List.get?_eq_get hkl
      have hs := appendRefPosition_slot P line k _ (by unfold loadingBlockSize; omega) hget
      have hidx : Mod (P.refPosEndPtr + k) = q % 120067 := by
        rw [Mod_eq_emod (by omega) (by omega), hend]; omega
      rw [hidx] at hs
      rw [hs, (refSlot_strand _ _ _ _).2.1]
      omega
    · have hother : (appendRefPosition P line).refPositions (q % 120067)
          = P.refPositions (q % 120067) := by
        simp only [appendRefPosition]
        apply appendRefLoop_other
        intro k hk
        rw [Mod_eq_emod (by omega) (by omega), hend]
        omega
      rw [hother]
      exact hslots q hq0 (by omega) (by omega)

/-- Invariant of the fill loop: the ring stays consistent, the write cursor stops less
than one line past the high-water mark, and the unread text keeps bounded lines. -/
theorem fillLoop_ringOk (n : Nat) (P : Positions) (hR : RingOk P)
    (hloc : P.location < P.refCoveredPosition)
    (hlines : P.refGood = true → SeqLinesBounded 67 P.refRest) :
    RingOk (fillLoop n P).1 ∧
    (fillLoop n P).1.location < (fillLoop n P).1.refCoveredPosition + 67 ∧
    ((fillLoop n P).1.refGood = true → SeqLinesBounded 67 (fillLoop n P).1.refRest) ∧
    P.location ≤ (fillLoop n P).1.location := by
  induction n generalizing P with
  | zero => exact ⟨hR, by simp only [fillLoop]; omega, hlines, le_refl _⟩
  | succ n ih =>
    simp only [fillLoop]
    by_cases hg : P.refGood = true
    · simp only [hg, if_true]
      have hl := seqLines_getline 67 P.refRest (hlines hg)
      split
      · exact ⟨hR, by simp only; omega, fun _ => hl.2, le_refl _⟩
      · rename_i hhead
        split
        · exact ih _ hR hloc (fun _ => hl.2)
        · have hlen := hl.1 hhead
          have hR2 : RingOk (appendRefPosition
              { P with refRest := (getline P.refRest).2.1, refGood := (getline P.refRest).2.2 }
              (getline P.refRest).1) :=
            appendRefPosition_ringOk _ _ hR (by omega)
          split
          · refine ⟨hR2, ?_, fun _ => hl.2, ?_⟩
            · simp only [appendRefPosition]; omega
            · simp only [appendRefPosition]; omega
          · rename_i hnot
            have := ih _ hR2 (by omega) (fun _ => hl.2)
            refine ⟨this.1, this.2.1, this.2.2.1, ?_⟩
            have h2 := this.2.2.2
            simp only [appendRefPosition] at h2 ⊢
            omega
    · simp only [hg]
      exact ⟨hR, by simp only [Bool.false_eq_true, if_false]; omega, by simp [hg],
        by simp⟩

theorem windowState_winOk (text : Str) (hw : SeqLinesBounded 67 text) (P : Positions)
    (hP : WindowState text P) : WinOk P := by
  induction hP with
  | reset P P2 name m ht hidx hload =>
    unfold loadNewChromosome at hload
    split at hload
    · cases hload
    · rename_i startPos hsp
      split at hload
      · cases hload
      · rename_i id hid
        simp only [Except.ok.injEq] at hload
        have h1 := congrArg Prod.fst hload
        simp only at h1
        rw [← h1]
        have g := resetWindow_frame P name id startPos
        have f := fillLoop_frame ((resetWindow P name id startPos).refRest.length + 2)
          (resetWindow P name id startPos)
        have hgood : (resetWindow P name id startPos).refGood = true →
            SeqLinesBounded 67 (resetWindow P name id startPos).refRest := by
          rw [hidx] at hsp
          have hoff := getChromosomePos_goodOffset 67 text hw name startPos hsp
          unfold resetWindow seekg
          split
          · simp
          · intro _
            rcases hoff with h3 | h3
            · omega
            · simpa [ht] using h3
        have hR0 : RingOk (resetWindow P name id startPos) := by
          refine ⟨by rw [g.2.2.2.2.2.2.1], by rw [g.2.2.2.2.2.2.1, g.2.2.2.2.2.2.2]; rfl, ?_⟩
          intro q h0 _ h2
          rw [g.2.2.2.2.2.2.1] at h2
          omega
        have inv := fillLoop_ringOk ((resetWindow P name id startPos).refRest.length + 2)
          (resetWindow P name id startPos) hR0
          (by rw [g.2.2.2.2.2.2.1, g.2.1]; unfold loadingBlockSize; omega) hgood
        refine ⟨inv.1, ⟨0, ?_, ?_⟩, inv.2.1, inv.2.2.1⟩
        · rw [f.1, g.2.1]; unfold loadingBlockSize; norm_num
        · rw [f.2.1, g.2.2.1]; norm_num
  | extend P _ ih =>
    obtain ⟨hR, ⟨k, hk1, hk2⟩, hloc, hlines⟩ := ih
    have f := fillLoop_frame ((advanceWindow P).refRest.length + 2) (advanceWindow P)
    have inv := fillLoop_ringOk ((advanceWindow P).refRest.length + 2) (advanceWindow P)
      hR (by simp only [advanceWindow]; unfold loadingBlockSize; omega) hlines
    refine ⟨inv.1, ⟨k + 1, ?_, ?_⟩, inv.2.1, inv.2.2.1⟩
    · show (fillLoop _ _).1.refCoveredPosition = _
      rw [f.1]
      simp only [advanceWindow, hk1]
      unfold loadingBlockSize
      push_cast
      ring
    · show (fillLoop _ _).1.refPosStartPtr = _
      rw [f.2.1]
      simp only [advanceWindow, hk2]
      rw [Mod_eq_emod (by unfold loadingBlockSize; omega) (by unfold loadingBlockSize; omega)]
      unfold loadingBlockSize
      push_cast
      omega
  | record P P2 a _ happ ih =>
    obtain ⟨hR, hk, hloc, hlines⟩ := ih
    have c := appendPositions_cursors P P2 a happ
    refine ⟨⟨by rw [c.2.2.1]; exact hR.1, by rw [c.2.1, c.2.2.1]; exact hR.2.1, ?_⟩, ?_, ?_, ?_⟩
    · intro q h0 h1 h2
      rw [c.2.2.1] at h1 h2
      rw [(appendPositions_frame P P2 a happ _).1]
      exact hR.2.2 q h0 h1 h2
    · rw [c.2.2.2.1, c.1]; exact hk
    · rw [c.2.2.1, c.2.2.2.1]; exact hloc
    · rw [c.2.2.2.2.2.2.2.2.2, c.2.2.2.2.2.2.2.2.1]; exact hlines

theorem getIndex_eq (P : Positions) (c b : Int)
    (hfirst : (P.refPositions P.refPosStartPtr).location = b + 1)
    (hs0 : 0 ≤ P.refPosStartPtr) (hs1 : P.refPosStartPtr < 120067)
    (hc0 : b < c) (hc1 : c - b ≤ 120067) :
    getIndex P c = (c - b - 1 + P.refPosStartPtr) % 120067 := by
  unfold getIndex
  simp only [hfirst]
  have e : toInt32 (c - toInt32 (b + 1) + P.refPosStartPtr) = c - b - 1 + P.refPosStartPtr := by
    unfold toInt32; omega
  rw [e, Mod_eq_emod (by omega) (by omega)]

/-- C2 (amended). Over a reference whose sequence lines have at most 67 bases, in every
window state reached by a reset followed by extends (and applied records), each
resident coordinate `c`, above `refCoveredPosition - 2 * blockSize` and up to the
write cursor `location`, is resolved by `getIndex` to a slot that stores `c`; the
first of them is the one stored in the start slot. -/
theorem getIndex_resident (text : Str) (hw : SeqLinesBounded 67 text) (P : Positions)
    (hP : WindowState text P) (c : Int)
    (h1 : P.refCoveredPosition - 2 * loadingBlockSize < c) (h2 : c ≤ P.location) :
    (P.refPositions (getIndex P c)).location = c ∧
    (P.refPositions P.refPosStartPtr).location =
      P.refCoveredPosition - 2 * loadingBlockSize + 1 := by
  obtain ⟨⟨hl0, hend, hslots⟩, ⟨k, hk1, hk2⟩, hloc, _⟩ := windowState_winOk text hw P hP
  unfold loadingBlockSize at h1 ⊢
  have hfirst : (P.refPositions P.refPosStartPtr).location = (k * 60000 : Int) + 1 := by
    rw [hk2]
    exact hslots (k * 60000) (by omega) (by omega) (by omega)
  refine ⟨?_, by rw [hfirst, hk1]; ring⟩
  rw [getIndex_eq P c (k * 60000) hfirst (by omega) (by omega) (by omega) (by omega)]
  have e : (c - (k * 60000 : Int) - 1 + P.refPosStartPtr) % 120067 = (c - 1) % 120067 := by
    rw [hk2]; omega
  rw [e, hslots (c - 1) (by omega) (by omega) (by omega)]
  ring

theorem scenarioRef_lines : SeqLinesBounded 67 scenarioRef := by
  unfold SeqLinesBounded; decide

/-- Witness of `getIndex_resident`: coordinate 3 in the window of Scenario A. -/
theorem getIndex_resident_witness :
    SeqLinesBounded 67 scenarioRef ∧ WindowState scenarioRef scenarioLoaded ∧
    scenarioLoaded.refCoveredPosition - 2 * loadingBlockSize < 3 ∧
    (3 : Int) ≤ scenarioLoaded.location ∧
    (scenarioLoaded.refPositions (getIndex scenarioLoaded 3)).location = 3 :=
  have hs : WindowState scenarioRef scenarioLoaded :=
    WindowState.reset (Positions.new scenarioRef) scenarioLoaded "chr1".toList 0 rfl rfl rfl
  ⟨scenarioRef_lines, hs, by decide, by decide,
    (getIndex_resident scenarioRef scenarioRef_lines scenarioLoaded hs 3
      (by decide) (by decide)).1⟩

/-- C2 (as stated, refuted). After a reset to the short last chromosome and one extend
the start cursor stands on a slot never loaded: coordinate 1 lies between the start
slot's stored location (-1) and the end cursor's coordinate (7, both as stored in the
end slot and as write cursor plus one), yet `getIndex(1)` is a slot that stores -1. -/
theorem getIndex_degenerate :
    WindowState staleRef degenerateWindow ∧
    (degenerateWindow.refPositions degenerateWindow.refPosStartPtr).location = -1 ∧
    (degenerateWindow.refPositions degenerateWindow.refPosEndPtr).location = 7 ∧
    degenerateWindow.location + 1 = 7 ∧
    getIndex degenerateWindow 1 = 60002 ∧
    (degenerateWindow.refPositions (getIndex degenerateWindow 1)).location = -1 :=
  ⟨WindowState.extend _
    (WindowState.reset (loadOr (Positions.new staleRef) "chr2".toList) _ "chr1".toList 0
      rfl rfl rfl),
   rfl, rfl, rfl, rfl, rfl⟩

theorem flatMap_range_succ (n : Nat) (f : Nat → List Row) :
    (List.range (n + 1)).flatMap f = f 0 ++ (List.range n).flatMap (fun t => f (t + 1)) := by
  rw [List.range_succ_eq_map]
  simp [List.flatMap_map]

/-- The rows of the loop of `startOutput` over the `n` slots that follow `start`. -/
theorem outputLoop_walk (P : Positions) (n fuel : Nat) (start : Int)
    (h0 : 0 ≤ start) (h1 : start < 120067) (hn : n < 120067) (hf : n ≤ fuel) :
    outputLoop P ((start + n) % 120067) fuel start =
      (List.range n).flatMap
        (fun t => outputRow P.chromosomePos (P.refPositions ((start + t) % 120067))) := by
  induction n generalizing start fuel with
  | zero =>
    have : (start + ((0 : Nat) : Int)) % 120067 = start := by omega
    rw [this, outputLoop_self]
    rfl
  | succ n ih =>
    cases fuel with
    | zero => omega
    | succ f =>
      simp only [outputLoop]
      rw [if_pos (by push_cast; omega)]
      rw [flatMap_range_succ]
      have hm : Mod (start + 1) = (start + 1) % 120067 := Mod_eq_emod (by omega) (by omega)
      have he : (start + ((n + 1 : Nat) : Int)) % 120067
          = ((start + 1) % 120067 + (n : Int)) % 120067 := by push_cast; omega
      rw [hm, he, ih f ((start + 1) % 120067) (by omega) (by omega) (by omega) (by omega)]
      have hz : (start + ((0 : Nat) : Int)) % 120067 = start := by omega
      rw [hz]
      congr 2
      funext t
      have : ((start + 1) % 120067 + (t : Int)) % 120067
          = (start + ((t + 1 : Nat) : Int)) % 120067 := by push_cast; omega
      rw [this]

theorem pairwise_flatMap_range (n : Nat) (f : Nat → List Row) (g : Nat → Int)
    (hf : ∀ t, t < n → ∀ r ∈ f t, r.location = g t)
    (hlen : ∀ t, (f t).length ≤ 1)
    (hg : ∀ a b, a < b → b < n → g a < g b) :
    ((List.range n).flatMap f).Pairwise (fun a b => a.location < b.location) := by
  induction n with
  | zero => simp
  | succ n ih =>
    rw [List.range_succ, List.flatMap_append, List.pairwise_append]
    refine ⟨ih (fun t ht => hf t (by omega)) (fun a b h1 h2 => hg a b h1 (by omega)), ?_, ?_⟩
    · simp only [List.flatMap_singleton]
      have := hlen n
      match hfn : f n with
      | [] => simp
      | [x] => simp
      | x :: y :: rest => rw [hfn] at this; simp at this
    · intro a ha b hb
      rcases List.mem_flatMap.mp ha with ⟨t, ht, hat⟩
      simp only [List.flatMap_singleton] at hb
      rw [hf t (by simp at ht; omega) a hat, hf n (by omega) b hb]
      exact hg t n (by simpa using ht) (by omega)

theorem outputRow_location (cp : List ChromosomeFilePosition) (p : Position) :
    (outputRow cp p).length ≤ 1 ∧ ∀ r ∈ outputRow cp p, r.location = p.location := by
  unfold outputRow
  split
  · simp
  · simp

theorem loadMore_notGood (P : Positions) (h : P.refGood = false) :
    (loadMore P).1 = advanceWindow P := by
  unfold loadMore
  have : (advanceWindow P).refGood = false := h
  simp [fillLoop, this]

theorem getline_notGood (s : Str) (h : (getline s).2.2 = false) : (getline s).2.1 = [] := by
  induction s with
  | nil => rfl
  | cons c cs ih =>
    simp only [getline] at h ⊢
    split
    · rename_i hc; simp [hc] at h
    · rename_i hc
      simp only [hc, if_false] at h
      exact ih h

theorem remaining_getline (P : Positions) (hg : P.refGood = true) :
    (remaining P : Int) =
      if (getline P.refRest).1.head? = some '>' then 0
      else ((getline P.refRest).1.length : Int) +
        remaining { P with refRest := (getline P.refRest).2.1,
                           refGood := (getline P.refRest).2.2 } := by
  have hrem : remaining { P with refRest := (getline P.refRest).2.1,
                                  refGood := (getline P.refRest).2.2 }
      = (seqBases (fileLines (getline P.refRest).2.1) : Int) := by
    unfold remaining
    simp only
    split
    · rfl
    · rename_i h
      simp only [Bool.not_eq_true] at h
      rw [getline_notGood _ h]
      rfl
  rw [hrem]
  unfold remaining
  rw [if_pos hg]
  by_cases he : P.refRest = []
  · rw [he]
    simp [getline, fileLines, seqBases]
  · rw [fileLines_getline _ he]
    simp only [seqBases]
    split
    · rfl
    · push_cast; rfl

/-- What the fill loop loads, with the fuel of `loadNewChromosome` and `loadMore`: the
bases delivered plus the bases left are constant until the next header is met; the
loop stops at the high-water mark or when the chromosome has no base left. -/
theorem fillLoop_remaining (n : Nat) (P : Positions)
    (hn : (if P.refGood then P.refRest.length + 2 else 1) ≤ n)
    (hloc : P.location < P.refCoveredPosition) :
    ((fillLoop n P).2 = 0 →
      (fillLoop n P).1.location + remaining (fillLoop n P).1 = P.location + remaining P ∧
      ((fillLoop n P).1.refCoveredPosition ≤ (fillLoop n P).1.location ∨
        remaining (fillLoop n P).1 = 0)) ∧
    ((fillLoop n P).2 = 1 → (fillLoop n P).1.location = P.location + remaining P) := by
  induction n generalizing P with
  | zero => split at hn <;> omega
  | succ n ih =>
    simp only [fillLoop]
    by_cases hg : P.refGood = true
    · simp only [hg, if_true] at hn ⊢
      have hrem := remaining_getline P hg
      have hl := getline_length P.refRest
      have hb : (if (getline P.refRest).2.2 = true then (getline P.refRest).2.1.length + 2
          else 1) ≤ n := by
        split
        · rename_i h; have := hl.2 h; omega
        · omega
      split
      · rename_i hh
        rw [if_pos hh] at hrem
        simp only
        constructor
        · intro h; omega
        · intro _; omega
      · rename_i hh
        rw [if_neg hh] at hrem
        split
        · rename_i hemp
          have hlen : (getline P.refRest).1.length = 0 := by
            simpa [List.isEmpty_iff] using hemp
          have := ih { P with refRest := (getline P.refRest).2.1,
                              refGood := (getline P.refRest).2.2 } hb hloc
          simp only at this
          rw [hrem, hlen]
          simpa using this
        · have hrem2 : remaining (appendRefPosition
              { P with refRest := (getline P.refRest).2.1, refGood := (getline P.refRest).2.2 }
              (getline P.refRest).1)
              = remaining { P with refRest := (getline P.refRest).2.1,
                                   refGood := (getline P.refRest).2.2 } := rfl
          split
          · rename_i hge
            simp only
            constructor
            · intro _
              refine ⟨?_, Or.inl hge⟩
              rw [hrem2, hrem]
              simp only [appendRefPosition]
              ring
            · intro h; omega
          · rename_i hlt
            have := ih (appendRefPosition
              { P with refRest := (getline P.refRest).2.1, refGood := (getline P.refRest).2.2 }
              (getline P.refRest).1) hb (by omega)
            rw [hrem2] at this
            rw [hrem]
            simp only [appendRefPosition] at this ⊢
            constructor
            · intro h
              have t := this.1 h
              exact ⟨by rw [t.1]; ring, t.2⟩
            · intro h
              rw [this.2 h]; ring
    · simp only [hg]
      have : remaining P = 0 := by unfold remaining; simp [hg]
      simp [this]

theorem flatMap_range_location (n : Nat) (f : Nat → List Row) (g : Nat → Int)
    (hf : ∀ t, t < n → ∀ r ∈ f t, r.location = g t) :
    ∀ r ∈ (List.range n).flatMap f, ∃ t, t < n ∧ r.location = g t := by
  intro r hr
  rcases List.mem_flatMap.mp hr with ⟨t, ht, hrt⟩
  have : t < n := by simpa using ht
  exact ⟨t, this, hf t this r hrt⟩

/-- The rows of `startOutput()` on a consistent window that holds a whole block: strictly
ascending, in the block that starts at the window start. -/
theorem startOutput_block_rows (P : Positions) (hW : WinOk P)
    (hres : P.refCoveredPosition - loadingBlockSize ≤ P.location) :
    (startOutput P false).Pairwise (fun a b => a.location < b.location) ∧
    ∀ r ∈ startOutput P false,
      P.refCoveredPosition - 2 * loadingBlockSize < r.location ∧
      r.location ≤ P.refCoveredPosition - loadingBlockSize := by
  obtain ⟨⟨hl0, hend, hslots⟩, ⟨k, hk1, hk2⟩, hloc, _⟩ := hW
  unfold loadingBlockSize at hres ⊢
  have hfuel : (2 * loadingBlockSize + 67).toNat = 120067 := by decide
  have hblk : startOutput P false =
      (List.range 60000).flatMap
        (fun t => outputRow P.chromosomePos
          (P.refPositions ((P.refPosStartPtr + (t : Int)) % 120067))) := by
    unfold startOutput
    simp only [Bool.false_eq_true, if_false, hfuel]
    have := outputLoop_walk P 60000 120067 P.refPosStartPtr (by omega) (by omega)
      (by omega) (by omega)
    have he : (P.refPosStartPtr + ((60000 : Nat) : Int)) % 120067
        = Mod (P.refPosStartPtr + loadingBlockSize) := by
      rw [Mod_eq_emod (by unfold loadingBlockSize; omega) (by unfold loadingBlockSize; omega)]
      unfold loadingBlockSize; push_cast; rfl
    rw [he] at this
    exact this
  have hrow : ∀ t : Nat, t < 60000 → ∀ r ∈ outputRow P.chromosomePos
      (P.refPositions ((P.refPosStartPtr + (t : Int)) % 120067)),
      r.location = (k * 60000 : Int) + t + 1 := by
    intro t ht r hr
    rw [(outputRow_location _ _).2 r hr]
    have e : (P.refPosStartPtr + (t : Int)) % 120067 = ((k * 60000 : Int) + t) % 120067 := by
      rw [hk2]; omega
    rw [e]
    exact hslots _ (by omega) (by omega) (by omega)
  rw [hblk]
  constructor
  · exact pairwise_flatMap_range _ _ (fun t => (k * 60000 : Int) + t + 1) hrow
      (fun t => (outputRow_location _ _).1) (fun a b hab _ => by simp only; omega)
  · intro r hr
    rcases flatMap_range_location _ _ (fun t => (k * 60000 : Int) + t + 1) hrow r hr
      with ⟨t, ht, hrt⟩
    rw [hrt, hk1]
    constructor <;> omega

theorem remaining_nonneg (P : Positions) : 0 ≤ remaining P := by
  unfold remaining; split <;> omega

theorem loadMore_remaining (P : Positions)
    (hloc : P.location < P.refCoveredPosition + loadingBlockSize) :
    ((loadMore P).2 = 0 →
      (loadMore P).1.location + remaining (loadMore P).1 = P.location + remaining P ∧
      ((loadMore P).1.refCoveredPosition ≤ (loadMore P).1.location ∨
        remaining (loadMore P).1 = 0)) ∧
    ((loadMore P).2 = 1 → (loadMore P).1.location = P.location + remaining P) := by
  unfold loadMore
  exact fillLoop_remaining _ (advanceWindow P) (by split <;> omega) hloc

theorem syncStep_segInv (text : Str) (hw : SeqLinesBounded 67 text) (L : Int)
    (c0 : List Row) (s : MainState) (samPos : Int) (hI : SegInv text L c0 s)
    (h1 : s.reloadPos < samPos) (h2 : samPos ≤ L) : SegInv text L c0 (syncStep s) := by
  obtain ⟨hWS, hbase, hbd, rows, hcout, hpw, hle⟩ := hI
  have hW := windowState_winOk text hw _ hWS
  have hloc := hW.2.2.1
  have hrn := remaining_nonneg s.positions
  have hf := syncStep_frame s
  -- the boundary has not been met
  have hnb : s.reloadPos = s.positions.refCoveredPosition - loadingBlockSize ∧
      s.positions.location + remaining s.positions = L ∧
      (s.positions.refCoveredPosition ≤ s.positions.location ∨ remaining s.positions = 0) := by
    rcases hbd with hb | hb
    · omega
    · exact hb
  have hblock : s.positions.refCoveredPosition - loadingBlockSize ≤ s.positions.location := by
    rcases hnb.2.2 with h | h
    · unfold loadingBlockSize; omega
    · omega
  have hWS2 : WindowState text (syncStep s).positions := by
    rw [hf.2.2.2.2.2.2.1]; exact WindowState.extend _ hWS
  have hW2 := windowState_winOk text hw _ hWS2
  have hlm := loadMore_remaining s.positions (by unfold loadingBlockSize; omega)
  have hfr := loadMore_frame s.positions
  have hmono : s.positions.location ≤ (loadMore s.positions).1.location := by
    unfold loadMore
    exact (fillLoop_ringOk _ (advanceWindow s.positions) hW.1
      (by simp only [advanceWindow]; unfold loadingBlockSize; omega) hW.2.2.2).2.2.2
  have hrows := startOutput_block_rows s.positions hW hblock
  have hpos : (syncStep s).positions = (loadMore s.positions).1 := hf.2.2.2.2.2.2.1
  refine ⟨hWS2, ?_, ?_, rows ++ startOutput s.positions false, ?_, ?_, ?_⟩
  · rw [hpos, hfr.1]; unfold loadingBlockSize at *; omega
  · have hloc2 := hW2.2.2.1
    rw [hpos] at hloc2 ⊢
    rw [hfr.1] at hloc2 ⊢
    rcases hfr.2.2.2.2.2.2 with hm | hm
    · right
      have := hlm.1 hm
      refine ⟨?_, by rw [this.1]; exact hnb.2.1, ?_⟩
      · simp only [syncStep, hm, ne_eq, not_true_eq_false, if_false]
        rw [hnb.1]; ring
      · rw [hfr.1] at this; exact this.2
    · left
      have := hlm.2 hm
      refine ⟨by rw [this]; exact hnb.2.1, ?_⟩
      simp only [syncStep, hm]
      unfold inf loadingBlockSize at *
      simp only [ne_eq, one_ne_zero, not_false_eq_true, if_true]
      omega
  · rw [hf.2.2.2.2.2.2.2, hcout, List.append_assoc]
  · rw [List.pairwise_append]
    refine ⟨hpw, hrows.1, ?_⟩
    intro a ha b hb
    have := hle a ha
    have := (hrows.2 b hb).1
    omega
  · intro r hr
    rw [hpos, hfr.1]
    rcases List.mem_append.mp hr with h | h
    · have := hle r h; unfold loadingBlockSize at *; omega
    · have := (hrows.2 r h).2; unfold loadingBlockSize at *; omega

theorem syncLoop_segInv (text : Str) (hw : SeqLinesBounded 67 text) (L : Int)
    (c0 : List Row) (samPos : Int) (fuel : Nat) (s : MainState) (hI : SegInv text L c0 s)
    (h2 : samPos ≤ L) : SegInv text L c0 (syncLoop samPos fuel s) := by
  induction fuel generalizing s with
  | zero => exact hI
  | succ n ih =>
    simp only [syncLoop]
    split
    · rename_i h
      exact ih _ (syncStep_segInv text hw L c0 s samPos hI (by omega) h2)
    · exact hI

theorem segInv_record (text : Str) (L : Int) (c0 : List Row) (s : MainState)
    (hI : SegInv text L c0 s) (P : Positions) (a : Alignment) (lp : Int)
    (hP : appendPositions s.positions a = .ok P) :
    SegInv text L c0 { s with positions := P, lastPos := lp } := by
  obtain ⟨hWS, hbase, hbd, hrows⟩ := hI
  have c := appendPositions_cursors _ _ _ hP
  have hrem : remaining P = remaining s.positions := by
    unfold remaining
    rw [c.2.2.2.2.2.2.2.2.2, c.2.2.2.2.2.2.2.2.1]
  refine ⟨WindowState.record _ _ a hWS hP, ?_, ?_, ?_⟩
  · simp only; rw [c.2.2.1, c.2.2.2.1]; exact hbase
  · simp only; rw [c.2.2.1, c.2.2.2.1, hrem]; exact hbd
  · simp only; rw [c.2.2.2.1]; exact hrows

theorem acceptRecord_segInv (text : Str) (hw : SeqLinesBounded 67 text) (L : Int)
    (c0 : List Row) (parse : Str → Alignment) (line : Str) (s : MainState)
    (hI : SegInv text L c0 s) (h2 : s.samPos ≤ L) :
    SegInv text L c0 (finalState (acceptRecord parse line s)) ∧
    (finalState (acceptRecord parse line s)).positions.chromosome = s.positions.chromosome := by
  have h3 := syncLoop_segInv text hw L c0 s.samPos (syncFuel s.samPos s.reloadPos) s hI h2
  have hc := (syncLoop_frame s.samPos (syncFuel s.samPos s.reloadPos) s).2.2.2.1
  unfold acceptRecord
  split
  · exact ⟨h3, hc⟩
  · split
    · exact ⟨h3, hc⟩
    · rename_i P hP
      simp only [finalState]
      refine ⟨segInv_record text L c0 _ h3 P _ _ hP, ?_⟩
      rw [(appendPositions_cursors _ _ _ hP).2.2.2.2.1]
      exact hc

theorem segInv_vars (text : Str) (L : Int) (c0 : List Row) (s : MainState)
    (hI : SegInv text L c0 s) (chr : Str) (pos : Int) :
    SegInv text L c0 { s with samChromosome := chr, samPos := pos } := hI

/-- One line of the segment: the invariant holds in the state in which the iteration
ends, and the window stays on the chromosome. -/
theorem processLine_segInv (text : Str) (hw : SeqLinesBounded 67 text) (L : Int)
    (c0 : List Row) (parse : Str → Alignment) (X : Str) (s : MainState) (line : Str)
    (hI : SegInv text L c0 s) (hX : s.positions.chromosome = X)
    (hvalid : ∀ (st : MainState) (chr : Str) (pos : Int),
      MappedLine st line chr pos → chr = X ∧ pos ≤ L) :
    SegInv text L c0 (finalState (processLine parse s line)) ∧
    (finalState (processLine parse s line)).positions.chromosome = X := by
  unfold processLine
  split
  · exact ⟨hI, hX⟩
  · rename_i hskip
    split
    · exact ⟨hI, hX⟩
    · rename_i mapped chr pos hsam
      split
      · exact ⟨segInv_vars text L c0 s hI chr pos, hX⟩
      · rename_i hmap
        have hm : MappedLine s line chr pos := by
          refine ⟨by simpa using hskip, ?_⟩
          rw [hsam]
          cases mapped
          · simp at hmap
          · rfl
        have hv := hvalid s chr pos hm
        have hcc : changeChromosome { s with samChromosome := chr, samPos := pos }
            = .ok { s with samChromosome := chr, samPos := pos } := by
          unfold changeChromosome
          rw [if_neg]
          simp only [ne_eq, not_not]
          rw [hv.1, hX]
        rw [hcc]
        have := acceptRecord_segInv text hw L c0 parse line
          { s with samChromosome := chr, samPos := pos }
          (segInv_vars text L c0 s hI chr pos) hv.2
        exact ⟨this.1, this.2.trans hX⟩

theorem finalState_mainLoop_cons (parse : Str → Alignment) (s : MainState) (l : Str)
    (ls : List Str) :
    finalState (mainLoop parse s (l :: ls)) =
      match processLine parse s l with
      | .error _ => finalState (processLine parse s l)
      | .ok s1 => finalState (mainLoop parse s1 ls) := by
  simp only [mainLoop]
  split
  · rename_i e h; rw [h]
  · rfl

theorem mainLoop_segInv (text : Str) (hw : SeqLinesBounded 67 text) (L : Int)
    (c0 : List Row) (parse : Str → Alignment) (X : Str) (s : MainState) (lines : List Str)
    (hI : SegInv text L c0 s) (hX : s.positions.chromosome = X)
    (hvalid : ∀ l ∈ lines, ∀ (st : MainState) (chr : Str) (pos : Int),
      MappedLine st l chr pos → chr = X ∧ pos ≤ L) :
    SegInv text L c0 (finalState (mainLoop parse s lines)) := by
  induction lines generalizing s with
  | nil => exact hI
  | cons l ls ih =>
    rw [finalState_mainLoop_cons]
    have h1 := processLine_segInv text hw L c0 parse X s l hI hX
      (hvalid l (List.mem_cons_self _ _))
    split
    · exact h1.1
    · rename_i s1 hs1
      rw [hs1] at h1
      exact ih s1 h1.1 h1.2 (fun l2 hl2 => hvalid l2 (List.mem_cons_of_mem _ hl2))

theorem resetWindow_remaining (P : Positions) (name : Str) (id startPos : Int)
    (hs : getChromosomePosInRefFile P.chromosomePos name = .ok startPos) :
    remaining (resetWindow P name id startPos) = chromosomeLength P name := by
  unfold chromosomeLength remaining resetWindow seekg
  rw [hs]
  simp only
  split <;> simp

/-- The reset at a chromosome change establishes the invariant of the new segment. -/
theorem changeChromosome_segInv (text : Str) (hw : SeqLinesBounded 67 text)
    (s s2 : MainState) (ht : s.positions.refText = text)
    (hidx : s.positions.chromosomePos = LoadChromosomeNamesPos text)
    (hX : s.samChromosome ≠ s.positions.chromosome)
    (h : changeChromosome s = .ok s2) :
    SegInv text (chromosomeLength s.positions s.samChromosome)
      (s.cout ++ startOutput s.positions true) s2 := by
  unfold changeChromosome at h
  rw [if_pos hX] at h
  dsimp only at h
  split at h
  · cases h
  · rename_i P m hl
    cases h
    have hWS : WindowState text P := WindowState.reset _ _ _ _ ht hidx hl
    have hW := windowState_winOk text hw _ hWS
    have hok := loadNewChromosome_ok _ _ _ _ hl
    unfold loadNewChromosome at hl
    split at hl
    · cases hl
    · rename_i startPos hsp
      split at hl
      · cases hl
      · rename_i id hid
        simp only [Except.ok.injEq] at hl
        have hP := congrArg Prod.fst hl
        have hm := congrArg Prod.snd hl
        simp only at hP hm
        have g := resetWindow_frame s.positions s.samChromosome id startPos
        have hr := fillLoop_remaining
          ((resetWindow s.positions s.samChromosome id startPos).refRest.length + 2)
          (resetWindow s.positions s.samChromosome id startPos) (by split <;> omega)
          (by rw [g.2.2.2.2.2.2.1, g.2.1]; unfold loadingBlockSize; omega)
        rw [hP, hm, g.2.2.2.2.2.2.1, resetWindow_remaining _ _ _ _ hsp] at hr
        refine ⟨hWS, ?_, ?_, [], by simp, by simp, by simp⟩
        · simp only; rw [hok.2.1]; have := hW.1.1; omega
        · simp only
          rcases hok.2.2.2.2.2.1 with h0 | h1
          · right
            have := hr.1 h0
            refine ⟨?_, by omega, this.2⟩
            rw [h0, hok.2.1]
            unfold loadingBlockSize
            simp
          · left
            have := hr.2 h1
            refine ⟨by omega, ?_⟩
            rw [h1]
            have hloc := hW.2.2.1
            rw [hok.2.1] at hloc
            unfold inf loadingBlockSize at *
            simp only [ne_eq, one_ne_zero, not_false_eq_true, if_true]
            omega

theorem processLine_index (parse : Str → Alignment) (s s2 : MainState) (line : Str)
    (h : processLine parse s line = .ok s2) :
    s2.positions.refText = s.positions.refText ∧
    s2.positions.chromosomePos = s.positions.chromosomePos := by
  have sync : ∀ (p : Int) (n : Nat) (t : MainState),
      (syncLoop p n t).positions.refText = t.positions.refText ∧
      (syncLoop p n t).positions.chromosomePos = t.positions.chromosomePos := by
    intro p n
    induction n with
    | zero => intro t; exact ⟨rfl, rfl⟩
    | succ n ih =>
      intro t
      simp only [syncLoop]
      split
      · have a := ih (syncStep t)
        have b := loadMore_frame t.positions
        have c : (syncStep t).positions = (loadMore t.positions).1 := rfl
        rw [c] at a
        exact ⟨a.1.trans b.2.2.2.2.2.1, a.2.trans b.2.2.2.2.1⟩
      · exact ⟨rfl, rfl⟩
  unfold processLine at h
  split at h
  · cases h; exact ⟨rfl, rfl⟩
  · split at h
    · cases h
    · split at h
      · cases h; exact ⟨rfl, rfl⟩
      · split at h
        · cases h
        · rename_i s3 hcc
          have hc : s3.positions.refText = s.positions.refText ∧
              s3.positions.chromosomePos = s.positions.chromosomePos := by
            unfold changeChromosome at hcc
            split at hcc
            · dsimp only at hcc
              split at hcc
              · cases hcc
              · rename_i P m hl
                cases hcc
                have := loadNewChromosome_ok _ _ _ _ hl
                exact ⟨this.2.2.2.2.1, this.2.2.2.1⟩
            · cases hcc; exact ⟨rfl, rfl⟩
          unfold acceptRecord at h
          split at h
          · cases h
          · split at h
            · cases h
            · rename_i P hP
              cases h
              have a := appendPositions_cursors _ _ _ hP
              have b := sync s3.samPos (syncFuel s3.samPos s3.reloadPos) s3
              exact ⟨a.2.2.2.2.2.2.2.1.trans (b.1.trans hc.1),
                a.2.2.2.2.2.2.1.trans (b.2.trans hc.2)⟩

theorem mainLoop_index (parse : Str → Alignment) (s s2 : MainState) (lines : List Str)
    (h : mainLoop parse s lines = .ok s2) :
    s2.positions.refText = s.positions.refText ∧
    s2.positions.chromosomePos = s.positions.chromosomePos := by
  induction lines generalizing s with
  | nil => simp only [mainLoop, Except.ok.injEq] at h; subst h; exact ⟨rfl, rfl⟩
  | cons l rest ih =>
    simp only [mainLoop] at h
    split at h
    · cases h
    · rename_i s1 h1
      have a := processLine_index parse s s1 l h1
      have b := ih s1 h
      exact ⟨b.1.trans a.1, b.2.trans a.2⟩

theorem processLine_mapped (parse : Str → Alignment) (s : MainState) (line chr : Str)
    (pos : Int) (hm : MappedLine s line chr pos) :
    processLine parse s line =
      match changeChromosome { s with samChromosome := chr, samPos := pos } with
      | .error e => .error e
      | .ok s2 => acceptRecord parse line s2 := by
  unfold processLine
  rw [hm.1, hm.2]
  simp only [Bool.false_eq_true, if_false, Bool.not_true]

theorem mappedAs_unique (line c : Str) (p : Int) (h : MappedAs line c p) (st : MainState)
    (chr : Str) (pos : Int) (hm : MappedLine st line chr pos) : chr = c ∧ pos = p := by
  have := hm.2
  rw [h.2] at this
  simp only [Except.ok.injEq, Prod.mk.injEq, true_and] at this
  exact ⟨this.1.symm, this.2.symm⟩

theorem getline_line (l r : Str) (h : ∀ x ∈ l, x ≠ '\n') :
    getline (l ++ '\n' :: r) = (l, r, true) := by
  induction l with
  | nil => simp [getline]
  | cons c cs ih =>
    have hc : c ≠ '\n' := h c (List.mem_cons_self _ _)
    show getline (c :: (cs ++ '\n' :: r)) = _
    simp only [getline, hc, if_false, ih (fun x hx => h x (List.mem_cons_of_mem _ hx))]

theorem body_head (body : Str) (hb : ∀ x ∈ body, x = 'C') :
    body.head? ≠ some '>' := by
  cases body with
  | nil => simp
  | cons c cs =>
    have := hb c (List.mem_cons_self _ _)
    subst this
    simp

theorem loadNamesLoop_step (text rest : Str) (acc : List ChromosomeFilePosition) (n : Nat) :
    loadNamesLoop text (n + 1) rest true acc =
      if (getline rest).1.head? = some '>' then
        loadNamesLoop text n (getline rest).2.1 (getline rest).2.2
          (acc ++ [{ chromosome := getChrName (getline rest).1,
                     linePos := tellg text (getline rest).2.1 (getline rest).2.2 }])
      else loadNamesLoop text n (getline rest).2.1 (getline rest).2.2 acc := by
  simp only [loadNamesLoop, if_true]

theorem loadNamesLoop_notGood (text rest : Str) (acc : List ChromosomeFilePosition)
    (n : Nat) : loadNamesLoop text n rest false acc = acc := by
  cases n <;> simp [loadNamesLoop]

theorem longRef_index (body : Str) (hb : ∀ x ∈ body, x = 'C') :
    LoadChromosomeNamesPos (longRef body) = [⟨['c'], 3⟩] := by
  have hnl : ∀ x ∈ body, x ≠ '\n' := fun x hx => by rw [hb x hx]; decide
  have hhead := body_head body hb
  have h1 : getline (longRef body) = (['>', 'c'], body ++ ['\n'], true) := by
    show getline ('>' :: 'c' :: '\n' :: (body ++ ['\n'])) = _
    simp [getline]
  have h2 : getline (body ++ ['\n']) = (body, [], true) := getline_line body [] hnl
  have h3 : getline [] = (([] : Str), ([] : Str), false) := rfl
  have hfuel : (longRef body).length + 2 = body.length + 3 + 1 + 1 + 1 := by
    unfold longRef; simp
  have htell : tellg (longRef body) (body ++ ['\n']) true = 3 := by
    unfold tellg longRef; simp; omega
  have hname : getChrName ['>', 'c'] = ['c'] := by decide
  unfold LoadChromosomeNamesPos
  rw [hfuel, loadNamesLoop_step, h1]
  simp only
  rw [if_pos (by decide), loadNamesLoop_step, h2]
  simp only
  rw [if_neg hhead, loadNamesLoop_step, h3]
  simp only
  rw [if_neg (by decide), loadNamesLoop_notGood, htell, hname]
  simp [sortChromosomes]

theorem longRef_reset (body : Str) (hb : ∀ x ∈ body, x = 'C')
    (hlen : 120000 ≤ body.length) :
    loadNewChromosome (Positions.new (longRef body)) ['c'] = .ok (longLoaded body, 0) := by
  have hne : body ≠ [] := by
    intro h; rw [h] at hlen; simp at hlen
  have hnl : ∀ x ∈ body, x ≠ '\n' := fun x hx => by rw [hb x hx]; decide
  have hhead := body_head body hb
  have hemp : body.isEmpty = false := by
    cases body with
    | nil => exact absurd rfl hne
    | cons c cs => rfl
  have hidx : (Positions.new (longRef body)).chromosomePos = [⟨['c'], 3⟩] :=
    longRef_index body hb
  have hpos : getChromosomePosInRefFile [⟨['c'], 3⟩] ['c'] = .ok 3 := rfl
  have hfind : findChromosome [⟨['c'], 3⟩] ['c'] 0
      ((([⟨['c'], 3⟩] : List ChromosomeFilePosition).length : Int) - 1) = .ok 0 := rfl
  have h2 : getline (body ++ ['\n']) = (body, [], true) := getline_line body [] hnl
  have hreset : resetWindow (Positions.new (longRef body)) ['c'] 0 3 =
      { longBase body with refRest := body ++ ['\n'] } := by
    unfold resetWindow seekg longBase
    simp only [hidx]
    simp [longRef, Positions.new]
  unfold loadNewChromosome
  rw [hidx, hpos, hfind]
  simp only [hreset]
  simp only [fillLoop, if_true, h2, hhead, if_false, hemp, Bool.false_eq_true, longBase]
  rw [if_pos]
  · rfl
  · simp only [appendRefPosition]
    unfold loadingBlockSize
    omega

theorem body_get (body : Str) (hb : ∀ x ∈ body, x = 'C') (k : Nat) (hk : k < body.length) :
    body.get? k = some 'C' := by
  rw [List.get?_eq_get hk, hb _ (List.get_mem body k hk)]

theorem longLoaded_fields (body : Str) (hlen : body.length = 240068) :
    (longLoaded body).location = 240068 ∧ (longLoaded body).refPosEndPtr = 120001 ∧
    (longLoaded body).refPosStartPtr = 0 ∧ (longLoaded body).refCoveredPosition = 120000 ∧
    (longLoaded body).refRest = [] ∧ (longLoaded body).refGood = true ∧
    (longLoaded body).chromosome = ['c'] ∧
    (longLoaded body).chromosomePos = [⟨['c'], 3⟩] ∧
    (longLoaded body).curChromosomeId = 0 ∧
    (longLoaded body).refText = longRef body := by
  simp only [longLoaded, appendRefPosition, longBase, hlen, and_true]
  decide

theorem longLoaded_slot_zero (body : Str) (hb : ∀ x ∈ body, x = 'C')
    (hlen : body.length = 240068) :
    (longLoaded body).refPositions 0 = refSlot 0 0 120067 'C' := by
  have h := appendRefLoop_at 0 0 0 body 0 (fun _ => Position.initialize) 120067 'C'
    (body_get body hb 120067 (by omega))
    (by
      intro k2 h1 h2
      have e : Mod (0 + (0 + ((120067 : Nat) : Int))) = 0 := by decide
      rw [e, Mod_of_ge (by omega)]
      omega)
  have e : Mod (0 + (0 + ((120067 : Nat) : Int))) = 0 := by decide
  rw [e] at h
  simpa [longLoaded, appendRefPosition, longBase] using h

theorem loadMore_notGood_pair (P : Positions) (h : P.refGood = false) :
    loadMore P = (advanceWindow P, 0) := by
  unfold loadMore
  have : (advanceWindow P).refGood = false := h
  simp [fillLoop, this]

theorem longRef_length (body : Str) (hb : ∀ x ∈ body, x = 'C') :
    chromosomeLength (Positions.new (longRef body)) ['c'] = body.length := by
  have hnl : ∀ x ∈ body, x ≠ '\n' := fun x hx => by rw [hb x hx]; decide
  have hidx : (Positions.new (longRef body)).chromosomePos = [⟨['c'], 3⟩] :=
    longRef_index body hb
  have hpos : getChromosomePosInRefFile [⟨['c'], 3⟩] ['c'] = .ok 3 := rfl
  have hdrop : (Positions.new (longRef body)).refText.drop (3 : Int).toNat
      = body ++ ['\n'] := by
    simp [Positions.new, longRef]
  have hlines : fileLines (body ++ ['\n']) = [body] := by
    rw [fileLines_getline _ (by simp), getline_line body [] hnl]
    rfl
  unfold chromosomeLength
  rw [hidx, hpos]
  simp only
  rw [if_neg (by decide), hdrop, hlines]
  simp [seqBases, body_head body hb]

theorem isDigit_not_alpha (c : Char) (h : c.isDigit = true) : isalpha c = false := by
  simp only [isalpha, Char.isAlpha, Char.isUpper, Char.isLower, Char.isDigit, Bool.and_eq_true,
    decide_eq_true_eq, Bool.or_eq_false_iff, Bool.and_eq_false_imp] at *
  simp only [UInt32.le_def, BitVec.le_def, decide_eq_false_iff_not] at *
  have e1 : (UInt32.toBitVec 48).toNat = 48 := rfl
  have e2 : (UInt32.toBitVec 57).toNat = 57 := rfl
  have e3 : (UInt32.toBitVec 65).toNat = 65 := rfl
  have e4 : (UInt32.toBitVec 97).toNat = 97 := rfl
  omega

theorem isDigit_not_space (c : Char) (h : c.isDigit = true) :
    isspace c = false ∧ c ≠ '-' ∧ c ≠ '+' ∧ c ≠ '^' := by
  refine ⟨?_, ?_, ?_, ?_⟩
  · simp only [isspace, Bool.or_eq_false_iff, decide_eq_false_iff_not]
    refine ⟨⟨⟨⟨⟨?_, ?_⟩, ?_⟩, ?_⟩, ?_⟩, ?_⟩ <;> (intro hc; subst hc; revert h; decide)
  all_goals (intro hc; subst hc; revert h; decide)

theorem stoll_digits (d : Str) (hne : d ≠ []) (hd : ∀ c ∈ d, c.isDigit = true)
    (hv : digitsValue d ≤ 9223372036854775807) : stoll d = some (digitsValue d : Int) := by
  cases d with
  | nil => exact absurd rfl hne
  | cons c cs =>
    have hc := hd c (List.mem_cons_self _ _)
    have hs := isDigit_not_space c hc
    have h1 : (c :: cs).dropWhile isspace = c :: cs := by
      rw [List.dropWhile_cons_of_neg (by simp [hs.1])]
    have h2 : (c :: cs).takeWhile Char.isDigit = c :: cs := by
      rw [List.takeWhile_eq_self_iff]; exact hd
    unfold stoll
    simp only [h1, List.head?_cons, Option.some.injEq, hs.2.1, hs.2.2.1, or_self, if_false, h2,
      List.isEmpty_cons, Bool.false_eq_true]
    rw [if_neg]
    omega

theorem stoi_digits (d : Str) (hne : d ≠ []) (hd : ∀ c ∈ d, c.isDigit = true)
    (hv : digitsValue d ≤ 2147483647) : stoi d = some (digitsValue d : Int) := by
  unfold stoi
  rw [stoll_digits d hne hd (by omega)]
  simp only
  rw [if_neg]
  omega

theorem cigarLoop_digits (d : Str) (o : Char) (rest : Str) (i : Int)
    (hd : ∀ c ∈ d, c.isDigit = true) (ho : isalpha o = true) :
    cigarLoop (d ++ o :: rest) i = some (i + d.length) := by
  induction d generalizing i with
  | nil => simp [cigarLoop, ho]
  | cons c cs ih =>
    rw [List.cons_append]
    unfold cigarLoop
    rw [isDigit_not_alpha c (hd c (List.mem_cons_self _ _)), if_neg (by simp)]
    rw [ih (i + 1) (fun x hx => hd x (List.mem_cons_of_mem _ hx))]
    simp only [List.length_cons, Nat.cast_add, Nat.cast_one]
    congr 1; omega

theorem cigar_calls_from (pre : Str) (tokens : List (Str × Char))
    (h : ∀ t ∈ tokens, CigarToken t) (k : Nat) :
    CIGAR.calls (tokens.length + 1 + k)
        ⟨pre.length, pre ++ cigarString tokens, (pre ++ cigarString tokens).length⟩
      = .ok (tokens.map (fun t => ((digitsValue t.1 : Int), t.2))) := by
  induction tokens generalizing pre with
  | nil =>
    simp [cigarString, CIGAR.calls, CIGAR.getNextSegment]
    rw [show 0 + 1 + k = k + 1 by omega]
    simp [CIGAR.calls, CIGAR.getNextSegment]
  | cons t ts ih =>
    obtain ⟨hne, hd, hv, ho⟩ := h t (List.mem_cons_self _ _)
    have hs : cigarString (t :: ts) = t.1 ++ t.2 :: cigarString ts := by
      simp [cigarString]
    rw [show (t :: ts).length + 1 + k = (ts.length + 1 + k) + 1 by simp; omega]
    rw [hs]
    unfold CIGAR.calls
    unfold CIGAR.getNextSegment
    have hlen : ((pre.length : Int) = ((pre ++ (t.1 ++ t.2 :: cigarString ts)).length : Int)) = False := by
      simp only [List.length_append, List.length_cons, Nat.cast_add, Nat.cast_one, eq_iff_iff,
        iff_false]
      omega
    simp only [hlen, if_false, Int.toNat_ofNat, List.drop_left]
    rw [cigarLoop_digits t.1 t.2 _ _ hd ho]
    simp only
    have hsub : substr (pre ++ (t.1 ++ t.2 :: cigarString ts)) pre.length
        ((pre.length : Int) + t.1.length - pre.length) = t.1 := by
      unfold substr
      simp only [Int.toNat_ofNat, List.drop_left, add_sub_cancel_left, List.take_left]
    rw [hsub, stoi_digits t.1 hne hd hv]
    simp only
    have hget : (pre ++ (t.1 ++ t.2 :: cigarString ts)).get? ((pre.length : Int) + t.1.length).toNat
        = some t.2 := by
      rw [show ((pre.length : Int) + t.1.length).toNat = (pre ++ t.1).length by
        simp only [List.length_append]; omega]
      rw [← List.append_assoc, List.get?_eq_getElem?, List.getElem?_append_right (le_refl _)]
      simp
    rw [hget]
    simp only [Option.getD_some]
    have := ih (pre ++ t.1 ++ [t.2]) (fun x hx => h x (List.mem_cons_of_mem _ hx))
    have e1 : pre ++ t.1 ++ [t.2] ++ cigarString ts = pre ++ (t.1 ++ t.2 :: cigarString ts) := by
      simp
    have e2 : (((pre ++ t.1 ++ [t.2]).length : Nat) : Int) = (pre.length : Int) + t.1.length + 1 := by
      simp only [List.length_append, List.length_singleton]; push_cast; ring
    rw [e1, e2] at this
    rw [this]
    simp


/-- C13 (as stated, refuted). In the CIGAR string `3=2M`, made of the tokens `3=` and
`2M`, the operation symbol `=` is not alphabetic: the scan passes over it, the first
call returns length 3 with symbol `M`, and the second call returns false, so two
tokens give one segment.  On `3=` the scan runs past the end of the string. -/
theorem cigar_symbol_not_alphabetic :
    cigarString [("3".toList, '='), ("2".toList, 'M')] = "3=2M".toList ∧
    CIGAR.getNextSegment (string_search.loadString "3=2M".toList) 0 '\x00'
      = .ok (true, 3, 'M', ⟨4, "3=2M".toList, 4⟩) ∧
    CIGAR.calls 3 (string_search.loadString "3=2M".toList) = .ok [(3, 'M')] ∧
    CIGAR.getNextSegment (string_search.loadString "3=".toList) 0 '\x00' = .error .pastEnd :=
  ⟨rfl, rfl, rfl, rfl⟩

/-- C13 (amended). For every CIGAR string that is a concatenation of tokens, each made of
one or more decimal digits whose value is at most 2147483647 followed by one
alphabetic operation symbol, successive calls of `CIGAR::getNextSegment` after
`loadString` return true with the value of the digits and the symbol of each token, in
left-to-right order, and the call that follows the last token returns false: with
room for at least one more call than there are tokens, the calls that return true
are exactly the tokens. -/
theorem cigar_segments (tokens : List (Str × Char)) (h : ∀ t ∈ tokens, CigarToken t)
    (k : Nat) :
    CIGAR.calls (tokens.length + 1 + k) (string_search.loadString (cigarString tokens))
      = .ok (tokens.map (fun t => ((digitsValue t.1 : Int), t.2))) := by
  have := cigar_calls_from [] tokens h k
  simpa [string_search.loadString] using this

/-- Witness of `cigar_segments`: the CIGAR string `3M12I`. -/
theorem cigar_segments_witness :
    (∀ t ∈ [("3".toList, 'M'), ("12".toList, 'I')], CigarToken t) ∧
    CIGAR.calls (([("3".toList, 'M'), ("12".toList, 'I')] : List (Str × Char)).length + 1 + 0)
        (string_search.loadString (cigarString [("3".toList, 'M'), ("12".toList, 'I')]))
      = .ok (([("3".toList, 'M'), ("12".toList, 'I')] : List (Str × Char)).map
          (fun t => ((digitsValue t.1 : Int), t.2))) :=
  have h : ∀ t ∈ [("3".toList, 'M'), ("12".toList, 'I')], CigarToken t := by
    intro t ht
    simp only [List.mem_cons, List.mem_singleton, List.not_mem_nil, or_false] at ht
    rcases ht with ht | ht <;> subst ht <;> exact ⟨by decide, by decide, by decide, by decide⟩
  ⟨h, cigar_segments _ h 0⟩

theorem mdLoop_head (rest : Str) (ci : Int) (seg : Str) (d : Bool)
    (hseg : seg.head? ≠ some '0') (h : (mdLoop rest ci seg d).1 = true) :
    (mdLoop rest ci seg d).2.1 ≠ [] ∧ (mdLoop rest ci seg d).2.1.head? ≠ some '0' := by
  induction rest generalizing ci seg d with
  | nil =>
    simp only [mdLoop] at h ⊢
    refine ⟨?_, hseg⟩
    intro he; rw [he] at h; simp at h
  | cons c cs ih =>
    have happ : ∀ x : Char, seg ≠ [] → (seg ++ [x]).head? ≠ some '0' := by
      intro x hne
      cases seg with
      | nil => exact absurd rfl hne
      | cons a as => simpa using hseg
    unfold mdLoop at h ⊢
    by_cases h1 : (seg.isEmpty && decide (c = '0')) = true
    · rw [if_pos h1] at h ⊢
      exact ih _ _ _ hseg h
    · rw [if_neg h1] at h ⊢
      have hc0 : seg = [] → c ≠ '0' := by
        intro he hc; apply h1; simp [he, hc]
      by_cases h2 : isalpha c = true
      · rw [if_pos h2] at h ⊢
        by_cases h3 : seg.isEmpty = true
        · rw [if_pos h3] at h ⊢
          have : seg = [] := by simpa using h3
          simp only [List.head?_cons, ne_eq, Option.some.injEq]
          exact ⟨by simp, hc0 this⟩
        · rw [if_neg h3] at h ⊢
          have hne : seg ≠ [] := by simpa using h3
          by_cases h4 : d = true
          · rw [if_pos h4] at h ⊢
            exact ih _ _ _ (happ c hne) h
          · rw [if_neg h4] at h ⊢
            exact ⟨hne, hseg⟩
      · rw [if_neg h2] at h ⊢
        by_cases h3 : seg.isEmpty = true
        · have hs : seg = [] := by simpa using h3
          have hcz := hc0 hs
          by_cases h5 : c = '^'
          · rw [if_pos h5, if_pos h3] at h ⊢
            exact ih _ _ _ (by simp [hcz]) h
          · rw [if_neg h5, if_pos h3] at h ⊢
            exact ih _ _ _ (by simp [hcz]) h
        · have hne : seg ≠ [] := by simpa using h3
          by_cases h5 : c = '^'
          · rw [if_pos h5, if_neg h3] at h ⊢
            exact ⟨hne, hseg⟩
          · rw [if_neg h5, if_neg h3] at h ⊢
            split at h
            · rename_i h6
              rw [if_pos h6]
              exact ⟨hne, hseg⟩
            · rename_i h6
              rw [if_neg h6]
              exact ih _ _ _ (happ c hne) h

theorem mdLoop_zeros (zeros rest : Str) (i : Int) (d : Bool) (hz : ∀ c ∈ zeros, c = '0') :
    mdLoop (zeros ++ rest) i [] d = mdLoop rest (i + zeros.length) [] d := by
  induction zeros generalizing i with
  | nil => simp
  | cons c cs ih =>
    have hc : c = '0' := hz c (List.mem_cons_self _ _)
    subst hc
    rw [List.cons_append]
    have e0 : mdLoop ('0' :: (cs ++ rest)) i [] d = mdLoop (cs ++ rest) (i + 1) [] d := by
      rw [mdLoop, if_pos (by simp)]
    rw [e0]
    rw [ih (i + 1) (fun x hx => hz x (List.mem_cons_of_mem _ hx))]
    have e : i + 1 + (cs.length : Int) = i + (('0' :: cs).length : Int) := by
      simp only [List.length_cons]; push_cast; omega
    rw [e]

/-- C15. Whatever string is loaded and whatever the cursor is, a call of
`MD_tag::getNextSegment` that returns true returns a segment that is not empty and
does not begin with the character `0`; and a run of `0` characters met while the
segment is still empty is skipped: the scan continues behind the run with the segment
still empty. -/
theorem md_segment_nonempty (m : string_search) (seg0 : Str)
    (h : (MD_tag.getNextSegment m seg0).1 = true) :
    (MD_tag.getNextSegment m seg0).2.1 ≠ [] ∧
    (MD_tag.getNextSegment m seg0).2.1.head? ≠ some '0' ∧
    ∀ (zeros rest : Str) (i : Int) (d : Bool), (∀ c ∈ zeros, c = '0') →
      mdLoop (zeros ++ rest) i [] d = mdLoop rest (i + zeros.length) [] d := by
  refine ⟨?_, ?_, fun zeros rest i d hz => mdLoop_zeros zeros rest i d hz⟩
  all_goals
    unfold MD_tag.getNextSegment at h ⊢
    by_cases hc : m.start ≥ m.stringLen
    · rw [if_pos hc] at h; simp at h
    · rw [if_neg hc] at h ⊢
      simp only at h ⊢
      have := mdLoop_head _ _ [] false (by simp) h
      first | exact this.1 | exact this.2

/-- Witness of `md_segment_nonempty`: the first call on the MD string `00A3`. -/
theorem md_segment_nonempty_witness :
    (MD_tag.getNextSegment (string_search.loadString "00A3".toList) []).1 = true ∧
    (MD_tag.getNextSegment (string_search.loadString "00A3".toList) []).2.1 = ['A'] ∧
    (MD_tag.getNextSegment (string_search.loadString "00A3".toList) []).2.1 ≠ [] ∧
    (MD_tag.getNextSegment (string_search.loadString "00A3".toList) []).2.1.head? ≠ some '0' ∧
    ∀ (zeros rest : Str) (i : Int) (d : Bool), (∀ c ∈ zeros, c = '0') →
      mdLoop (zeros ++ rest) i [] d = mdLoop rest (i + zeros.length) [] d :=
  ⟨by decide, by decide,
    md_segment_nonempty (string_search.loadString "00A3".toList) [] (by decide)⟩

theorem isalpha_not_special (c : Char) (h : isalpha c = true) : c ≠ '0' ∧ c ≠ '^' := by
  constructor <;> (intro hc; subst hc; revert h; decide)

theorem digit_toNat (c : Char) (h : c.isDigit = true) (h0 : c ≠ '0') :
    0 < c.toNat - '0'.toNat := by
  simp only [Char.isDigit, Bool.and_eq_true, decide_eq_true_eq, UInt32.le_def, BitVec.le_def]
    at h
  have e1 : (UInt32.toBitVec 48).toNat = 48 := rfl
  have e2 : '0'.toNat = 48 := rfl
  have e3 : c.toNat = c.val.toBitVec.toNat := rfl
  have hne : c.toNat ≠ 48 := by
    intro he
    apply h0
    have := Char.ofNat_toNat c
    rw [he] at this
    exact this.symm
  omega

theorem foldl_digits_pos (ds : Str) (acc : Nat) (h : 0 < acc) :
    0 < ds.foldl (fun acc c => acc * 10 + (c.toNat - '0'.toNat)) acc := by
  induction ds generalizing acc with
  | nil => simpa
  | cons c cs ih =>
    simp only [List.foldl_cons]
    exact ih _ (by omega)

theorem digitsValue_zeros (z m : Str) (hz : ∀ c ∈ z, c = '0') :
    digitsValue (z ++ m) = digitsValue m := by
  induction z with
  | nil => simp
  | cons c cs ih =>
    have hc : c = '0' := hz c (List.mem_cons_self _ _)
    subst hc
    have := ih (fun x hx => hz x (List.mem_cons_of_mem _ hx))
    unfold digitsValue at this ⊢
    simpa using this

theorem digitsValue_pos (c : Char) (ds : Str) (h : c.isDigit = true) (h0 : c ≠ '0') :
    0 < digitsValue (c :: ds) := by
  unfold digitsValue
  simp only [List.foldl_cons, Nat.zero_mul, Nat.zero_add]
  exact foldl_digits_pos ds _ (digit_toNat c h h0)

theorem number_split (n : Str) :
    ∃ z m, n = z ++ m ∧ (∀ c ∈ z, c = '0') ∧ m = n.dropWhile (fun c => c = '0') ∧
      (m = [] ∨ ∃ c ds, m = c :: ds ∧ c ≠ '0') := by
  induction n with
  | nil => exact ⟨[], [], rfl, by simp, rfl, Or.inl rfl⟩
  | cons c cs ih =>
    by_cases hc : c = '0'
    · obtain ⟨z, m, h1, h2, h3, h4⟩ := ih
      refine ⟨c :: z, m, by rw [h1]; rfl, ?_, ?_, h4⟩
      · intro x hx
        rcases List.mem_cons.mp hx with hx | hx
        · rw [hx, hc]
        · exact h2 x hx
      · rw [h3, List.dropWhile_cons_of_pos (by simpa using hc)]
    · refine ⟨[], c :: cs, rfl, by simp, ?_, Or.inr ⟨c, cs, rfl, hc⟩⟩
      rw [List.dropWhile_cons_of_neg (by simpa using hc)]

theorem numberSegment_eq (n : Str) (hn : MdNumber n) (z m : Str) (h1 : n = z ++ m)
    (h2 : ∀ c ∈ z, c = '0') (h3 : m = n.dropWhile (fun c => c = '0'))
    (h4 : m = [] ∨ ∃ c ds, m = c :: ds ∧ c ≠ '0') :
    numberSegment n = if m = [] then [] else [m] := by
  unfold numberSegment
  rw [← h3]
  rcases h4 with h4 | ⟨c, ds, h4, hc⟩
  · have : digitsValue n = 0 := by
      rw [h1, digitsValue_zeros z m h2, h4]; rfl
    rw [if_pos this, if_pos h4]
  · have hd : c.isDigit = true := hn.2 c (by rw [h1, h4]; simp)
    have : digitsValue n ≠ 0 := by
      rw [h1, digitsValue_zeros z m h2, h4]
      exact Nat.pos_iff_ne_zero.mp (digitsValue_pos c ds hd hc)
    rw [if_neg this, if_neg (by rw [h4]; simp)]

theorem getLast_digit (seg : Str) (hd : ∀ c ∈ seg, c.isDigit = true) :
    (match seg.getLast? with
     | some l => isalpha l
     | none => false) = false := by
  cases hl : seg.getLast? with
  | none => rfl
  | some l =>
    simp only
    exact isDigit_not_alpha l (hd l (List.mem_of_mem_getLast? hl))

theorem mdLoop_digit_step (c : Char) (r : Str) (ci : Int) (seg : Str)
    (hc : c.isDigit = true) (hne : seg ≠ []) (hd : ∀ x ∈ seg, x.isDigit = true) :
    mdLoop (c :: r) ci seg false = mdLoop r (ci + 1) (seg ++ [c]) false := by
  rw [mdLoop]
  have h1 : seg.isEmpty = false := by simpa using hne
  rw [h1, isDigit_not_alpha c hc, getLast_digit seg hd]
  simp [(isDigit_not_space c hc).2.2.2]

theorem mdLoop_number_acc (ds r : Str) (ci : Int) (seg : Str)
    (hds : ∀ c ∈ ds, c.isDigit = true) (hne : seg ≠ []) (hd : ∀ x ∈ seg, x.isDigit = true) :
    mdLoop (ds ++ r) ci seg false = mdLoop r (ci + ds.length) (seg ++ ds) false := by
  induction ds generalizing ci seg with
  | nil => simp
  | cons c cs ih =>
    rw [List.cons_append, mdLoop_digit_step c _ ci seg (hds c (List.mem_cons_self _ _)) hne hd]
    rw [ih (ci + 1) (seg ++ [c]) (fun x hx => hds x (List.mem_cons_of_mem _ hx)) (by simp)
      (by
        intro x hx
        rcases List.mem_append.mp hx with hx | hx
        · exact hd x hx
        · simp only [List.mem_singleton] at hx; rw [hx]; exact hds c (List.mem_cons_self _ _))]
    have e : ci + 1 + (cs.length : Int) = ci + ((c :: cs).length : Int) := by
      simp only [List.length_cons]; push_cast; omega
    rw [e]
    simp

theorem mdLoop_number_start (c : Char) (ds r : Str) (ci : Int)
    (hc : c.isDigit = true) (h0 : c ≠ '0') (hds : ∀ x ∈ ds, x.isDigit = true) :
    mdLoop (c :: ds ++ r) ci [] false = mdLoop r (ci + (c :: ds).length) (c :: ds) false := by
  rw [List.cons_append, mdLoop]
  rw [isDigit_not_alpha c hc]
  simp only [List.isEmpty_nil, Bool.true_and, decide_eq_true_eq, h0, if_false,
    Bool.false_eq_true, (isDigit_not_space c hc).2.2.2, if_true]
  rw [mdLoop_number_acc ds r (ci + 1) [c] hds (by simp)
    (by intro x hx; simp only [List.mem_singleton] at hx; rw [hx]; exact hc)]
  have e : ci + 1 + (ds.length : Int) = ci + ((c :: ds).length : Int) := by
    simp only [List.length_cons]; push_cast; omega
  rw [e]
  simp

theorem mdLoop_stop_end (ci : Int) (seg : Str) (d : Bool) (hne : seg ≠ []) :
    mdLoop [] ci seg d = (true, seg, ci + 1) := by
  rw [mdLoop]
  have h1 : seg.isEmpty = false := by simpa using hne
  rw [h1]; rfl

theorem mdLoop_stop_item (it : MdItem) (hw : it.WellFormed) (r : Str) (ci : Int) (seg : Str)
    (hne : seg ≠ []) : mdLoop (it.text ++ r) ci seg false = (true, seg, ci) := by
  have h1 : seg.isEmpty = false := by simpa using hne
  cases it with
  | substitution b =>
    simp only [MdItem.WellFormed] at hw
    simp only [MdItem.text, List.singleton_append]
    rw [mdLoop, h1, hw]
    simp
  | deletion bs =>
    simp only [MdItem.text, List.cons_append]
    rw [mdLoop, h1]
    simp [show isalpha '^' = false by decide]

theorem mdLoop_letters_acc (cs r : Str) (ci : Int) (seg : Str)
    (hcs : ∀ c ∈ cs, isalpha c = true) (hne : seg ≠ []) :
    mdLoop (cs ++ r) ci seg true = mdLoop r (ci + cs.length) (seg ++ cs) true := by
  induction cs generalizing ci seg with
  | nil => simp
  | cons c cs ih =>
    have h1 : seg.isEmpty = false := by simpa using hne
    rw [List.cons_append, mdLoop, h1, hcs c (List.mem_cons_self _ _)]
    simp only [Bool.false_and, Bool.false_eq_true, if_false, if_true]
    rw [ih (ci + 1) (seg ++ [c]) (fun x hx => hcs x (List.mem_cons_of_mem _ hx)) (by simp)]
    have e : ci + 1 + (cs.length : Int) = ci + ((c :: cs).length : Int) := by
      simp only [List.length_cons]; push_cast; omega
    rw [e]
    simp

theorem mdLoop_item (it : MdItem) (hw : it.WellFormed) (n r : Str) (hn : MdNumber n)
    (ci : Int) :
    mdLoop (it.text ++ (n ++ r)) ci [] false = (true, it.text, ci + it.text.length) := by
  cases it with
  | substitution b =>
    simp only [MdItem.WellFormed] at hw
    simp only [MdItem.text, List.singleton_append, List.length_singleton]
    rw [mdLoop, hw]
    simp [(isalpha_not_special b hw).1]
  | deletion bs =>
    simp only [MdItem.WellFormed] at hw
    simp only [MdItem.text, List.cons_append]
    rw [mdLoop]
    simp only [List.isEmpty_nil, Bool.true_and, decide_eq_true_eq,
      show ¬ ('^' = '0') by decide, if_false, show isalpha '^' = false by decide,
      Bool.false_eq_true, if_true]
    rw [mdLoop_letters_acc bs (n ++ r) (ci + 1) ['^'] hw.2 (by simp)]
    obtain ⟨hne, hd⟩ := hn
    cases n with
    | nil => exact absurd rfl hne
    | cons c cs =>
      have hc := hd c (List.mem_cons_self _ _)
      rw [List.cons_append, mdLoop]
      simp only [List.singleton_append, List.isEmpty_cons, Bool.false_and, Bool.false_eq_true,
        if_false, isDigit_not_alpha c hc, (isDigit_not_space c hc).2.2.2, Bool.true_or, if_true,
        List.length_cons]
      congr 2
      push_cast; omega

theorem md_call_at (pre a rest : Str) (seg0 : Str) (f : Bool) (sg : Str)
    (hne : a ++ rest ≠ [])
    (hloop : mdLoop (a ++ rest) pre.length [] false = (f, sg, (pre.length : Int) + a.length)) :
    MD_tag.getNextSegment (stateAt pre (a ++ rest)) seg0 = (f, sg, stateAt (pre ++ a) rest) := by
  unfold MD_tag.getNextSegment stateAt
  have hlt : ¬ ((pre.length : Int) ≥ ((pre ++ (a ++ rest)).length : Int)) := by
    have : 0 < (a ++ rest).length := List.length_pos.mpr hne
    simp only [List.length_append] at this ⊢
    push_cast
    omega
  dsimp only
  rw [if_neg hlt]
  simp only [Int.toNat_ofNat, List.drop_left, hloop, List.append_assoc,
    List.length_append, Nat.cast_add]

theorem md_call_last (pre rest : Str) (seg0 : Str) (f : Bool) (sg : Str) (hne : rest ≠ [])
    (hloop : mdLoop rest pre.length [] false = (f, sg, (pre.length : Int) + rest.length + 1)) :
    MD_tag.getNextSegment (stateAt pre rest) seg0 =
      (f, sg, ⟨((pre ++ rest).length : Int) + 1, pre ++ rest, (pre ++ rest).length⟩) := by
  unfold MD_tag.getNextSegment stateAt
  have hlt : ¬ ((pre.length : Int) ≥ ((pre ++ rest).length : Int)) := by
    have : 0 < rest.length := List.length_pos.mpr hne
    simp only [List.length_append] at this ⊢
    push_cast
    omega
  dsimp only
  rw [if_neg hlt]
  simp only [Int.toNat_ofNat, List.drop_left, hloop, List.length_append, Nat.cast_add]

theorem md_calls_end (s : Str) (i : Int) (hi : i ≥ s.length) (n : Nat) :
    MD_tag.calls n ⟨i, s, s.length⟩ = [] := by
  cases n with
  | zero => rfl
  | succ n =>
    simp only [MD_tag.calls, MD_tag.getNextSegment, if_pos hi, Bool.false_eq_true, if_false]

theorem mdLoop_number_end (n0 z ds : Str) (c0 : Char) (h0 : MdNumber n0)
    (h1 : n0 = z ++ c0 :: ds) (h2 : ∀ x ∈ z, x = '0') (hc : c0 ≠ '0') (ci : Int) :
    mdLoop n0 ci [] false = (true, c0 :: ds, ci + n0.length + 1) := by
  have hd0 : c0.isDigit = true := h0.2 c0 (by rw [h1]; simp)
  have hds : ∀ x ∈ ds, x.isDigit = true := fun x hx => h0.2 x (by rw [h1]; simp [hx])
  have e : n0 = z ++ (c0 :: ds ++ []) := by rw [h1]; simp
  rw [e, mdLoop_zeros z _ _ _ h2, mdLoop_number_start c0 ds [] _ hd0 hc hds,
    mdLoop_stop_end _ _ _ (by simp)]
  simp only [List.length_append, List.length_cons, List.append_nil, Nat.cast_add,
    Nat.cast_one, Prod.mk.injEq, true_and]
  omega

theorem mdLoop_number_item (n0 z ds : Str) (c0 : Char) (h0 : MdNumber n0)
    (h1 : n0 = z ++ c0 :: ds) (h2 : ∀ x ∈ z, x = '0') (hc : c0 ≠ '0') (ci : Int)
    (it : MdItem) (hw : it.WellFormed) (r : Str) :
    mdLoop (n0 ++ (it.text ++ r)) ci [] false = (true, c0 :: ds, ci + n0.length) := by
  have hd0 : c0.isDigit = true := h0.2 c0 (by rw [h1]; simp)
  have hds : ∀ x ∈ ds, x.isDigit = true := fun x hx => h0.2 x (by rw [h1]; simp [hx])
  have e : n0 ++ (it.text ++ r) = z ++ (c0 :: ds ++ (it.text ++ r)) := by rw [h1]; simp
  rw [e, mdLoop_zeros z _ _ _ h2, mdLoop_number_start c0 ds _ _ hd0 hc hds,
    mdLoop_stop_item it hw r _ _ (by simp)]
  simp only [h1, List.length_append, List.length_cons, Nat.cast_add, Nat.cast_one,
    Prod.mk.injEq, true_and]
  omega

theorem mdLoop_zero_item (z : Str) (h2 : ∀ x ∈ z, x = '0') (ci : Int)
    (it : MdItem) (hw : it.WellFormed) (n r : Str) (hn : MdNumber n) :
    mdLoop ((z ++ it.text) ++ (n ++ r)) ci [] false
      = (true, it.text, ci + (z ++ it.text).length) := by
  rw [List.append_assoc, mdLoop_zeros z _ _ _ h2, mdLoop_item it hw n r hn]
  simp only [List.length_append, Nat.cast_add, Prod.mk.injEq, true_and]
  omega

theorem mdString_cons (n0 : Str) (p : MdItem × Str) (ps : List (MdItem × Str)) :
    mdString n0 (p :: ps) = n0 ++ (p.1.text ++ mdString p.2 ps) := by
  simp [mdString]

theorem mdSegments_cons (n0 : Str) (p : MdItem × Str) (ps : List (MdItem × Str)) :
    mdSegments n0 (p :: ps) = numberSegment n0 ++ p.1.text :: mdSegments p.2 ps := by
  simp [mdSegments]

theorem md_calls_from (items : List (MdItem × Str)) (pre n0 : Str) (h0 : MdNumber n0)
    (hi : ∀ p ∈ items, p.1.WellFormed ∧ MdNumber p.2) (k : Nat) :
    MD_tag.calls ((mdSegments n0 items).length + 1 + k) (stateAt pre (mdString n0 items))
      = mdSegments n0 items := by
  induction items generalizing pre n0 with
  | nil =>
    obtain ⟨z, m, h1, h2, h3, h4⟩ := number_split n0
    have hseg := numberSegment_eq n0 h0 z m h1 h2 h3 h4
    simp only [mdSegments, mdString, List.flatMap_nil, List.append_nil, hseg]
    rcases h4 with h4 | ⟨c, ds, h4, hc⟩
    · rw [if_pos h4]
      simp only [List.length_nil, Nat.zero_add]
      rw [show 1 + k = k + 1 by omega, MD_tag.calls]
      have hl : mdLoop n0 pre.length [] false =
          (false, [], (pre.length : Int) + n0.length + 1) := by
        have e : n0 = z ++ [] := by rw [h1, h4]
        rw [e, mdLoop_zeros z [] _ _ h2, mdLoop]
        simp
      rw [md_call_last pre n0 [] false [] h0.1 hl]
      simp
    · rw [if_neg (by rw [h4]; simp)]
      simp only [List.length_singleton]
      rw [show 1 + 1 + k = (k + 1) + 1 by omega, MD_tag.calls]
      rw [md_call_last pre n0 [] true (c :: ds) h0.1
        (mdLoop_number_end n0 z ds c h0 (by rw [h1, h4]) h2 hc _)]
      simp only [if_true]
      rw [md_calls_end _ _ (by omega)]
      rw [h4]
  | cons p ps ih =>
    obtain ⟨hw, hn⟩ := hi p (List.mem_cons_self _ _)
    have hi2 : ∀ q ∈ ps, q.1.WellFormed ∧ MdNumber q.2 :=
      fun q hq => hi q (List.mem_cons_of_mem _ hq)
    obtain ⟨z, m, h1, h2, h3, h4⟩ := number_split n0
    have hseg := numberSegment_eq n0 h0 z m h1 h2 h3 h4
    rw [mdString_cons, mdSegments_cons, hseg]
    have htne : p.1.text ≠ [] := by
      cases p.1 <;> simp [MdItem.text]
    rcases h4 with h4 | ⟨c, ds, h4, hc⟩
    · rw [if_pos h4]
      have hz : n0 = z := by rw [h1, h4]; simp
      simp only [List.nil_append, List.length_cons]
      rw [show (mdSegments p.2 ps).length + 1 + 1 + k
        = ((mdSegments p.2 ps).length + 1 + k) + 1 by omega, MD_tag.calls]
      have hms : mdString p.2 ps = p.2 ++ ps.flatMap (fun q => q.1.text ++ q.2) := rfl
      have hcall := md_call_at pre (n0 ++ p.1.text) (mdString p.2 ps) [] true p.1.text
        (by simp [htne])
        (by rw [hms, hz]; exact mdLoop_zero_item z h2 _ p.1 hw p.2 _ hn)
      rw [List.append_assoc] at hcall
      rw [hcall]
      simp only [if_true]
      rw [ih (pre ++ (n0 ++ p.1.text)) p.2 hn hi2]
    · rw [if_neg (by rw [h4]; simp)]
      simp only [List.singleton_append, List.length_cons]
      rw [show (mdSegments p.2 ps).length + 1 + 1 + 1 + k
        = (((mdSegments p.2 ps).length + 1 + k) + 1) + 1 by omega, MD_tag.calls]
      have hcall := md_call_at pre n0 (p.1.text ++ mdString p.2 ps) [] true (c :: ds)
        (by simp [h0.1])
        (mdLoop_number_item n0 z ds c h0 (by rw [h1, h4]) h2 hc _ p.1 hw _)
      rw [hcall]
      simp only [if_true]
      rw [MD_tag.calls]
      have hms : mdString p.2 ps = p.2 ++ ps.flatMap (fun q => q.1.text ++ q.2) := rfl
      have hcall2 := md_call_at (pre ++ n0) p.1.text (mdString p.2 ps) [] true p.1.text
        (by simp [htne])
        (by rw [hms]; exact mdLoop_item p.1 hw p.2 _ hn _)
      rw [hcall2]
      simp only [if_true]
      rw [ih (pre ++ n0 ++ p.1.text) p.2 hn hi2, h4]


/-- C14. For every MD string of the form number (item number)*, where a number is one or
more decimal digits and an item is a single letter or `^` followed by one or more
letters, successive calls of `MD_tag::getNextSegment` after `loadString` return, in
left-to-right order, exactly the segments `mdSegments`: for each number of non-zero
value its digits without the leading zeros, as one segment; for each substituted base
the letter; for each deletion `^` with all its letters; nothing for a number of value
zero.  The call after the last segment returns false: with room for at least one more
call than there are segments, the calls that return true give exactly these
segments. -/
theorem md_segments (n0 : Str) (items : List (MdItem × Str)) (h0 : MdNumber n0)
    (hi : ∀ p ∈ items, p.1.WellFormed ∧ MdNumber p.2) (k : Nat) :
    MD_tag.calls ((mdSegments n0 items).length + 1 + k)
        (string_search.loadString (mdString n0 items))
      = mdSegments n0 items := by
  have := md_calls_from items [] n0 h0 hi k
  simpa [stateAt, string_search.loadString] using this

/-- Witness of `md_segments`: the MD string `10A0^AC06`, whose segments are `10`, `A`,
`^AC` and `6`. -/
theorem md_segments_witness :
    MdNumber "10".toList ∧
    (∀ p ∈ [(MdItem.substitution 'A', "0".toList), (MdItem.deletion "AC".toList, "06".toList)],
      p.1.WellFormed ∧ MdNumber p.2) ∧
    mdString "10".toList
      [(MdItem.substitution 'A', "0".toList), (MdItem.deletion "AC".toList, "06".toList)]
      = "10A0^AC06".toList ∧
    mdSegments "10".toList
      [(MdItem.substitution 'A', "0".toList), (MdItem.deletion "AC".toList, "06".toList)]
      = ["10".toList, "A".toList, "^AC".toList, "6".toList] ∧
    MD_tag.calls ((mdSegments "10".toList
          [(MdItem.substitution 'A', "0".toList),
           (MdItem.deletion "AC".toList, "06".toList)]).length + 1 + 0)
        (string_search.loadString (mdString "10".toList
          [(MdItem.substitution 'A', "0".toList), (MdItem.deletion "AC".toList, "06".toList)]))
      = mdSegments "10".toList
          [(MdItem.substitution 'A', "0".toList), (MdItem.deletion "AC".toList, "06".toList)] :=
  have h0 : MdNumber "10".toList := ⟨by decide, by decide⟩
  have hi : ∀ p ∈ [(MdItem.substitution 'A', "0".toList),
      (MdItem.deletion "AC".toList, "06".toList)], p.1.WellFormed ∧ MdNumber p.2 := by
    intro p hp
    simp only [List.mem_cons, List.mem_singleton, List.not_mem_nil, or_false] at hp
    rcases hp with hp | hp <;> subst hp
    · exact ⟨by simp only [MdItem.WellFormed]; decide, by decide, by decide⟩
    · exact ⟨by simp only [MdItem.WellFormed]; exact ⟨by decide, by decide⟩,
        by decide, by decide⟩
  ⟨h0, hi, by decide, by decide, md_segments _ _ h0 hi 0⟩

theorem getChrNameLoop_takeWhile (rest : Str) :
    getChrNameLoop rest = rest.takeWhile (fun c => !isspace c) := by
  induction rest with
  | nil => rfl
  | cons c cs ih =>
    unfold getChrNameLoop
    by_cases h : isspace c = true
    · rw [if_pos h, List.takeWhile_cons_of_neg (by simp [h])]
    · rw [if_neg h, List.takeWhile_cons_of_pos (by simpa using h), ih]

/-- C16. For every reference header line, that is a line that begins with `>`,
`getChrName` returns the maximal run of non-whitespace characters that follows `>`:
no character of the name is white space, the line is `>`, the name, and a tail that is
empty or begins with a white-space character, and the name does not depend on what
follows that white-space character. -/
theorem getChrName_token (line : Str) (h : line.head? = some '>') :
    getChrName line = line.tail.takeWhile (fun c => !isspace c) ∧
    (∀ c ∈ getChrName line, isspace c = false) ∧
    (∃ tail, line = '>' :: (getChrName line ++ tail) ∧
      (tail = [] ∨ ∃ w t, tail = w :: t ∧ isspace w = true)) ∧
    ∀ (w : Char) (desc : Str), isspace w = true →
      getChrName ('>' :: (getChrName line ++ w :: desc)) = getChrName line := by
  have e : getChrName line = line.tail.takeWhile (fun c => !isspace c) :=
    getChrNameLoop_takeWhile _
  have hmem : ∀ c ∈ getChrName line, isspace c = false := by
    intro c hc
    rw [e] at hc
    have := List.mem_takeWhile_imp hc
    simpa using this
  refine ⟨e, hmem, ?_, ?_⟩
  · refine ⟨line.tail.dropWhile (fun c => !isspace c), ?_, ?_⟩
    · rw [e, List.takeWhile_append_dropWhile]
      cases line with
      | nil => simp at h
      | cons c cs => simp only [List.head?_cons, Option.some.injEq] at h; rw [h]; rfl
    · cases hd : line.tail.dropWhile (fun c => !isspace c) with
      | nil => exact Or.inl rfl
      | cons w t =>
        refine Or.inr ⟨w, t, rfl, ?_⟩
        have := List.head?_dropWhile_not (fun c => !isspace c) line.tail
        rw [hd] at this
        simpa using this
  · intro w desc hw
    have e2 : getChrName ('>' :: (getChrName line ++ w :: desc))
        = (getChrName line ++ w :: desc).takeWhile (fun c => !isspace c) :=
      getChrNameLoop_takeWhile _
    rw [e2, List.takeWhile_append_of_pos (by intro c hc; simp [hmem c hc])]
    rw [List.takeWhile_cons_of_neg (by simp [hw])]
    simp

/-- Witness of `getChrName_token`: a header line with a description. -/
theorem getChrName_token_witness :
    (">chr1 dna:chromosome\tGRCh38".toList).head? = some '>' ∧
    getChrName ">chr1 dna:chromosome\tGRCh38".toList = "chr1".toList ∧
    getChrName ">chr1 dna:chromosome\tGRCh38".toList
      = (">chr1 dna:chromosome\tGRCh38".toList).tail.takeWhile (fun c => !isspace c) ∧
    (∀ c ∈ getChrName ">chr1 dna:chromosome\tGRCh38".toList, isspace c = false) ∧
    (∃ tail, ">chr1 dna:chromosome\tGRCh38".toList
        = '>' :: (getChrName ">chr1 dna:chromosome\tGRCh38".toList ++ tail) ∧
      (tail = [] ∨ ∃ w t, tail = w :: t ∧ isspace w = true)) ∧
    ∀ (w : Char) (desc : Str), isspace w = true →
      getChrName ('>' :: (getChrName ">chr1 dna:chromosome\tGRCh38".toList ++ w :: desc))
        = getChrName ">chr1 dna:chromosome\tGRCh38".toList :=
  ⟨rfl, by decide, getChrName_token ">chr1 dna:chromosome\tGRCh38".toList rfl⟩

theorem findTab_field (f r : Str) (h : '\t' ∉ f) : findTab (f ++ '\t' :: r) = some (f, r) := by
  induction f with
  | nil => simp [findTab]
  | cons c cs ih =>
    have hc : c ≠ '\t' := fun e => h (by rw [e]; exact List.mem_cons_self _ _)
    have := ih (fun e => h (List.mem_cons_of_mem _ e))
    rw [List.cons_append, findTab, if_neg hc, this]

/-- C17 (as stated, refuted). A line with five fields whose field at index 3 is the
decimal integer 9223372036854775808: `stoll` raises `out_of_range`, so
`getSAMChromosomePos` returns nothing and the run ends with exit status 1. -/
theorem position_out_of_range :
    getSAMChromosomePos "r\t0\tchr1\t9223372036854775808\t".toList [] 0
      = .error .stdException ∧
    hisat_3n_table parseUnmapped scenarioRef 0 ["r\t0\tchr1\t9223372036854775808\t".toList]
      = ([], 1) :=
  ⟨rfl, rfl⟩

theorem stoll_signed (sign ds : Str) (hs : sign = [] ∨ sign = ['-'] ∨ sign = ['+'])
    (hne : ds ≠ []) (hd : ∀ c ∈ ds, c.isDigit = true)
    (hv : (if sign = ['-'] then -(digitsValue ds : Int) else (digitsValue ds : Int))
      ≥ -9223372036854775808 ∧
      (if sign = ['-'] then -(digitsValue ds : Int) else (digitsValue ds : Int))
      ≤ 9223372036854775807) :
    stoll (sign ++ ds)
      = some (if sign = ['-'] then -(digitsValue ds : Int) else (digitsValue ds : Int)) := by
  have h2 : ds.takeWhile Char.isDigit = ds := by
    rw [List.takeWhile_eq_self_iff]; exact hd
  have h3 : ds.isEmpty = false := by
    cases ds with
    | nil => exact absurd rfl hne
    | cons c cs => rfl
  rcases hs with hs | hs | hs
  · subst hs
    rw [if_neg (by simp)] at hv ⊢
    rw [List.nil_append]
    exact stoll_digits ds hne hd (by omega)
  · subst hs
    rw [if_pos rfl] at hv ⊢
    unfold stoll
    have h1 : (['-'] ++ ds).dropWhile isspace = '-' :: ds := by
      rw [List.singleton_append, List.dropWhile_cons_of_neg (by decide)]
    simp only [h1, List.head?_cons, true_or, if_true, List.tail_cons, h2, h3,
      Bool.false_eq_true, if_false, decide_True]
    rw [if_neg (by omega)]
  · subst hs
    rw [if_neg (by decide)] at hv ⊢
    unfold stoll
    have h1 : (['+'] ++ ds).dropWhile isspace = '+' :: ds := by
      rw [List.singleton_append, List.dropWhile_cons_of_neg (by decide)]
    simp only [h1, List.head?_cons, Option.some.injEq, show ¬ ('+' = '-') by decide, or_true,
      if_true, List.tail_cons, h2, h3, Bool.false_eq_true, if_false, false_or]
    rw [if_neg (by omega)]

/-- C17 (amended). For every line made of four tab-free fields, each followed by a tab,
and any text after them, whose field at index 3 is an optional sign followed by one or
more decimal digits, with a value from -9223372036854775808 to 9223372036854775807:
`getSAMChromosomePos` sets `chr` to the field at index 2 and `pos` to the value of the
field at index 3, and returns true exactly when the field at index 2 is not `*`. -/
theorem getSAMChromosomePos_fields (f0 f1 f2 sign ds rest chr0 : Str) (pos0 : Int)
    (h0 : '\t' ∉ f0) (h1 : '\t' ∉ f1) (h2 : '\t' ∉ f2)
    (hs : sign = [] ∨ sign = ['-'] ∨ sign = ['+'])
    (hne : ds ≠ []) (hd : ∀ c ∈ ds, c.isDigit = true)
    (hv : (if sign = ['-'] then -(digitsValue ds : Int) else (digitsValue ds : Int))
      ≥ -9223372036854775808 ∧
      (if sign = ['-'] then -(digitsValue ds : Int) else (digitsValue ds : Int))
      ≤ 9223372036854775807) :
    getSAMChromosomePos
        (f0 ++ '\t' :: (f1 ++ '\t' :: (f2 ++ '\t' :: ((sign ++ ds) ++ '\t' :: rest))))
        chr0 pos0
      = .ok (decide (f2 ≠ ['*']), f2,
          if sign = ['-'] then -(digitsValue ds : Int) else (digitsValue ds : Int)) := by
  have h3 : '\t' ∉ sign ++ ds := by
    intro hm
    rcases List.mem_append.mp hm with hm | hm
    · rcases hs with hs | hs | hs <;> subst hs <;> revert hm <;> decide
    · have := hd _ hm
      revert this
      decide
  unfold getSAMChromosomePos
  simp only [getSAMLoop, findTab_field _ _ h0, findTab_field _ _ h1, findTab_field _ _ h2,
    findTab_field _ _ h3, stoll_signed sign ds hs hne hd hv]
  simp

/-- Witness of `getSAMChromosomePos_fields`: a mapped record of chr1 at coordinate 1204. -/
theorem getSAMChromosomePos_fields_witness :
    '\t' ∉ "read1".toList ∧ '\t' ∉ "0".toList ∧ '\t' ∉ "chr1".toList ∧
    (([] : Str) = [] ∨ ([] : Str) = ['-'] ∨ ([] : Str) = ['+']) ∧
    "1204".toList ≠ [] ∧ (∀ c ∈ "1204".toList, c.isDigit = true) ∧
    ((if ([] : Str) = ['-'] then -(digitsValue "1204".toList : Int)
        else (digitsValue "1204".toList : Int)) ≥ -9223372036854775808 ∧
      (if ([] : Str) = ['-'] then -(digitsValue "1204".toList : Int)
        else (digitsValue "1204".toList : Int)) ≤ 9223372036854775807) ∧
    getSAMChromosomePos ("read1".toList ++ '\t' :: ("0".toList ++ '\t' :: ("chr1".toList ++
        '\t' :: (([] ++ "1204".toList) ++ '\t' :: "60\t4M".toList)))) [] 0
      = .ok (decide ("chr1".toList ≠ ['*']), "chr1".toList,
          if ([] : Str) = ['-'] then -(digitsValue "1204".toList : Int)
          else (digitsValue "1204".toList : Int)) :=
  ⟨by decide, by decide, by decide, Or.inl rfl, by decide, by decide, by decide,
    getSAMChromosomePos_fields _ _ _ [] _ _ [] 0 (by decide) (by decide) (by decide)
      (Or.inl rfl) (by decide) (by decide) (by decide)⟩

theorem syncLoop_iter (samPos : Int) (fuel : Nat) (s : MainState)
    (hf : samPos - s.reloadPos < fuel * loadingBlockSize) :
    ∃ n : Nat,
      syncLoop samPos fuel s = syncN n s ∧
      (n : Int) * loadingBlockSize < max (samPos - s.reloadPos) 0 + loadingBlockSize ∧
      (∀ k < n, (syncN k s).reloadPos < samPos ∧
        (syncN k s).reloadPos + loadingBlockSize ≤ (syncN (k + 1) s).reloadPos ∧
        (syncN (k + 1) s).reloadPos < samPos + inf) ∧
      samPos ≤ (syncN n s).reloadPos := by
  induction fuel generalizing s with
  | zero =>
    refine ⟨0, rfl, ?_, fun k hk => absurd hk (Nat.not_lt_zero k), ?_⟩
    · unfold loadingBlockSize; simp only [Nat.cast_zero, zero_mul]; omega
    · simp only [syncN]; simp at hf; omega
  | succ f ih =>
    have hstep := (syncStep_frame s).2.2.2.2.2.1
    have hup : (syncStep s).reloadPos ≤ s.reloadPos + inf := by
      simp only [syncStep]
      split
      · omega
      · unfold inf loadingBlockSize; omega
    by_cases hc : samPos > s.reloadPos
    · obtain ⟨n, h1, h2, h3, h4⟩ := ih (syncStep s) (by
        push_cast at hf
        unfold loadingBlockSize at *
        omega)
      refine ⟨n + 1, ?_, ?_, ?_, ?_⟩
      · simp only [syncLoop, if_pos hc, syncN]; exact h1
      · unfold loadingBlockSize at *
        push_cast
        omega
      · intro k hk
        cases k with
        | zero =>
          simp only [syncN]
          refine ⟨by omega, hstep, by omega⟩
        | succ k =>
          simp only [syncN]
          exact h3 k (by omega)
      · simp only [syncN]; exact h4
    · refine ⟨0, ?_, ?_, fun k hk => absurd hk (Nat.not_lt_zero k), ?_⟩
      · simp only [syncLoop, if_neg hc, syncN]
      · unfold loadingBlockSize; simp only [Nat.cast_zero, zero_mul]; omega
      · simp only [syncN]; omega

theorem callsAt_cons (index : Int) (b : PosQuality) (bs : List PosQuality) (conv : Bool)
    (i : Int) :
    callsAt index (b :: bs) conv i =
      (if (!b.remove && (b.converted == conv) && decide (Mod (index + b.refPos) = i)) = true
        then 1 else 0) + callsAt index bs conv i := by
  unfold callsAt
  rw [List.filter_cons]
  split
  · simp only [List.length_cons]; omega
  · simp

theorem addCalls_zero (p : Position) : p.addCalls 0 0 = p := by
  unfold Position.addCalls
  split
  · rfl
  · simp

theorem addCalls_appendBase (p : Position) (b : PosQuality) (n1 n0 : Nat)
    (hs : p.strand ≠ '?') :
    (p.appendBase b).addCalls n1 n0 =
      p.addCalls ((if b.converted then 1 else 0) + n1) ((if b.converted then 0 else 1) + n0) := by
  unfold Position.addCalls Position.appendBase
  by_cases hb : b.converted = true
  · simp only [hb, if_true, hs, if_false]
    by_cases h1 : n1 = 0
    · by_cases h0 : n0 = 0
      · simp [h1, h0]
      · simp [h1, h0]
    · by_cases h0 : n0 = 0
      · simp [h1, h0]; omega
      · simp [h1, h0]; omega
  · simp only [hb, if_false, hs, Bool.false_eq_true]
    by_cases h1 : n1 = 0
    · by_cases h0 : n0 = 0
      · simp [h1, h0]
      · simp [h1, h0]; omega
    · by_cases h0 : n0 = 0
      · simp [h1, h0]
      · simp [h1, h0]; omega

theorem appendPositionsLoop_effect (startPos index : Int) (bs : List PosQuality)
    (ref : Int → Position)
    (hres : ∀ b ∈ bs, b.remove = false →
      (ref (Mod (index + b.refPos))).location = startPos + b.refPos) :
    ∃ ref2, appendPositionsLoop startPos index bs ref = .ok ref2 ∧
      ∀ i, ref2 i = (ref i).addCalls (callsAt index bs true i) (callsAt index bs false i) := by
  induction bs generalizing ref with
  | nil =>
    refine ⟨ref, rfl, fun i => ?_⟩
    simp only [callsAt, List.filter_nil, List.length_nil]
    exact (addCalls_zero _).symm
  | cons b bs ih =>
    have hres2 : ∀ b2 ∈ bs, b2.remove = false →
        (ref (Mod (index + b2.refPos))).location = startPos + b2.refPos :=
      fun b2 hb2 => hres b2 (List.mem_cons_of_mem _ hb2)
    by_cases hr : b.remove = true
    · obtain ⟨ref2, h1, h2⟩ := ih ref hres2
      refine ⟨ref2, by simp only [appendPositionsLoop, hr, if_true]; exact h1, fun i => ?_⟩
      rw [h2 i, callsAt_cons, callsAt_cons]
      simp [hr]
    · have hr2 : b.remove = false := by simpa using hr
      have hloc := hres b (List.mem_cons_self _ _) hr2
      by_cases hs : (ref (Mod (index + b.refPos))).strand = '?'
      · obtain ⟨ref2, h1, h2⟩ := ih ref hres2
        refine ⟨ref2, ?_, fun i => ?_⟩
        · simp only [appendPositionsLoop, hr2, Bool.false_eq_true, if_false, hloc, ne_eq,
            not_true_eq_false, hs, if_true]
          exact h1
        · rw [h2 i, callsAt_cons, callsAt_cons]
          by_cases hi : Mod (index + b.refPos) = i
          · subst hi
            unfold Position.addCalls
            rw [if_pos hs, if_pos hs]
          · simp [hi]
      · obtain ⟨ref2, h1, h2⟩ := ih
          (Function.update ref (Mod (index + b.refPos))
            ((ref (Mod (index + b.refPos))).appendBase b))
          (by
            intro b2 hb2 hrm
            have := hres2 b2 hb2 hrm
            by_cases hi : Mod (index + b2.refPos) = Mod (index + b.refPos)
            · rw [hi, Function.update_same, (appendBase_frame _ _).1]
              rw [hi] at this; exact this
            · rw [Function.update_noteq hi]; exact this)
        refine ⟨ref2, ?_, fun i => ?_⟩
        · simp only [appendPositionsLoop, hr2, Bool.false_eq_true, if_false, hloc, ne_eq,
            not_true_eq_false, hs]
          exact h1
        · rw [h2 i, callsAt_cons, callsAt_cons]
          by_cases hi : Mod (index + b.refPos) = i
          · subst hi
            rw [Function.update_same, addCalls_appendBase _ _ _ _ hs]
            cases hb : b.converted <;> simp [hr2, hb]
          · rw [Function.update_noteq (Ne.symm hi)]
            simp [hi]

theorem callsAt_visited (index : Int) (bs : List PosQuality) (conv : Bool) (i : Int) :
    callsAt index (bs.filter (fun b => !b.remove)) conv i = callsAt index bs conv i := by
  unfold callsAt
  rw [List.filter_filter]
  congr 2
  funext b
  cases b.remove <;> simp

theorem callsAt_none (index : Int) (bs : List PosQuality) (conv : Bool) (i : Int)
    (h : ∀ b ∈ bs, Mod (index + b.refPos) ≠ i) : callsAt index bs conv i = 0 := by
  unfold callsAt
  rw [List.length_eq_zero, List.filter_eq_nil_iff]
  intro b hb
  simp [h b hb]

theorem callsAt_callsOn (startPos index : Int) (ref : Int → Position) (bs : List PosQuality)
    (hres : ∀ b ∈ bs, (ref (Mod (index + b.refPos))).location = startPos + b.refPos)
    (b0 : PosQuality) (h0 : b0 ∈ bs) (conv : Bool) :
    callsAt index bs conv (Mod (index + b0.refPos))
      = callsOn startPos bs conv (startPos + b0.refPos) := by
  unfold callsAt callsOn
  congr 1
  apply List.filter_congr
  intro b hb
  have e : (Mod (index + b.refPos) = Mod (index + b0.refPos)) ↔
      (startPos + b.refPos = startPos + b0.refPos) := by
    constructor
    · intro h
      have h1 := hres b hb
      have h2 := hres b0 h0
      rw [h] at h1
      rw [← h1, ← h2]
    · intro h
      have : b.refPos = b0.refPos := by omega
      rw [this]
  simp only [e]

theorem appendPositions_slots (P : Positions) (a : Alignment)
    (hres : ∀ b ∈ visitedCalls a,
      (P.refPositions (Mod (getIndex P a.location + b.refPos))).location
        = a.location + b.refPos) :
    ∃ P2, appendPositions P a = .ok P2 ∧
      (∀ i, P2.refPositions i = (P.refPositions i).addCalls
        (callsAt (getIndex P a.location) (visitedCalls a) true i)
        (callsAt (getIndex P a.location) (visitedCalls a) false i)) := by
  by_cases hc : (!a.mapped || a.bases.isEmpty) = true
  · refine ⟨P, by unfold appendPositions; rw [if_pos hc], fun i => ?_⟩
    unfold visitedCalls
    rw [if_pos hc]
    simp only [callsAt, List.filter_nil, List.length_nil]
    exact (addCalls_zero _).symm
  · have hv : visitedCalls a
        = (a.bases.take a.sequence.length).filter (fun b => !b.remove) := by
      unfold visitedCalls; rw [if_neg hc]
    obtain ⟨ref2, h1, h2⟩ := appendPositionsLoop_effect a.location (getIndex P a.location)
      (a.bases.take a.sequence.length) P.refPositions (by
        intro b hb hr
        apply hres b
        rw [hv, List.mem_filter]
        exact ⟨hb, by simp [hr]⟩)
    refine ⟨{ P with refPositions := ref2 }, ?_, fun i => ?_⟩
    · unfold appendPositions
      rw [if_neg hc]
      simp only [h1]
    · simp only
      rw [h2 i, hv, callsAt_visited, callsAt_visited]

/-- C18. When the slot read for every call that `appendPositions` applies stores the
coordinate of the call (the targeted coordinates are resident), the method returns
and changes nothing but counters and empty flags of targeted slots: every slot `i`
becomes `addCalls` of its old value with the numbers of applied converted and
unconverted calls aimed at it; location, strand and chromosome id of every slot, both
cursors and the other fields of the window are unchanged; a slot with unset strand
and a slot no applied call is aimed at are unchanged; for a slot with a set strand
`convertedCount` and `unconvertedCount` grow by these numbers as long as the sums stay
below 65536; the calls aimed at the slot of an applied call are the calls with the
same coordinate; and an unmapped record, a record without calls and a record whose
calls are all marked `remove` leave the window as it is. -/
theorem appendPositions_effect (P : Positions) (a : Alignment)
    (hres : ∀ b ∈ visitedCalls a,
      (P.refPositions (Mod (getIndex P a.location + b.refPos))).location
        = a.location + b.refPos) :
    ∃ P2, appendPositions P a = .ok P2 ∧
      (∀ i, P2.refPositions i = (P.refPositions i).addCalls
        (callsAt (getIndex P a.location) (visitedCalls a) true i)
        (callsAt (getIndex P a.location) (visitedCalls a) false i)) ∧
      (∀ i, (P2.refPositions i).location = (P.refPositions i).location ∧
        (P2.refPositions i).strand = (P.refPositions i).strand ∧
        (P2.refPositions i).chromosomeId = (P.refPositions i).chromosomeId) ∧
      (P2.refPosStartPtr = P.refPosStartPtr ∧ P2.refPosEndPtr = P.refPosEndPtr ∧
        P2.location = P.location ∧ P2.refCoveredPosition = P.refCoveredPosition ∧
        P2.chromosome = P.chromosome ∧ P2.curChromosomeId = P.curChromosomeId ∧
        P2.chromosomePos = P.chromosomePos ∧ P2.refText = P.refText ∧
        P2.refRest = P.refRest ∧ P2.refGood = P.refGood) ∧
      (∀ i, (P.refPositions i).strand = '?' → P2.refPositions i = P.refPositions i) ∧
      (∀ i, (∀ b ∈ visitedCalls a, Mod (getIndex P a.location + b.refPos) ≠ i) →
        P2.refPositions i = P.refPositions i) ∧
      (∀ i, (P.refPositions i).strand ≠ '?' →
        ((P.refPositions i).convertedCount
            + callsAt (getIndex P a.location) (visitedCalls a) true i < 65536 →
          (P2.refPositions i).convertedCount = (P.refPositions i).convertedCount
            + callsAt (getIndex P a.location) (visitedCalls a) true i) ∧
        ((P.refPositions i).unconvertedCount
            + callsAt (getIndex P a.location) (visitedCalls a) false i < 65536 →
          (P2.refPositions i).unconvertedCount = (P.refPositions i).unconvertedCount
            + callsAt (getIndex P a.location) (visitedCalls a) false i) ∧
        (0 < callsAt (getIndex P a.location) (visitedCalls a) true i
            + callsAt (getIndex P a.location) (visitedCalls a) false i →
          (P2.refPositions i).empty = false)) ∧
      (∀ b ∈ visitedCalls a, ∀ conv : Bool,
        callsAt (getIndex P a.location) (visitedCalls a) conv
            (Mod (getIndex P a.location + b.refPos))
          = callsOn a.location (visitedCalls a) conv (a.location + b.refPos)) ∧
      ((a.mapped = false ∨ a.bases = [] ∨ ∀ b ∈ a.bases, b.remove = true) → P2 = P) := by
  obtain ⟨P2, hP2, hslots⟩ := appendPositions_slots P a hres
  have hfr := appendPositions_frame P P2 a hP2
  have hcur := appendPositions_cursors P P2 a hP2
  refine ⟨P2, hP2, hslots, fun i => ⟨(hfr i).1, (hfr i).2.1, (hfr i).2.2.1⟩, hcur,
    fun i hs => (hfr i).2.2.2 hs, ?_, ?_, ?_, ?_⟩
  · intro i hi
    rw [hslots i, callsAt_none _ _ _ _ hi, callsAt_none _ _ _ _ hi, addCalls_zero]
  · intro i hs
    rw [hslots i]
    unfold Position.addCalls
    rw [if_neg hs]
    refine ⟨?_, ?_, ?_⟩
    · intro hlt
      simp only
      split
      · omega
      · exact Nat.mod_eq_of_lt hlt
    · intro hlt
      simp only
      split
      · omega
      · exact Nat.mod_eq_of_lt hlt
    · intro hpos
      simp only
      rw [if_neg (by omega)]
  · intro b hb conv
    exact callsAt_callsOn a.location (getIndex P a.location) P.refPositions (visitedCalls a)
      hres b hb conv
  · intro h
    have hnil : visitedCalls a = [] := by
      unfold visitedCalls
      split
      · rfl
      · rename_i hc
        rcases h with h | h | h
        · simp [h] at hc
        · simp [h] at hc
        · rw [List.filter_eq_nil_iff]
          intro b hb
          simp [h b (List.mem_of_mem_take hb)]
    have hall : ∀ i, P2.refPositions i = P.refPositions i := by
      intro i
      rw [hslots i, hnil]
      simp only [callsAt, List.filter_nil, List.length_nil]
      exact addCalls_zero _
    have hfun : P2.refPositions = P.refPositions := funext hall
    obtain ⟨c1, c2, c3, c4, c5, c6, c7, c8, c9, c10⟩ := hcur
    cases P2; cases P
    simp only at hfun c1 c2 c3 c4 c5 c6 c7 c8 c9 c10
    subst hfun c1 c2 c3 c4 c5 c6 c7 c8 c9 c10
    rfl

/-- Witness of `appendPositions_effect`: the window and the record of Scenario A. -/
theorem appendPositions_effect_witness :
    (∀ b ∈ visitedCalls scenarioRecord,
      (scenarioLoaded.refPositions (Mod (getIndex scenarioLoaded scenarioRecord.location
        + b.refPos))).location = scenarioRecord.location + b.refPos) ∧
    ∃ P2, appendPositions scenarioLoaded scenarioRecord = .ok P2 ∧
      ∀ i, P2.refPositions i = (scenarioLoaded.refPositions i).addCalls
        (callsAt (getIndex scenarioLoaded scenarioRecord.location)
          (visitedCalls scenarioRecord) true i)
        (callsAt (getIndex scenarioLoaded scenarioRecord.location)
          (visitedCalls scenarioRecord) false i) :=
  ⟨by decide,
    (appendPositions_effect scenarioLoaded scenarioRecord (by decide)).imp
      (fun _ h => ⟨h.1, h.2.1⟩)⟩

theorem findChromosomeAux_found (pos : List ChromosomeFilePosition) (name : Str)
    (fuel : Nat) (start end_ i : Int) (h0 : 0 ≤ start)
    (h : findChromosomeAux pos name fuel start end_ = .ok i) :
    start ≤ i ∧ i ≤ end_ ∧ getChromesomeString pos i = name := by
  induction fuel generalizing start end_ with
  | zero => simp [findChromosomeAux] at h
  | succ n ih =>
    simp only [findChromosomeAux] at h
    split at h
    · rename_i hle
      have hmid : start ≤ (start + end_).tdiv 2 ∧ (start + end_).tdiv 2 ≤ end_ := by
        rw [Int.tdiv_eq_ediv (by omega) (by omega)]
        omega
      split at h
      · rename_i heq
        simp only [Except.ok.injEq] at h
        subst h
        exact ⟨hmid.1, hmid.2, heq⟩
      · split at h
        · have := ih _ _ h0 h
          exact ⟨this.1, by omega, this.2.2⟩
        · have := ih _ _ (by omega) h
          exact ⟨by omega, this.2.1, this.2.2⟩
    · simp at h

theorem findChromosome_absent (pos : List ChromosomeFilePosition) (name : Str)
    (habs : ∀ e ∈ pos, e.chromosome ≠ name) :
    findChromosome pos name 0 ((pos.length : Int) - 1) = .error .throw1 := by
  cases h : findChromosome pos name 0 ((pos.length : Int) - 1) with
  | ok i =>
    exfalso
    unfold findChromosome at h
    have hf := findChromosomeAux_found pos name _ 0 _ i (le_refl 0) h
    obtain ⟨h1, h2, h3⟩ := hf
    unfold getChromesomeString at h3
    rw [if_neg (by omega)] at h3
    cases hg : pos.get? i.toNat with
    | none =>
      have := List.get?_eq_none.mp hg
      omega
    | some e =>
      rw [hg] at h3
      simp only at h3
      exact habs e (List.get?_mem hg) h3
  | error e =>
    unfold findChromosome at h
    have := findChromosomeAux_error pos name _ 0 _ e (le_refl 0) (by omega) h
    rw [this]

theorem loadNewChromosome_absent (P : Positions) (name : Str)
    (habs : ∀ e ∈ P.chromosomePos, e.chromosome ≠ name) :
    loadNewChromosome P name = .error .throw1 := by
  unfold loadNewChromosome getChromosomePosInRefFile
  rw [findChromosome_absent P.chromosomePos name habs]

theorem init_index (text : Str) (reloadPos0 : Int) :
    (MainState.init text reloadPos0).positions.chromosomePos = LoadChromosomeNamesPos text ∧
    (MainState.init text reloadPos0).positions.refText = text := ⟨rfl, rfl⟩

/-- C12 (amended). When a mapped record names a chromosome that differs from the window's
current chromosome and is absent from the chromosome index, the run stops at this
record with `throw 1`, exit status 1: the window is the one the earlier lines left (the
record is not applied), and the output is exactly the output of the run on the lines
before the record, whatever follows it. -/
theorem unknown_chromosome_aborts (parse : Str → Alignment) (text : Str) (reloadPos0 : Int)
    (pre post : List Str) (s : MainState) (line X : Str) (pos : Int)
    (hpre : mainLoop parse (MainState.init text reloadPos0) pre = .ok s)
    (hline : MappedAs line X pos) (hX : X ≠ s.positions.chromosome)
    (habs : ∀ e ∈ LoadChromosomeNamesPos text, e.chromosome ≠ X) :
    hisat_3n_table parse text reloadPos0 (pre ++ line :: post)
      = ((hisat_3n_table parse text reloadPos0 pre).1, 1) ∧
    ∃ s1, mainLoop parse (MainState.init text reloadPos0) (pre ++ line :: post)
        = .error (.throw1, s1) ∧
      s1.positions = s.positions ∧ s1.cout = s.cout ++ startOutput s.positions true := by
  have hidx := (mainLoop_index parse _ s pre hpre).2
  rw [(init_index text reloadPos0).1] at hidx
  have hrun : mainLoop parse (MainState.init text reloadPos0) (pre ++ line :: post)
      = .error (.throw1,
          { s with samChromosome := X, samPos := pos,
                   cout := s.cout ++ startOutput s.positions true }) := by
    rw [mainLoop_append, hpre]
    simp only [mainLoop]
    rw [processLine_mapped parse s line X pos ⟨hline.1, hline.2 _ _⟩]
    unfold changeChromosome
    rw [if_pos hX]
    simp only
    rw [loadNewChromosome_absent _ _ (by rw [hidx]; exact habs)]
  refine ⟨?_, _, hrun, rfl, rfl⟩
  unfold hisat_3n_table
  rw [hrun, hpre]
  rfl


/-- Witness of `unknown_chromosome_aborts`: on Scenario A's reference, a record of chr1
followed by a record of the unknown chromosome chrX. -/
theorem unknown_chromosome_aborts_witness :
    mainLoop parseUnmapped (MainState.init scenarioRef 0) ["r\t0\tchr1\t1\t".toList]
      = .ok scenarioState ∧
    MappedAs "r\t0\tchrX\t5\t".toList "chrX".toList 5 ∧
    "chrX".toList ≠ scenarioState.positions.chromosome ∧
    (∀ e ∈ LoadChromosomeNamesPos scenarioRef, e.chromosome ≠ "chrX".toList) ∧
    hisat_3n_table parseUnmapped scenarioRef 0
        (["r\t0\tchr1\t1\t".toList] ++ "r\t0\tchrX\t5\t".toList :: [])
      = ((hisat_3n_table parseUnmapped scenarioRef 0 ["r\t0\tchr1\t1\t".toList]).1, 1) ∧
    ∃ s1, mainLoop parseUnmapped (MainState.init scenarioRef 0)
        (["r\t0\tchr1\t1\t".toList] ++ "r\t0\tchrX\t5\t".toList :: [])
        = .error (.throw1, s1) ∧
      s1.positions = scenarioState.positions ∧
      s1.cout = scenarioState.cout ++ startOutput scenarioState.positions true :=
  ⟨rfl, ⟨rfl, fun _ _ => rfl⟩, by decide, by decide,
    unknown_chromosome_aborts parseUnmapped scenarioRef 0 ["r\t0\tchr1\t1\t".toList] []
      scenarioState "r\t0\tchrX\t5\t".toList "chrX".toList 5 rfl ⟨rfl, fun _ _ => rfl⟩
      (by decide) (by decide)⟩

theorem outputLoop_allEmpty (P : Positions) (h : ∀ i, (P.refPositions i).empty = true)
    (e : Int) (fuel : Nat) (i : Int) : outputLoop P e fuel i = [] := by
  induction fuel generalizing i with
  | zero => rfl
  | succ n ih =>
    simp only [outputLoop]
    split
    · rw [ih]
      simp [outputRow, h i]
    · rfl

theorem startOutput_allEmpty (P : Positions) (h : ∀ i, (P.refPositions i).empty = true)
    (final_ : Bool) : startOutput P final_ = [] := by
  unfold startOutput
  exact outputLoop_allEmpty P h _ _ _

theorem syncLoop_allEmpty (samPos : Int) (fuel : Nat) (s : MainState)
    (hg : s.positions.refGood = false)
    (he : ∀ i, (s.positions.refPositions i).empty = true) (hc : s.cout = []) :
    (syncLoop samPos fuel s).positions.refGood = false ∧
    (∀ i, ((syncLoop samPos fuel s).positions.refPositions i).empty = true) ∧
    (syncLoop samPos fuel s).cout = [] := by
  induction fuel generalizing s with
  | zero => exact ⟨hg, he, hc⟩
  | succ n ih =>
    simp only [syncLoop]
    split
    · have hp : (syncStep s).positions = advanceWindow s.positions := by
        rw [(syncStep_frame s).2.2.2.2.2.2.1, loadMore_notGood _ hg]
      apply ih
      · rw [hp]; exact hg
      · rw [hp]; exact he
      · rw [(syncStep_frame s).2.2.2.2.2.2.2, hc, startOutput_allEmpty _ he]
        rfl
    · exact ⟨hg, he, hc⟩

theorem acceptRecord_allEmpty (line : Str) (s : MainState)
    (hg : s.positions.refGood = false)
    (he : ∀ i, (s.positions.refPositions i).empty = true) (hc : s.cout = [])
    (hl : s.lastPos ≤ s.samPos) :
    ∃ s2, acceptRecord parseUnmapped line s = .ok s2 ∧ s2.cout = [] ∧
      ∀ i, (s2.positions.refPositions i).empty = true := by
  have hK := syncLoop_allEmpty s.samPos (syncFuel s.samPos s.reloadPos) s hg he hc
  have hF := syncLoop_frame s.samPos (syncFuel s.samPos s.reloadPos) s
  unfold acceptRecord
  rw [if_neg (by rw [hF.1, hF.2.2.1]; omega)]
  simp only [appendPositions, parseUnmapped, Bool.not_false, Bool.true_or, if_true]
  exact ⟨_, rfl, hK.2.2, hK.2.1⟩

/-- A first record whose chromosome field is empty is not looked up, whatever the first
value of `reloadPos` is: the run on Scenario A's reference ends with no row and exit
status 0. -/
theorem empty_name_run (reloadPos0 : Int) :
    MappedAs "r\t4\t\t1\t".toList [] 1 ∧
    (∀ e ∈ LoadChromosomeNamesPos scenarioRef, e.chromosome ≠ []) ∧
    hisat_3n_table parseUnmapped scenarioRef reloadPos0 ["r\t4\t\t1\t".toList] = ([], 0) := by
  have hm : MappedAs "r\t4\t\t1\t".toList [] 1 := ⟨rfl, fun _ _ => rfl⟩
  refine ⟨hm, by decide, ?_⟩
  obtain ⟨s2, h1, h2, h3⟩ := acceptRecord_allEmpty "r\t4\t\t1\t".toList
    { MainState.init scenarioRef reloadPos0 with samChromosome := [], samPos := 1 }
    rfl (fun _ => rfl) rfl (by simp [MainState.init])
  have hcc : changeChromosome
      { MainState.init scenarioRef reloadPos0 with samChromosome := [], samPos := 1 }
      = .ok { MainState.init scenarioRef reloadPos0 with samChromosome := [], samPos := 1 } := by
    unfold changeChromosome
    rw [if_neg (by simp [MainState.init, Positions.new])]
  unfold hisat_3n_table
  simp only [mainLoop]
  rw [processLine_mapped parseUnmapped _ _ [] 1 ⟨hm.1, hm.2 _ _⟩, hcc]
  simp only
  rw [h1]
  simp only
  rw [h2, startOutput_allEmpty _ h3]
  rfl

/-- C12 (as stated, refuted). On Scenario A's reference, whose index holds chr1 only, the
first line is a record whose chromosome field is empty (with a decoder that reports no
call for it).  `getSAMChromosomePos` returns true for it, the empty name is absent from
the index, but it equals the initial name of the window: no look-up is made and the
run ends with exit status 0 (here with `reloadPos` first 0; `empty_name_run` shows it
for every first value). -/
theorem empty_name_not_looked_up :
    MappedAs "r\t4\t\t1\t".toList [] 1 ∧
    (∀ e ∈ LoadChromosomeNamesPos scenarioRef, e.chromosome ≠ []) ∧
    hisat_3n_table parseUnmapped scenarioRef 0 ["r\t4\t\t1\t".toList] = ([], 0) :=
  empty_name_run 0

theorem window_check (P : Positions) (hW : WinOk P) (c off : Int)
    (h1 : windowBase P < c) (h0 : 0 ≤ off) (hoff : off < loadingBlockSize)
    (h2 : c + off ≤ P.location) :
    (P.refPositions (Mod (getIndex P c + off))).location = c + off := by
  obtain ⟨⟨hl0, hend, hslots⟩, ⟨k, hk1, hk2⟩, hloc, _⟩ := hW
  unfold windowBase loadingBlockSize at *
  have hfirst : (P.refPositions P.refPosStartPtr).location = (k * 60000 : Int) + 1 := by
    rw [hk2]
    exact hslots (k * 60000) (by omega) (by omega) (by omega)
  rw [getIndex_eq P c (k * 60000) hfirst (by omega) (by omega) (by omega) (by omega)]
  have e : Mod ((c - (k * 60000 : Int) - 1 + P.refPosStartPtr) % 120067 + off)
      = (c + off - 1) % 120067 := by
    rw [Mod_eq_emod (by omega) (by omega), hk2]; omega
  rw [e, hslots (c + off - 1) (by omega) (by omega) (by omega)]
  ring

theorem syncLoop_low (text : Str) (hw : SeqLinesBounded 67 text) (L : Int)
    (c0 : List Row) (samPos : Int) (fuel : Nat) (s : MainState) (hI : SegInv text L c0 s)
    (h2 : samPos ≤ L)
    (hlow : windowBase s.positions = 0 ∨ windowBase s.positions < s.lastPos ∨
      windowBase s.positions < samPos) :
    windowBase (syncLoop samPos fuel s).positions = 0 ∨
    windowBase (syncLoop samPos fuel s).positions < s.lastPos ∨
    windowBase (syncLoop samPos fuel s).positions < samPos := by
  induction fuel generalizing s with
  | zero => exact hlow
  | succ n ih =>
    simp only [syncLoop]
    split
    · rename_i h
      have hf := syncStep_frame s
      have := ih (syncStep s) (syncStep_segInv text hw L c0 s samPos hI (by omega) h2) (by
        right; right
        unfold windowBase
        rw [hf.2.2.2.2.1]
        obtain ⟨_, _, hbd, _⟩ := hI
        rcases hbd with hb | hb
        · omega
        · unfold loadingBlockSize at *; omega)
      rw [hf.2.2.1] at this
      exact this
    · exact hlow

theorem acceptRecord_check (text : Str) (hw : SeqLinesBounded 67 text) (L : Int)
    (c0 : List Row) (parse : Str → Alignment) (line : Str) (s : MainState)
    (hI : SegInv text L c0 s) (hlow : LowInv s) (h1 : 1 ≤ s.samPos) (h2 : s.samPos ≤ L)
    (hloc : (parse line).location = s.samPos)
    (hcalls : ∀ b ∈ visitedCalls (parse line),
      0 ≤ b.refPos ∧ b.refPos < loadingBlockSize ∧ s.samPos + b.refPos ≤ L) :
    (∀ s2, acceptRecord parse line s ≠ .error (.exitMinus1, s2)) ∧
    LowInv (finalState (acceptRecord parse line s)) := by
  have h3 := syncLoop_segInv text hw L c0 s.samPos (syncFuel s.samPos s.reloadPos) s hI h2
  have hF := syncLoop_frame s.samPos (syncFuel s.samPos s.reloadPos) s
  have hL := syncLoop_low text hw L c0 s.samPos (syncFuel s.samPos s.reloadPos) s hI h2
    (by rcases hlow with h | h
        · exact Or.inl h
        · exact Or.inr (Or.inl h))
  have hex := syncLoop_exit s.samPos (syncFuel s.samPos s.reloadPos) s
    (syncFuel_enough s.samPos s.reloadPos)
  unfold acceptRecord
  split
  · rename_i hgt
    refine ⟨fun s2 h => (by cases h), ?_⟩
    simp only [finalState]
    unfold LowInv
    rw [hF.1, hF.2.2.1] at hgt
    rw [hF.2.2.1]
    omega
  · rename_i hle
    rw [hF.1, hF.2.2.1] at hle
    have hbase : windowBase (syncLoop s.samPos (syncFuel s.samPos s.reloadPos) s).positions
        < s.samPos := by omega
    obtain ⟨hWS, hb0, hbd, _⟩ := h3
    have hW := windowState_winOk text hw _ hWS
    have hres : ∀ b ∈ visitedCalls (parse line),
        ((syncLoop s.samPos (syncFuel s.samPos s.reloadPos) s).positions.refPositions
          (Mod (getIndex (syncLoop s.samPos (syncFuel s.samPos s.reloadPos) s).positions
            (parse line).location + b.refPos))).location = (parse line).location + b.refPos := by
      intro b hb
      obtain ⟨hb0, hb1, hb2⟩ := hcalls b hb
      rw [hloc]
      apply window_check _ hW _ _ hbase hb0 hb1
      rcases hbd with hd | hd
      · omega
      · rcases hd.2.2 with h | h
        · unfold loadingBlockSize at *; omega
        · omega
    obtain ⟨P2, hP2, _⟩ := appendPositions_slots _ (parse line) hres
    have hcur := appendPositions_cursors _ _ _ hP2
    rw [hP2]
    refine ⟨fun s2 h => (by cases h), ?_⟩
    simp only [finalState]
    unfold LowInv windowBase
    simp only
    rw [hcur.2.2.2.1, hF.1]
    unfold windowBase at hbase
    right
    exact hbase

theorem processLine_check (text : Str) (hw : SeqLinesBounded 67 text) (L : Int)
    (c0 : List Row) (parse : Str → Alignment) (X : Str) (s : MainState) (line : Str)
    (hI : SegInv text L c0 s) (hlow : LowInv s) (hX : s.positions.chromosome = X)
    (hvalid : RecordInside parse X L line) :
    (∀ s2, processLine parse s line ≠ .error (.exitMinus1, s2)) ∧
    LowInv (finalState (processLine parse s line)) := by
  unfold processLine
  split
  · exact ⟨fun s2 h => (by cases h), hlow⟩
  · rename_i hskip
    split
    · rename_i e hsam
      have := getSAMLoop_error 4 line 0 _ _ e (by omega) (by omega) hsam
      subst this
      exact ⟨fun s2 h => (by cases h), hlow⟩
    · rename_i mapped chr pos hsam
      split
      · exact ⟨fun s2 h => (by cases h), hlow⟩
      · rename_i hmap
        have hm : MappedLine s line chr pos := by
          refine ⟨by simpa using hskip, ?_⟩
          rw [hsam]
          cases mapped
          · simp at hmap
          · rfl
        obtain ⟨hv1, hv2, hv3, hv4, hv5⟩ := hvalid s chr pos hm
        have hcc : changeChromosome { s with samChromosome := chr, samPos := pos }
            = .ok { s with samChromosome := chr, samPos := pos } := by
          unfold changeChromosome
          rw [if_neg]
          simp only [ne_eq, not_not]
          rw [hv1, hX]
        rw [hcc]
        exact acceptRecord_check text hw L c0 parse line
          { s with samChromosome := chr, samPos := pos }
          (segInv_vars text L c0 s hI chr pos) hlow hv2 hv3 hv4 hv5

theorem mainLoop_check (text : Str) (hw : SeqLinesBounded 67 text) (L : Int)
    (c0 : List Row) (parse : Str → Alignment) (X : Str) (s : MainState) (lines : List Str)
    (hI : SegInv text L c0 s) (hlow : LowInv s) (hX : s.positions.chromosome = X)
    (hvalid : ∀ l ∈ lines, RecordInside parse X L l) :
    ∀ s2, mainLoop parse s lines ≠ .error (.exitMinus1, s2) := by
  induction lines generalizing s with
  | nil => intro s2 h; cases h
  | cons l ls ih =>
    have hl := hvalid l (List.mem_cons_self _ _)
    have h1 := processLine_segInv text hw L c0 parse X s l hI hX
      (fun st chr pos hm => ⟨(hl st chr pos hm).1, (hl st chr pos hm).2.2.1⟩)
    have h2 := processLine_check text hw L c0 parse X s l hI hlow hX hl
    intro s2
    simp only [mainLoop]
    cases hp : processLine parse s l with
    | error e =>
      simp only
      intro h
      have : e = (.exitMinus1, s2) := by cases h; rfl
      rw [this] at hp
      exact h2.1 s2 hp
    | ok s1 =>
      simp only
      rw [hp] at h1 h2
      exact ih s1 h1.1 h2.2 h1.2 (fun l2 hl2 => hvalid l2 (List.mem_cons_of_mem _ hl2)) s2

/-- C19 (amended). Over a reference whose sequence lines have at most 67 bases: when the
stream changes to chromosome `X` (line `line0`, after any lines `pre` read without
error) and every mapped record from there on names `X` at a coordinate from 1 to the
length of `X`, with the decoder reporting the same coordinate and the applied calls
having offsets from 0 to `blockSize - 1` and coordinates up to the length of `X`, the
position check of `appendPositions` holds for every call: the run does not end with
`exit(-1)`. -/
theorem position_check_holds (parse : Str → Alignment) (text : Str) (reloadPos0 : Int)
    (pre : List Str) (s : MainState) (X line0 : Str) (pos0 : Int) (lines : List Str)
    (hw : SeqLinesBounded 67 text)
    (hpre : mainLoop parse (MainState.init text reloadPos0) pre = .ok s)
    (hX : X ≠ s.positions.chromosome) (h0 : MappedAs line0 X pos0)
    (hvalid : ∀ l ∈ line0 :: lines,
      RecordInside parse X (chromosomeLength s.positions X) l) :
    ∀ s2, mainLoop parse s (line0 :: lines) ≠ .error (.exitMinus1, s2) := by
  have hi := mainLoop_index parse _ s pre hpre
  have hm : MappedLine s line0 X pos0 := ⟨h0.1, h0.2 _ _⟩
  have hv0 := hvalid line0 (List.mem_cons_self _ _)
  obtain ⟨_, hv2, hv3, hv4, hv5⟩ := hv0 s X pos0 hm
  intro s2
  simp only [mainLoop]
  rw [processLine_mapped parse s line0 X pos0 hm]
  cases hcc : changeChromosome { s with samChromosome := X, samPos := pos0 } with
  | error e =>
    simp only
    unfold changeChromosome at hcc
    rw [if_pos hX] at hcc
    dsimp only at hcc
    split at hcc
    · rename_i e2 hl
      have := loadNewChromosome_error _ _ _ hl
      subst this
      cases hcc
      intro h; cases h
    · cases hcc
  | ok s1 =>
    simp only
    have hI := changeChromosome_segInv text hw
      { s with samChromosome := X, samPos := pos0 } s1 hi.1 hi.2 hX hcc
    have hc := changeChromosome_ok _ _ hcc
    simp only at hI hc
    have hlow : LowInv s1 := by
      unfold changeChromosome at hcc
      rw [if_pos hX] at hcc
      dsimp only at hcc
      split at hcc
      · cases hcc
      · rename_i P m hl
        cases hcc
        left
        unfold windowBase
        simp only
        rw [(loadNewChromosome_ok _ _ _ _ hl).2.1]
        ring
    have ha := acceptRecord_check text hw _ _ parse line0 s1 hI hlow
      (by rw [hc.1]; exact hv2) (by rw [hc.1]; exact hv3) (by rw [hc.1]; exact hv4)
      (by rw [hc.1]; exact hv5)
    have hs := acceptRecord_segInv text hw _ _ parse line0 s1 hI (by rw [hc.1]; exact hv3)
    cases hacc : acceptRecord parse line0 s1 with
    | error e =>
      simp only
      intro h
      have : e = (.exitMinus1, s2) := by cases h; rfl
      rw [this] at hacc
      exact ha.1 s2 hacc
    | ok s3 =>
      simp only
      rw [hacc] at ha hs
      exact mainLoop_check text hw _ _ parse X s3 lines hs.1 ha.2 (hs.2.trans hc.2.2)
        (fun l hl => hvalid l (List.mem_cons_of_mem _ hl)) s2

theorem Mod_nonneg {x : Int} (h : 0 ≤ x) : 0 ≤ Mod x := by
  unfold Mod loadingBlockSize
  split <;> omega

theorem longLoaded_index (body : Str) (hb : ∀ x ∈ body, x = 'C')
    (hlen : body.length = 240068) : getIndex (longLoaded body) 1 = -120067 := by
  unfold getIndex
  rw [(longLoaded_fields body hlen).2.2.1, longLoaded_slot_zero body hb hlen]
  decide

theorem longLoaded_outside (body : Str) (j : Int) (hj : j < 0) :
    (longLoaded body).refPositions j = Position.initialize := by
  unfold longLoaded appendRefPosition
  simp only
  rw [appendRefLoop_other]
  · rfl
  · intro k _
    have : 0 ≤ Mod ((longBase body).refPosEndPtr + (0 + (k : Int))) :=
      Mod_nonneg (by simp [longBase])
    omega

theorem lapLine_run (body : Str) (hb : ∀ x ∈ body, x = 'C') (hlen : body.length = 240068)
    (reloadPos0 : Int) :
    hisat_3n_table (fun _ => recordAt 1) (longRef body) reloadPos0 [lapLine] = ([], 255) := by
  have hf := longLoaded_fields body hlen
  have hm : MappedLine (MainState.init (longRef body) reloadPos0) lapLine ['c'] 1 :=
    ⟨rfl, rfl⟩
  have hcc : changeChromosome
      { MainState.init (longRef body) reloadPos0 with samChromosome := ['c'], samPos := 1 } =
      .ok { positions := longLoaded body, samChromosome := ['c'], samPos := 1,
            reloadPos := 60000, lastPos := 0,
            cout := [] ++ startOutput (Positions.new (longRef body)) true } := by
    unfold changeChromosome
    rw [if_pos (by simp [MainState.init, Positions.new])]
    simp only [MainState.init]
    rw [longRef_reset body hb (by omega)]
    simp [loadingBlockSize]
  have happ : appendPositions (longLoaded body) (recordAt 1) = .error .exitMinus1 := by
    unfold appendPositions
    simp only [recordAt, Bool.not_true, List.isEmpty_cons, Bool.or_self, Bool.false_eq_true,
      if_false, List.length_singleton, List.take_succ_cons, List.take_zero]
    rw [longLoaded_index body hb hlen]
    simp only [appendPositionsLoop, convertedCall, Bool.false_eq_true, if_false, add_zero]
    rw [show Mod (-120067) = -120067 by decide, longLoaded_outside body _ (by omega)]
    simp [ Position.initialize]
  unfold hisat_3n_table
  simp only [mainLoop]
  rw [processLine_mapped _ _ _ _ _ hm, hcc]
  simp only
  unfold acceptRecord
  simp only
  rw [syncLoop_none 1 _ _ (by simp)]
  simp only
  rw [if_neg (by decide), happ]
  simp only [exitStatus, List.nil_append]
  rw [startOutput_allEmpty _ (fun _ => rfl)]


/-- C19 (as stated, refuted). The reference has one chromosome `c` whose 240068 bases
stand on a single line, which laps the ring during the reset: the start slot then
stores coordinate 120068.  The first record, at coordinate 1 with one call at offset
0, is inside the chromosome and needs no extend, but `getIndex` returns -120067, an
index in front of the array; the check reads no position of the window there and the
run ends with `exit(-1)`. -/
theorem long_line_check_fails :
    MappedAs lapLine ['c'] 1 ∧
    RecordInside (fun _ => recordAt 1) ['c']
      (chromosomeLength (Positions.new (longRef (List.replicate 240068 'C'))) ['c']) lapLine ∧
    loadNewChromosome (Positions.new (longRef (List.replicate 240068 'C'))) ['c']
      = .ok (longLoaded (List.replicate 240068 'C'), 0) ∧
    ((longLoaded (List.replicate 240068 'C')).refPositions 0).location = 120068 ∧
    getIndex (longLoaded (List.replicate 240068 'C')) 1 = -120067 ∧
    hisat_3n_table (fun _ => recordAt 1) (longRef (List.replicate 240068 'C')) 0 [lapLine]
      = ([], 255) := by
  have hb : ∀ x ∈ List.replicate 240068 'C', x = 'C' :=
    fun x hx => List.eq_of_mem_replicate hx
  have hlen : (List.replicate 240068 'C').length = 240068 := List.length_replicate _ _
  have hm : MappedAs lapLine ['c'] 1 := ⟨rfl, fun _ _ => rfl⟩
  refine ⟨hm, ?_, longRef_reset _ hb (by omega), ?_, longLoaded_index _ hb hlen,
    lapLine_run _ hb hlen 0⟩
  · intro st chr pos hmp
    have hu : chr = ['c'] ∧ pos = 1 := by
      have := hmp.2
      rw [hm.2] at this
      simp only [Except.ok.injEq, Prod.mk.injEq, true_and] at this
      exact ⟨this.1.symm, this.2.symm⟩
    rw [longRef_length _ hb, hlen, hu.1, hu.2]
    refine ⟨rfl, by decide, by decide, rfl, ?_⟩
    decide
  · rw [longLoaded_slot_zero _ hb hlen]
    decide

/-- Witness of `position_check_holds`: Scenario A, the record with its six calls read
from the first line of the stream. -/
theorem position_check_holds_witness :
    SeqLinesBounded 67 scenarioRef ∧
    mainLoop (fun _ => scenarioRecord) (MainState.init scenarioRef 0) []
      = .ok (MainState.init scenarioRef 0) ∧
    "chr1".toList ≠ (MainState.init scenarioRef 0).positions.chromosome ∧
    MappedAs "r\t0\tchr1\t1\t".toList "chr1".toList 1 ∧
    (∀ l ∈ "r\t0\tchr1\t1\t".toList :: [],
      RecordInside (fun _ => scenarioRecord) "chr1".toList
        (chromosomeLength (MainState.init scenarioRef 0).positions "chr1".toList) l) ∧
    ∀ s2, mainLoop (fun _ => scenarioRecord) (MainState.init scenarioRef 0)
        ("r\t0\tchr1\t1\t".toList :: []) ≠ .error (.exitMinus1, s2) :=
  have h1 : MappedAs "r\t0\tchr1\t1\t".toList "chr1".toList 1 := ⟨rfl, fun _ _ => rfl⟩
  have hv : ∀ l ∈ "r\t0\tchr1\t1\t".toList :: [],
      RecordInside (fun _ => scenarioRecord) "chr1".toList
        (chromosomeLength (MainState.init scenarioRef 0).positions "chr1".toList) l := by
    intro l hl st chr pos hm
    simp only [List.mem_singleton] at hl
    subst hl
    have hu : chr = "chr1".toList ∧ pos = 1 := by
      have := hm.2
      rw [h1.2] at this
      simp only [Except.ok.injEq, Prod.mk.injEq, true_and] at this
      exact ⟨this.1.symm, this.2.symm⟩
    rw [hu.1, hu.2]
    exact ⟨rfl, by decide, by decide, rfl, by decide⟩
  ⟨scenarioRef_lines, rfl, by decide, h1, hv,
    position_check_holds (fun _ => scenarioRecord) scenarioRef 0 [] (MainState.init scenarioRef 0)
      "chr1".toList "r\t0\tchr1\t1\t".toList 1 [] scenarioRef_lines rfl (by decide) h1 hv⟩

theorem appendRefPosition_ringChr (P : Positions) (line : Str) (hR : RingOk P)
    (hC : RingChr P) (hlen : line.length ≤ 120067) : RingChr (appendRefPosition P line) := by
  obtain ⟨h0, hend, _⟩ := hR
  intro q hq0 hq1 hq2
  have hloc : (appendRefPosition P line).location = P.location + line.length := rfl
  have hcur : (appendRefPosition P line).curChromosomeId = P.curChromosomeId := rfl
  rw [hloc] at hq1 hq2
  rw [hcur]
  by_cases hq : P.location ≤ q
  · obtain ⟨k, hk⟩ : ∃ k : Nat, q - P.location = k := ⟨(q - P.location).toNat, by omega⟩
    have hkl : k < line.length := by omega
    have hget : line.get? k = some (line.get ⟨k, hkl⟩) := List.get?_eq_get hkl
    have hs := appendRefPosition_slot P line k _ (by unfold loadingBlockSize; omega) hget
    have hidx : Mod (P.refPosEndPtr + k) = q % 120067 := by
      rw [Mod_eq_emod (by omega) (by omega), hend]; omega
    rw [hidx] at hs
    rw [hs, (refSlot_strand _ _ _ _).2.2.2]
  · have hother : (appendRefPosition P line).refPositions (q % 120067)
        = P.refPositions (q % 120067) := by
      simp only [appendRefPosition]
      apply appendRefLoop_other
      intro k hk
      rw [Mod_eq_emod (by omega) (by omega), hend]
      omega
    rw [hother]
    exact hC q hq0 (by omega) (by omega)

theorem fillLoop_ringChr (n : Nat) (P : Positions) (hR : RingOk P) (hC : RingChr P)
    (hloc : P.location < P.refCoveredPosition)
    (hlines : P.refGood = true → SeqLinesBounded 67 P.refRest) :
    RingChr (fillLoop n P).1 := by
  induction n generalizing P with
  | zero => exact hC
  | succ n ih =>
    simp only [fillLoop]
    by_cases hg : P.refGood = true
    · simp only [hg, if_true]
      have hl := seqLines_getline 67 P.refRest (hlines hg)
      split
      · exact hC
      · rename_i hhead
        split
        · exact ih _ hR hC hloc (fun _ => hl.2)
        · have hlen := hl.1 hhead
          have hR2 : RingOk (appendRefPosition
              { P with refRest := (getline P.refRest).2.1, refGood := (getline P.refRest).2.2 }
              (getline P.refRest).1) :=
            appendRefPosition_ringOk _ _ hR (by omega)
          have hC2 : RingChr (appendRefPosition
              { P with refRest := (getline P.refRest).2.1, refGood := (getline P.refRest).2.2 }
              (getline P.refRest).1) :=
            appendRefPosition_ringChr _ _ hR hC (by omega)
          split
          · exact hC2
          · exact ih _ hR2 hC2 (by omega) (fun _ => hl.2)
    · simp only [hg]
      exact hC

theorem windowState_ringChr (text : Str) (hw : SeqLinesBounded 67 text) (P : Positions)
    (hP : WindowState text P) : RingChr P := by
  induction hP with
  | reset P P2 name m ht hidx hload =>
    unfold loadNewChromosome at hload
    split at hload
    · cases hload
    · rename_i startPos hsp
      split at hload
      · cases hload
      · rename_i id hid
        simp only [Except.ok.injEq] at hload
        have h1 := congrArg Prod.fst hload
        simp only at h1
        rw [← h1]
        have g := resetWindow_frame P name id startPos
        have hgood : (resetWindow P name id startPos).refGood = true →
            SeqLinesBounded 67 (resetWindow P name id startPos).refRest := by
          rw [hidx] at hsp
          have hoff := getChromosomePos_goodOffset 67 text hw name startPos hsp
          unfold resetWindow seekg
          split
          · simp
          · intro _
            rcases hoff with h3 | h3
            · omega
            · simpa [ht] using h3
        have hR0 : RingOk (resetWindow P name id startPos) := by
          refine ⟨by rw [g.2.2.2.2.2.2.1], by rw [g.2.2.2.2.2.2.1, g.2.2.2.2.2.2.2]; rfl, ?_⟩
          intro q h0 _ h2
          rw [g.2.2.2.2.2.2.1] at h2
          omega
        have hC0 : RingChr (resetWindow P name id startPos) := by
          intro q h0 _ h2
          rw [g.2.2.2.2.2.2.1] at h2
          omega
        exact fillLoop_ringChr _ _ hR0 hC0
          (by rw [g.2.2.2.2.2.2.1, g.2.1]; unfold loadingBlockSize; omega) hgood
  | extend P hP ih =>
    obtain ⟨hR, ⟨k, hk1, hk2⟩, hloc, hlines⟩ := windowState_winOk text hw P hP
    exact fillLoop_ringChr _ (advanceWindow P) hR ih
      (by simp only [advanceWindow]; unfold loadingBlockSize; omega) hlines
  | record P P2 a _ happ ih =>
    have c := appendPositions_cursors P P2 a happ
    intro q h0 h1 h2
    rw [c.2.2.1] at h1 h2
    rw [(appendPositions_frame P P2 a happ _).2.2.1, c.2.2.2.2.2.1]
    exact ih q h0 h1 h2

theorem outputRow_chr (cp : List ChromosomeFilePosition) (p : Position) :
    ∀ r ∈ outputRow cp p, r.chr = getChromesomeString cp p.chromosomeId := by
  intro r hr
  unfold outputRow at hr
  split at hr
  · simp only [List.mem_singleton] at hr
    rw [hr]
  · simp at hr

theorem startOutput_block_walk (P : Positions) (hW : WinOk P) :
    startOutput P false =
      (List.range 60000).flatMap
        (fun t => outputRow P.chromosomePos
          (P.refPositions ((P.refPosStartPtr + (t : Int)) % 120067))) := by
  obtain ⟨_, ⟨k, hk1, hk2⟩, _, _⟩ := hW
  have hfuel : (2 * loadingBlockSize + 67).toNat = 120067 := by decide
  unfold startOutput
  simp only [Bool.false_eq_true, if_false, hfuel]
  have := outputLoop_walk P 60000 120067 P.refPosStartPtr (by omega) (by omega)
    (by omega) (by omega)
  have he : (P.refPosStartPtr + ((60000 : Nat) : Int)) % 120067
      = Mod (P.refPosStartPtr + loadingBlockSize) := by
    rw [Mod_eq_emod (by unfold loadingBlockSize; omega) (by unfold loadingBlockSize; omega)]
    unfold loadingBlockSize; push_cast; rfl
  rw [he] at this
  exact this

theorem startOutput_final_walk (P : Positions) (hW : WinOk P) :
    startOutput P true =
      (List.range ((P.refPosEndPtr - P.refPosStartPtr) % 120067).toNat).flatMap
        (fun t => outputRow P.chromosomePos
          (P.refPositions ((P.refPosStartPtr + (t : Int)) % 120067))) := by
  obtain ⟨⟨hl0, hend, _⟩, ⟨k, hk1, hk2⟩, _, _⟩ := hW
  have hfuel : (2 * loadingBlockSize + 67).toNat = 120067 := by decide
  unfold startOutput
  simp only [if_true, hfuel]
  have := outputLoop_walk P ((P.refPosEndPtr - P.refPosStartPtr) % 120067).toNat 120067
    P.refPosStartPtr (by omega) (by omega) (by omega) (by omega)
  have he : (P.refPosStartPtr +
      ((((P.refPosEndPtr - P.refPosStartPtr) % 120067).toNat : Nat) : Int)) % 120067
      = P.refPosEndPtr := by omega
  rw [he] at this
  exact this

theorem startOutput_rows_chr (P : Positions) (hW : WinOk P) (hC : RingChr P)
    (final_ : Bool)
    (hres : (if final_ then windowBase P else windowBase P + loadingBlockSize) ≤ P.location) :
    ∀ r ∈ startOutput P final_,
      r.chr = getChromesomeString P.chromosomePos (toInt16 P.curChromosomeId) := by
  have hW2 := hW
  obtain ⟨⟨hl0, hend, _⟩, ⟨k, hk1, hk2⟩, hloc, _⟩ := hW
  unfold windowBase loadingBlockSize at hres
  intro r hr
  cases final_ with
  | false =>
    simp only [Bool.false_eq_true, if_false] at hres
    rw [startOutput_block_walk P hW2] at hr
    rcases List.mem_flatMap.mp hr with ⟨t, ht, hrt⟩
    have ht2 : t < 60000 := by simpa using ht
    rw [outputRow_chr _ _ r hrt]
    have e : (P.refPosStartPtr + (t : Int)) % 120067 = ((k * 60000 : Int) + t) % 120067 := by
      rw [hk2]; omega
    rw [e, hC _ (by omega) (by omega) (by omega)]
  | true =>
    simp only [if_true] at hres
    rw [startOutput_final_walk P hW2] at hr
    rcases List.mem_flatMap.mp hr with ⟨t, ht, hrt⟩
    have ht2 : t < ((P.refPosEndPtr - P.refPosStartPtr) % 120067).toNat := by simpa using ht
    rw [outputRow_chr _ _ r hrt]
    have e : (P.refPosStartPtr + (t : Int)) % 120067 = ((k * 60000 : Int) + t) % 120067 := by
      rw [hk2]; omega
    rw [e, hC _ (by omega) (by omega) (by omega)]

theorem syncStep_chr (text : Str) (hw : SeqLinesBounded 67 text) (L : Int)
    (c0 : List Row) (X : Str) (s : MainState) (samPos : Int) (hI : SegInv text L c0 s)
    (hCh : ChrInv X c0 s) (h1 : s.reloadPos < samPos) (h2 : samPos ≤ L) :
    ChrInv X c0 (syncStep s) := by
  obtain ⟨hWS, hbase, hbd, _⟩ := hI
  obtain ⟨hid, rows, hcout, hrows⟩ := hCh
  have hW := windowState_winOk text hw _ hWS
  have hC := windowState_ringChr text hw _ hWS
  have hrn := remaining_nonneg s.positions
  have hf := syncStep_frame s
  have hfr := loadMore_frame s.positions
  have hblock : s.positions.refCoveredPosition - loadingBlockSize ≤ s.positions.location := by
    rcases hbd with hb | hb
    · omega
    · rcases hb.2.2 with h | h
      · unfold loadingBlockSize; omega
      · omega
  have hblk := startOutput_rows_chr s.positions hW hC false (by
    simp only [Bool.false_eq_true, if_false]
    unfold windowBase loadingBlockSize at *
    omega)
  refine ⟨?_, rows ++ startOutput s.positions false, ?_, ?_⟩
  · rw [hf.2.2.2.2.2.2.1, hfr.2.2.2.2.1, hfr.2.2.2.1]; exact hid
  · rw [hf.2.2.2.2.2.2.2, hcout, List.append_assoc]
  · intro r hr
    rcases List.mem_append.mp hr with h | h
    · exact hrows r h
    · rw [hblk r h]; exact hid

theorem syncLoop_chr (text : Str) (hw : SeqLinesBounded 67 text) (L : Int)
    (c0 : List Row) (X : Str) (samPos : Int) (fuel : Nat) (s : MainState)
    (hI : SegInv text L c0 s) (hCh : ChrInv X c0 s) (h2 : samPos ≤ L) :
    ChrInv X c0 (syncLoop samPos fuel s) := by
  induction fuel generalizing s with
  | zero => exact hCh
  | succ n ih =>
    simp only [syncLoop]
    split
    · rename_i h
      exact ih _ (syncStep_segInv text hw L c0 s samPos hI (by omega) h2)
        (syncStep_chr text hw L c0 X s samPos hI hCh (by omega) h2)
    · exact hCh

theorem acceptRecord_chr (text : Str) (hw : SeqLinesBounded 67 text) (L : Int)
    (c0 : List Row) (X : Str) (parse : Str → Alignment) (line : Str) (s : MainState)
    (hI : SegInv text L c0 s) (hCh : ChrInv X c0 s) (h2 : s.samPos ≤ L) :
    ChrInv X c0 (finalState (acceptRecord parse line s)) := by
  have h3 := syncLoop_chr text hw L c0 X s.samPos (syncFuel s.samPos s.reloadPos) s hI hCh h2
  unfold acceptRecord
  split
  · exact h3
  · split
    · exact h3
    · rename_i P hP
      simp only [finalState]
      have c := appendPositions_cursors _ _ _ hP
      obtain ⟨hid, hrows⟩ := h3
      refine ⟨?_, hrows⟩
      simp only
      rw [c.2.2.2.2.2.2.1, c.2.2.2.2.2.1]
      exact hid

theorem processLine_chr (text : Str) (hw : SeqLinesBounded 67 text) (L : Int)
    (c0 : List Row) (parse : Str → Alignment) (X : Str) (s : MainState) (line : Str)
    (hI : SegInv text L c0 s) (hCh : ChrInv X c0 s) (hX : s.positions.chromosome = X)
    (hvalid : ∀ (st : MainState) (chr : Str) (pos : Int),
      MappedLine st line chr pos → chr = X ∧ pos ≤ L) :
    ChrInv X c0 (finalState (processLine parse s line)) := by
  unfold processLine
  split
  · exact hCh
  · rename_i hskip
    split
    · exact hCh
    · rename_i mapped chr pos hsam
      split
      · exact hCh
      · rename_i hmap
        have hm : MappedLine s line chr pos := by
          refine ⟨by simpa using hskip, ?_⟩
          rw [hsam]
          cases mapped
          · simp at hmap
          · rfl
        have hv := hvalid s chr pos hm
        have hcc : changeChromosome { s with samChromosome := chr, samPos := pos }
            = .ok { s with samChromosome := chr, samPos := pos } := by
          unfold changeChromosome
          rw [if_neg]
          simp only [ne_eq, not_not]
          rw [hv.1, hX]
        rw [hcc]
        exact acceptRecord_chr text hw L c0 X parse line
          { s with samChromosome := chr, samPos := pos }
          (segInv_vars text L c0 s hI chr pos) hCh hv.2

theorem mainLoop_chr (text : Str) (hw : SeqLinesBounded 67 text) (L : Int)
    (c0 : List Row) (parse : Str → Alignment) (X : Str) (s : MainState) (lines : List Str)
    (hI : SegInv text L c0 s) (hCh : ChrInv X c0 s) (hX : s.positions.chromosome = X)
    (hvalid : ∀ l ∈ lines, ∀ (st : MainState) (chr : Str) (pos : Int),
      MappedLine st l chr pos → chr = X ∧ pos ≤ L) :
    ChrInv X c0 (finalState (mainLoop parse s lines)) ∧
    (finalState (mainLoop parse s lines)).positions.chromosome = X := by
  induction lines generalizing s with
  | nil => exact ⟨hCh, hX⟩
  | cons l ls ih =>
    rw [finalState_mainLoop_cons]
    have h1 := processLine_segInv text hw L c0 parse X s l hI hX
      (hvalid l (List.mem_cons_self _ _))
    have h2 := processLine_chr text hw L c0 parse X s l hI hCh hX
      (hvalid l (List.mem_cons_self _ _))
    split
    · exact ⟨h2, h1.2⟩
    · rename_i s1 hs1
      rw [hs1] at h1 h2
      exact ih s1 h1.1 h2 h1.2 (fun l2 hl2 => hvalid l2 (List.mem_cons_of_mem _ hl2))

theorem toInt16_small (x : Int) (h0 : 0 ≤ x) (h1 : x ≤ 32767) : toInt16 x = x := by
  unfold toInt16; omega

theorem changeChromosome_chr (s s2 : MainState)
    (hn : s.positions.chromosomePos.length ≤ 32768)
    (hX : s.samChromosome ≠ s.positions.chromosome)
    (h : changeChromosome s = .ok s2) :
    ChrInv s.samChromosome (s.cout ++ startOutput s.positions true) s2 := by
  unfold changeChromosome at h
  rw [if_pos hX] at h
  dsimp only at h
  split at h
  · cases h
  · rename_i P m hl
    cases h
    have hok := loadNewChromosome_ok _ _ _ _ hl
    have hfound := findChromosomeAux_found _ _ _ _ _ _ (le_refl 0) hok.2.2.2.2.2.2
    refine ⟨?_, [], by simp, by simp⟩
    simp only
    rw [hok.2.2.2.1, toInt16_small _ hfound.1 (by omega)]
    exact hfound.2.2

theorem chromosomeLength_congr (P Q : Positions) (name : Str)
    (h1 : Q.chromosomePos = P.chromosomePos) (h2 : Q.refText = P.refText) :
    chromosomeLength Q name = chromosomeLength P name := by
  unfold chromosomeLength
  rw [h1, h2]

theorem segment_chr (parse : Str → Alignment) (text : Str) (s : MainState) (X line0 : Str)
    (pos0 : Int) (lines : List Str) (hw : SeqLinesBounded 67 text)
    (ht : s.positions.refText = text)
    (hidx : s.positions.chromosomePos = LoadChromosomeNamesPos text)
    (hn : (LoadChromosomeNamesPos text).length ≤ 32768)
    (hX : X ≠ s.positions.chromosome) (h0 : MappedAs line0 X pos0)
    (hvalid : ∀ l ∈ line0 :: lines, ∀ (st : MainState) (chr : Str) (pos : Int),
      MappedLine st l chr pos → chr = X ∧ pos ≤ chromosomeLength s.positions X) :
    ∃ rows : List Row,
      (finalState (mainLoop parse s (line0 :: lines))).cout
        = s.cout ++ startOutput s.positions true ++ rows ∧
      (∀ r ∈ rows, r.chr = X) ∧
      ∀ s2, mainLoop parse s (line0 :: lines) = .ok s2 →
        s2.positions.chromosome = X ∧ ∀ r ∈ startOutput s2.positions true, r.chr = X := by
  have hm : MappedLine s line0 X pos0 := ⟨h0.1, h0.2 _ _⟩
  have hv0 := hvalid line0 (List.mem_cons_self _ _) s X pos0 hm
  have hfin : ∀ s3 : MainState, ∀ rest : List Str,
      SegInv text (chromosomeLength s.positions X) (s.cout ++ startOutput s.positions true) s3 →
      ChrInv X (s.cout ++ startOutput s.positions true) s3 →
      s3.positions.chromosome = X →
      (∀ l ∈ rest, ∀ (st : MainState) (chr : Str) (pos : Int),
        MappedLine st l chr pos → chr = X ∧ pos ≤ chromosomeLength s.positions X) →
      ∃ rows : List Row,
        (finalState (mainLoop parse s3 rest)).cout
          = s.cout ++ startOutput s.positions true ++ rows ∧
        (∀ r ∈ rows, r.chr = X) ∧
        ∀ s2, mainLoop parse s3 rest = .ok s2 →
          s2.positions.chromosome = X ∧ ∀ r ∈ startOutput s2.positions true, r.chr = X := by
    intro s3 rest hI hCh hc hv
    have hI2 := mainLoop_segInv text hw _ _ parse X s3 rest hI hc hv
    have hC2 := mainLoop_chr text hw _ _ parse X s3 rest hI hCh hc hv
    obtain ⟨⟨hid, rows, hcout, hrows⟩, hchr⟩ := hC2
    refine ⟨rows, hcout, hrows, ?_⟩
    intro s2 hs2
    rw [hs2] at hI2 hid hchr
    simp only [finalState] at hI2 hid hchr
    refine ⟨hchr, ?_⟩
    obtain ⟨hWS, hbase, _, _⟩ := hI2
    intro r hr
    rw [startOutput_rows_chr s2.positions (windowState_winOk text hw _ hWS)
      (windowState_ringChr text hw _ hWS) true
      (by simp only [if_true]; unfold windowBase; exact hbase) r hr]
    exact hid
  simp only [mainLoop]
  rw [processLine_mapped parse s line0 X pos0 hm]
  cases hcc : changeChromosome { s with samChromosome := X, samPos := pos0 } with
  | error e =>
    simp only
    unfold changeChromosome at hcc
    rw [if_pos hX] at hcc
    dsimp only at hcc
    split at hcc
    · cases hcc
      exact ⟨[], by simp [finalState], by simp, fun s2 h => by cases h⟩
    · cases hcc
  | ok s1 =>
    simp only
    have hI := changeChromosome_segInv text hw
      { s with samChromosome := X, samPos := pos0 } s1 ht hidx hX hcc
    have hCh := changeChromosome_chr
      { s with samChromosome := X, samPos := pos0 } s1 (by simp only; rw [hidx]; exact hn)
      hX hcc
    have hc := changeChromosome_ok _ _ hcc
    simp only at hI hCh hc
    have ha := acceptRecord_segInv text hw _ _ parse line0 s1 hI (by rw [hc.1]; exact hv0.2)
    have hb := acceptRecord_chr text hw _ _ X parse line0 s1 hI hCh (by rw [hc.1]; exact hv0.2)
    cases hacc : acceptRecord parse line0 s1 with
    | error e =>
      simp only
      rw [hacc] at hb
      obtain ⟨_, rows, hcout, hrows⟩ := hb
      exact ⟨rows, hcout, hrows, fun s2 h => by cases h⟩
    | ok s3 =>
      simp only
      rw [hacc] at ha hb
      exact hfin s3 lines ha.1 hb (ha.2.trans hc.2.2)
        (fun l hl => hvalid l (List.mem_cons_of_mem _ hl))

/-- C11 (as stated, refuted). On a reference with chr1 and chr2, the stream chr1:1,
chr2:1, chr1:1 (one converted call each) switches chromosome twice; every switch
flushes the window it leaves, and the run ends with status 0 and the rows chr1, chr2,
chr1: a row of chr1 follows the row of chr2. -/
theorem reappearing_chromosome_rows :
    hisat_3n_table (fun _ => recordAt 1) twoChrRef 0
      ["r\t0\tchr1\t1\t".toList, "r\t0\tchr2\t1\t".toList, "r\t0\tchr1\t1\t".toList] =
      ([⟨"chr1".toList, 1, '+', 1, 0⟩, ⟨"chr2".toList, 1, '+', 1, 0⟩,
        ⟨"chr1".toList, 1, '+', 1, 0⟩], 0) := by
  decide!

/-- C11 (amended). Over a reference whose sequence lines have at most 67 bases and whose
index has at most 32768 chromosomes: let the stream, after any lines `pre` read without
error, hold the records of chromosome `A` (first line `lineA`, a change of chromosome)
and then the records of another chromosome `B` (first line `lineB`), every coordinate
not beyond the end of its chromosome.  Then the output is what was written before,
the flush of the window the run leaves for `A`, rows that all name `A`, and then rows
that all name `B`; and when the records of `A` are read without error, the rows of
`A` end with the whole flush of the window of `A`, written at the switch before the
window is reset. -/
theorem switch_rows_grouped (parse : Str → Alignment) (text : Str) (reloadPos0 : Int)
    (pre : List Str) (s : MainState) (A lineA : Str) (posA : Int) (linesA : List Str)
    (B lineB : Str) (posB : Int) (linesB : List Str)
    (hw : SeqLinesBounded 67 text) (hn : (LoadChromosomeNamesPos text).length ≤ 32768)
    (hpre : mainLoop parse (MainState.init text reloadPos0) pre = .ok s)
    (hA : A ≠ s.positions.chromosome) (hlA : MappedAs lineA A posA)
    (hvA : ∀ l ∈ lineA :: linesA, ∀ (st : MainState) (chr : Str) (pos : Int),
      MappedLine st l chr pos → chr = A ∧ pos ≤ chromosomeLength s.positions A)
    (hB : B ≠ A) (hlB : MappedAs lineB B posB)
    (hvB : ∀ l ∈ lineB :: linesB, ∀ (st : MainState) (chr : Str) (pos : Int),
      MappedLine st l chr pos → chr = B ∧ pos ≤ chromosomeLength s.positions B) :
    ∃ rowsA rowsB : List Row,
      (hisat_3n_table parse text reloadPos0
          (pre ++ ((lineA :: linesA) ++ (lineB :: linesB)))).1
        = s.cout ++ startOutput s.positions true ++ rowsA ++ rowsB ∧
      (∀ r ∈ rowsA, r.chr = A) ∧ (∀ r ∈ rowsB, r.chr = B) ∧
      ∀ sA, mainLoop parse s (lineA :: linesA) = .ok sA →
        ∃ rows1, sA.cout = s.cout ++ startOutput s.positions true ++ rows1 ∧
          rowsA = rows1 ++ startOutput sA.positions true := by
  have hi := mainLoop_index parse _ s pre hpre
  rw [(init_index text reloadPos0).1, (init_index text reloadPos0).2] at hi
  obtain ⟨rows1, h1, h2, h3⟩ := segment_chr parse text s A lineA posA linesA hw hi.1 hi.2 hn
    hA hlA hvA
  unfold hisat_3n_table
  rw [mainLoop_append, hpre]
  simp only
  rw [mainLoop_append]
  cases hsA : mainLoop parse s (lineA :: linesA) with
  | error e =>
    rw [hsA] at h1
    simp only [finalState] at h1
    refine ⟨rows1, [], ?_, h2, by simp, fun sA h => by cases h⟩
    simp only [List.append_nil]
    exact h1
  | ok sA =>
    rw [hsA] at h1
    simp only [finalState] at h1
    have h3A := h3 sA hsA
    have hiA := mainLoop_index parse _ sA _ hsA
    obtain ⟨rows2, g1, g2, g3⟩ := segment_chr parse text sA B lineB posB linesB hw
      (hiA.1.trans hi.1) (hiA.2.trans hi.2) hn (by rw [h3A.1]; exact hB) hlB
      (by
        intro l hl st chr pos hm
        rw [chromosomeLength_congr s.positions sA.positions B hiA.2 hiA.1]
        exact hvB l hl st chr pos hm)
    simp only
    have hAr : ∀ r ∈ rows1 ++ startOutput sA.positions true, r.chr = A := by
      intro r hr
      rcases List.mem_append.mp hr with h | h
      · exact h2 r h
      · exact h3A.2 r h
    have hlast : ∀ sA2, (Except.ok sA : Except (Fault × MainState) MainState) = .ok sA2 →
        ∃ rows0, sA2.cout = s.cout ++ startOutput s.positions true ++ rows0 ∧
          rows1 ++ startOutput sA.positions true = rows0 ++ startOutput sA2.positions true := by
      intro sA2 hsA2
      cases hsA2
      exact ⟨rows1, h1, rfl⟩
    cases hsB : mainLoop parse sA (lineB :: linesB) with
    | error e =>
      obtain ⟨e1, sE⟩ := e
      rw [hsB] at g1
      simp only [finalState] at g1
      refine ⟨rows1 ++ startOutput sA.positions true, rows2, ?_, hAr, g2, hlast⟩
      simp only
      rw [g1, h1]
      simp only [List.append_assoc]
    | ok sB =>
      rw [hsB] at g1
      simp only [finalState] at g1
      refine ⟨rows1 ++ startOutput sA.positions true, rows2 ++ startOutput sB.positions true,
        ?_, hAr, ?_, hlast⟩
      · simp only
        rw [g1, h1]
        simp only [List.append_assoc]
      · intro r hr
        rcases List.mem_append.mp hr with h | h
        · exact g2 r h
        · exact (g3 sB hsB).2 r h

theorem twoChrRef_lines : SeqLinesBounded 67 twoChrRef := by
  unfold SeqLinesBounded; decide

/-- Witness of `switch_rows_grouped`: on the reference with chr1 and chr2, a record of
chr1 followed by a record of chr2, one converted call each. -/
theorem switch_rows_grouped_witness :
    SeqLinesBounded 67 twoChrRef ∧ (LoadChromosomeNamesPos twoChrRef).length ≤ 32768 ∧
    mainLoop (fun _ => recordAt 1) (MainState.init twoChrRef 0) []
      = .ok (MainState.init twoChrRef 0) ∧
    MappedAs "r\t0\tchr1\t1\t".toList "chr1".toList 1 ∧
    MappedAs "r\t0\tchr2\t1\t".toList "chr2".toList 1 ∧
    "chr2".toList ≠ "chr1".toList ∧
    ∃ rowsA rowsB : List Row,
      (hisat_3n_table (fun _ => recordAt 1) twoChrRef 0
          ([] ++ (("r\t0\tchr1\t1\t".toList :: []) ++ ("r\t0\tchr2\t1\t".toList :: [])))).1
        = (MainState.init twoChrRef 0).cout
            ++ startOutput (MainState.init twoChrRef 0).positions true ++ rowsA ++ rowsB ∧
      (∀ r ∈ rowsA, r.chr = "chr1".toList) ∧ (∀ r ∈ rowsB, r.chr = "chr2".toList) ∧
      ∀ sA, mainLoop (fun _ => recordAt 1) (MainState.init twoChrRef 0)
          ("r\t0\tchr1\t1\t".toList :: []) = .ok sA →
        ∃ rows1, sA.cout = (MainState.init twoChrRef 0).cout
            ++ startOutput (MainState.init twoChrRef 0).positions true ++ rows1 ∧
          rowsA = rows1 ++ startOutput sA.positions true :=
  have h1 : MappedAs "r\t0\tchr1\t1\t".toList "chr1".toList 1 := ⟨rfl, fun _ _ => rfl⟩
  have h2 : MappedAs "r\t0\tchr2\t1\t".toList "chr2".toList 1 := ⟨rfl, fun _ _ => rfl⟩
  have hl1 : chromosomeLength (MainState.init twoChrRef 0).positions "chr1".toList = 2 := rfl
  have hl2 : chromosomeLength (MainState.init twoChrRef 0).positions "chr2".toList = 2 := rfl
  ⟨twoChrRef_lines, by decide, rfl, h1, h2, by decide,
    switch_rows_grouped (fun _ => recordAt 1) twoChrRef 0 [] (MainState.init twoChrRef 0)
      "chr1".toList "r\t0\tchr1\t1\t".toList 1 [] "chr2".toList "r\t0\tchr2\t1\t".toList 1 []
      twoChrRef_lines (by decide) rfl (by decide) h1
      (by
        intro l hl st chr pos hm
        simp only [List.mem_singleton] at hl
        subst hl
        have := mappedAs_unique _ _ _ h1 st chr pos hm
        rw [hl1, this.2]; exact ⟨this.1, by decide⟩)
      (by decide) h2
      (by
        intro l hl st chr pos hm
        simp only [List.mem_singleton] at hl
        subst hl
        have := mappedAs_unique _ _ _ h2 st chr pos hm
        rw [hl2, this.2]; exact ⟨this.1, by decide⟩)⟩

theorem startOutput_block_cursor (P : Positions) (h0 : 0 ≤ P.refPosStartPtr)
    (h1 : P.refPosStartPtr < 120067) :
    startOutput P false =
      (List.range 60000).flatMap
        (fun t => outputRow P.chromosomePos
          (P.refPositions ((P.refPosStartPtr + (t : Int)) % 120067))) := by
  have hfuel : (2 * loadingBlockSize + 67).toNat = 120067 := by decide
  unfold startOutput
  simp only [Bool.false_eq_true, if_false, hfuel]
  have := outputLoop_walk P 60000 120067 P.refPosStartPtr (by omega) (by omega)
    (by omega) (by omega)
  have he : (P.refPosStartPtr + ((60000 : Nat) : Int)) % 120067
      = Mod (P.refPosStartPtr + loadingBlockSize) := by
    rw [Mod_eq_emod (by unfold loadingBlockSize; omega) (by unfold loadingBlockSize; omega)]
    unfold loadingBlockSize; push_cast; rfl
  rw [he] at this
  exact this

theorem syncN_cursor (n : Nat) (s : MainState) (h0 : 0 ≤ s.positions.refPosStartPtr)
    (h1 : s.positions.refPosStartPtr < 120067) :
    0 ≤ (syncN n s).positions.refPosStartPtr ∧
    (syncN n s).positions.refPosStartPtr < 120067 := by
  induction n generalizing s with
  | zero => exact ⟨h0, h1⟩
  | succ n ih =>
    simp only [syncN]
    apply ih
    · rw [(syncStep_frame s).2.2.2.2.2.2.1, (loadMore_frame s.positions).2.1]
      exact Mod_nonneg (by unfold loadingBlockSize; omega)
    · rw [(syncStep_frame s).2.2.2.2.2.2.1, (loadMore_frame s.positions).2.1]
      unfold Mod loadingBlockSize
      split <;> omega

theorem syncN_notGood (k : Nat) (s : MainState) (h : s.positions.refGood = false) :
    (syncN k s).reloadPos = s.reloadPos + (k : Int) * loadingBlockSize ∧
    (syncN k s).samPos = s.samPos ∧
    (syncN k s).positions.refGood = false := by
  induction k generalizing s with
  | zero => simp [syncN, h]
  | succ k ih =>
    have hp := loadMore_notGood_pair s.positions h
    have h1 : (syncStep s).positions.refGood = false := by
      simp only [syncStep, hp]; exact h
    have h2 : (syncStep s).reloadPos = s.reloadPos + loadingBlockSize := by
      simp only [syncStep, hp]; simp
    obtain ⟨a, b, c⟩ := ih (syncStep s) h1
    simp only [syncN]
    refine ⟨?_, b, c⟩
    rw [a, h2]; push_cast; ring

theorem getline_total (s : Str) :
    (getline s).1.length + (getline s).2.1.length ≤ s.length := by
  induction s with
  | nil => simp [getline]
  | cons c cs ih =>
    simp only [getline]
    split
    · simp
    · simp only [List.length_cons]
      omega

theorem fillLoop_location (n : Nat) (P : Positions) :
    P.location ≤ (fillLoop n P).1.location ∧
    (fillLoop n P).1.location + (fillLoop n P).1.refRest.length
      ≤ P.location + P.refRest.length := by
  induction n generalizing P with
  | zero => simp [fillLoop]
  | succ n ih =>
    simp only [fillLoop]
    have hl := getline_length P.refRest
    have ht := getline_total P.refRest
    by_cases hg : P.refGood = true
    · simp only [hg, if_true]
      split
      · simp only
        omega
      · split
        · have := ih { P with refRest := (getline P.refRest).2.1,
                              refGood := (getline P.refRest).2.2 }
          simp only at this
          omega
        · split
          · simp only [appendRefPosition]
            omega
          · have := ih (appendRefPosition
              { P with refRest := (getline P.refRest).2.1, refGood := (getline P.refRest).2.2 }
              (getline P.refRest).1)
            simp only [appendRefPosition] at this ⊢
            omega
    · simp [hg]

theorem syncN_ranges (k : Nat) (s : MainState) :
    (syncN k s).positions.refCoveredPosition
      = s.positions.refCoveredPosition + (k : Int) * loadingBlockSize ∧
    s.reloadPos + (k : Int) * loadingBlockSize ≤ (syncN k s).reloadPos ∧
    s.positions.location ≤ (syncN k s).positions.location ∧
    (syncN k s).positions.location + (syncN k s).positions.refRest.length
      ≤ s.positions.location + s.positions.refRest.length := by
  induction k generalizing s with
  | zero => simp [syncN]
  | succ k ih =>
    obtain ⟨a, b, c, d⟩ := ih (syncStep s)
    have hf := syncStep_frame s
    have hl : s.positions.location ≤ (loadMore s.positions).1.location ∧
        (loadMore s.positions).1.location + (loadMore s.positions).1.refRest.length
          ≤ s.positions.location + s.positions.refRest.length :=
      fillLoop_location _ (advanceWindow s.positions)
    have hp : (syncStep s).positions = (loadMore s.positions).1 := rfl
    rw [hp] at c d
    simp only [syncN]
    refine ⟨?_, ?_, by omega, by omega⟩
    · rw [a, hf.2.2.2.2.1]; push_cast; ring
    · have := hf.2.2.2.2.2.1
      push_cast
      unfold loadingBlockSize at *
      omega

/-- C20 (as stated, refuted). On Scenario A's reference the first line is a record of
chr1 at coordinate 9223372036854775807, the largest value `stoll` returns.  After the
reset `reloadPos` is 60000, `refCoveredPosition` is 120000 and the file is at its end,
so every `loadMore` reports `meetNext = 0`, and every iteration adds `loadingBlockSize`
to both.  Up to the state after 153722867280910 iterations both are `long long` values
and the coordinate exceeds the threshold, so iteration 153722867280911 is made: its
`refCoveredPosition += loadingBlockSize` has the result 9223372036854780000, which a
`long long` cannot hold.  The coordinate still exceeds the threshold, and in the next
iteration `reloadPos += loadingBlockSize` has the same result: the threshold is not
raised by a block (as a two's complement value it becomes negative), and the loop is
not left with the coordinate at or below the threshold. -/
theorem sync_threshold_overflows :
    MappedAs overflowLine "chr1".toList 9223372036854775807 ∧
    changeChromosome
      { MainState.init scenarioRef 0 with
        samChromosome := "chr1".toList, samPos := 9223372036854775807 } = .ok overflowState ∧
    overflowState.samPos = 9223372036854775807 ∧ overflowState.reloadPos = 60000 ∧
    overflowState.positions.refCoveredPosition = 120000 ∧
    (∀ k : Nat, k ≤ 153722867280910 →
      (syncN k overflowState).reloadPos = 60000 * ((k : Int) + 1) ∧
      (syncN k overflowState).positions.refCoveredPosition = 60000 * ((k : Int) + 2) ∧
      InLongLong (syncN k overflowState).reloadPos ∧
      InLongLong (syncN k overflowState).positions.refCoveredPosition ∧
      overflowState.samPos > (syncN k overflowState).reloadPos) ∧
    (syncN 153722867280911 overflowState).positions.refCoveredPosition
      = (syncN 153722867280910 overflowState).positions.refCoveredPosition
          + loadingBlockSize ∧
    (syncN 153722867280911 overflowState).positions.refCoveredPosition
      = 9223372036854780000 ∧
    ¬ InLongLong (syncN 153722867280911 overflowState).positions.refCoveredPosition ∧
    overflowState.samPos > (syncN 153722867280911 overflowState).reloadPos ∧
    (syncN 153722867280912 overflowState).reloadPos
      = (syncN 153722867280911 overflowState).reloadPos + loadingBlockSize ∧
    (syncN 153722867280912 overflowState).reloadPos = 9223372036854780000 ∧
    ¬ InLongLong (syncN 153722867280912 overflowState).reloadPos ∧
    toInt64 (syncN 153722867280912 overflowState).reloadPos = -9223372036854771616 := by
  have hg : overflowState.positions.refGood = false := rfl
  have hr : overflowState.reloadPos = 60000 := rfl
  have hs : overflowState.samPos = 9223372036854775807 := rfl
  have hc : overflowState.positions.refCoveredPosition = 120000 := rfl
  have hk : ∀ k : Nat, (syncN k overflowState).reloadPos = 60000 * ((k : Int) + 1) := by
    intro k
    rw [(syncN_notGood k overflowState hg).1, hr]
    unfold loadingBlockSize; ring
  have hkc : ∀ k : Nat, (syncN k overflowState).positions.refCoveredPosition
      = 60000 * ((k : Int) + 2) := by
    intro k
    rw [(syncN_ranges k overflowState).1, hc]
    unfold loadingBlockSize; ring
  refine ⟨⟨rfl, fun _ _ => rfl⟩, rfl, hs, hr, hc, ?_, ?_, ?_, ?_, ?_, ?_, ?_, ?_, ?_⟩
  · intro k hk1
    rw [hk k, hkc k, hs]
    unfold InLongLong
    omega
  · rw [hkc, hkc]; unfold loadingBlockSize; norm_num
  · rw [hkc]; norm_num
  · rw [hkc]; unfold InLongLong; norm_num
  · rw [hk, hs]; norm_num
  · rw [hk, hk]; unfold loadingBlockSize; norm_num
  · rw [hk]; norm_num
  · rw [hk]; unfold InLongLong; norm_num
  · rw [hk]; unfold toInt64; norm_num

/-- C20 (amended). For every state of the main loop in which `reloadPos`,
`refCoveredPosition` and `location` are `long long` values, `refCoveredPosition` is at
most one block above `reloadPos` (as after every reset and every extend) and
`location` plus the length of the unread reference is a `long long` value, and for
every record coordinate `samPos` up to `2^63 - 1 - inf`, the loop
`while (samPos > reloadPos)` ends after some number `n` of iterations: `n` is at most
the ceiling of `(samPos - reloadPos) / blockSize` (zero when the coordinate does not
exceed the threshold), before each of the `n` iterations the coordinate exceeds the
threshold, each iteration raises the threshold by at least one block and leaves it
below `samPos + inf`, after the `n`-th the coordinate does not exceed the threshold,
and every value that `reloadPos`, `refCoveredPosition` and `location` take is a
`long long` value, so that no addition overflows.  With the start cursor inside the
ring, it stays inside and the flush of every iteration is the walk over the
`blockSize` slots behind it, so that the loop of `startOutput` ends as well. -/
theorem sync_loop_terminates (samPos : Int) (s : MainState)
    (hs : samPos ≤ 9223372036854775807 - inf) (hr : InLongLong s.reloadPos)
    (hc : InLongLong s.positions.refCoveredPosition)
    (hcr : s.positions.refCoveredPosition ≤ s.reloadPos + loadingBlockSize)
    (hl : InLongLong s.positions.location)
    (hlr : s.positions.location + s.positions.refRest.length ≤ 9223372036854775807) :
    ∃ n : Nat,
      syncLoop samPos (syncFuel samPos s.reloadPos) s = syncN n s ∧
      (n : Int) ≤ (max (samPos - s.reloadPos) 0 + (loadingBlockSize - 1)) / loadingBlockSize ∧
      (∀ k < n, (syncN k s).reloadPos < samPos ∧
        (syncN k s).reloadPos + loadingBlockSize ≤ (syncN (k + 1) s).reloadPos ∧
        (syncN (k + 1) s).reloadPos < samPos + inf) ∧
      samPos ≤ (syncN n s).reloadPos ∧
      (∀ k ≤ n, InLongLong (syncN k s).reloadPos ∧
        InLongLong (syncN k s).positions.refCoveredPosition ∧
        InLongLong (syncN k s).positions.location) ∧
      (0 ≤ s.positions.refPosStartPtr → s.positions.refPosStartPtr < 120067 →
        ∀ k, 0 ≤ (syncN k s).positions.refPosStartPtr ∧
          (syncN k s).positions.refPosStartPtr < 120067 ∧
          startOutput (syncN k s).positions false =
            (List.range 60000).flatMap
              (fun t => outputRow (syncN k s).positions.chromosomePos
                ((syncN k s).positions.refPositions
                  (((syncN k s).positions.refPosStartPtr + (t : Int)) % 120067)))) := by
  obtain ⟨n, h1, h2, h3, h4⟩ := syncLoop_iter samPos _ s (syncFuel_enough samPos s.reloadPos)
  refine ⟨n, h1, ?_, h3, h4, ?_, ?_⟩
  · unfold loadingBlockSize at *
    omega
  · intro k hk
    obtain ⟨r1, r2, r3, r4⟩ := syncN_ranges k s
    unfold InLongLong at *
    unfold loadingBlockSize at *
    refine ⟨⟨by omega, ?_⟩, ⟨by omega, ?_⟩, ⟨by omega, by omega⟩⟩
    · cases k with
      | zero => exact hr.2
      | succ k =>
        have := (h3 k (by omega)).2.2
        unfold inf at *
        omega
    · cases k with
      | zero => exact hc.2
      | succ k =>
        have := (h3 k (by omega)).1
        obtain ⟨q1, q2, _, _⟩ := syncN_ranges k s
        unfold inf at *
        push_cast at r1
        omega
  · intro h0 h1 k
    have hc := syncN_cursor k s h0 h1
    exact ⟨hc.1, hc.2, startOutput_block_cursor _ hc.1 hc.2⟩

/-- Witness of `sync_loop_terminates`: Scenario A after a record at chr1:1, for the
coordinate 60001, one past `reloadPos`. -/
theorem sync_loop_terminates_witness :
    (60001 : Int) ≤ 9223372036854775807 - inf ∧ InLongLong scenarioState.reloadPos ∧
    InLongLong scenarioState.positions.refCoveredPosition ∧
    scenarioState.positions.refCoveredPosition ≤ scenarioState.reloadPos + loadingBlockSize ∧
    InLongLong scenarioState.positions.location ∧
    scenarioState.positions.location + scenarioState.positions.refRest.length
      ≤ 9223372036854775807 ∧
    ∃ n : Nat,
      syncLoop 60001 (syncFuel 60001 scenarioState.reloadPos) scenarioState
        = syncN n scenarioState ∧
      (60001 : Int) ≤ (syncN n scenarioState).reloadPos ∧
      ∀ k ≤ n, InLongLong (syncN k scenarioState).reloadPos ∧
        InLongLong (syncN k scenarioState).positions.refCoveredPosition ∧
        InLongLong (syncN k scenarioState).positions.location :=
  have hr : InLongLong scenarioState.reloadPos := ⟨by decide, by decide⟩
  have hc : InLongLong scenarioState.positions.refCoveredPosition := ⟨by decide, by decide⟩
  have hl : InLongLong scenarioState.positions.location := ⟨by decide, by decide⟩
  have h := sync_loop_terminates 60001 scenarioState (by decide) hr hc (by decide) hl
    (by decide)
  ⟨by decide, hr, hc, by decide, hl, by decide, h.choose, h.choose_spec.1,
    h.choose_spec.2.2.2.1, h.choose_spec.2.2.2.2.1⟩

theorem convertedCalls_le (calls : List PosQuality) : convertedCalls calls ≤ calls.length :=
  List.length_filter_le _ _

theorem mod_step (a x k : Nat) (h : x % 65536 = ((a + 1) % 65536 + k) % 65536) :
    x % 65536 = (a + (k + 1)) % 65536 := by omega

theorem appendBases_counts (p : Position) (calls : List PosQuality) :
    (appendBases p calls).convertedCount % 65536
      = (p.convertedCount + convertedCalls calls) % 65536 ∧
    (appendBases p calls).unconvertedCount % 65536
      = (p.unconvertedCount + (calls.length - convertedCalls calls)) % 65536 ∧
    (convertedCalls calls = 0 → (appendBases p calls).convertedCount = p.convertedCount) ∧
    (calls.length - convertedCalls calls = 0 →
      (appendBases p calls).unconvertedCount = p.unconvertedCount) ∧
    (1 ≤ convertedCalls calls → (appendBases p calls).convertedCount < 65536) ∧
    (1 ≤ calls.length - convertedCalls calls →
      (appendBases p calls).unconvertedCount < 65536) ∧
    (1 ≤ calls.length → (appendBases p calls).empty = false) ∧
    (calls.length = 0 → (appendBases p calls).empty = p.empty) ∧
    (appendBases p calls).location = p.location ∧
    (appendBases p calls).strand = p.strand ∧
    (appendBases p calls).chromosomeId = p.chromosomeId := by
  induction calls generalizing p with
  | nil =>
    simp [appendBases, convertedCalls]
  | cons b bs ih =>
    have hle := convertedCalls_le bs
    have hstep : appendBases p (b :: bs) = appendBases (p.appendBase b) bs := rfl
    obtain ⟨i1, i2, i3, i4, i5, i6, i7, i8, i9, i10, i11⟩ := ih (p.appendBase b)
    have hf := appendBase_frame p b
    rw [hstep]
    by_cases hb : b.converted = true
    · have hk : convertedCalls (b :: bs) = convertedCalls bs + 1 := by
        simp [convertedCalls, List.filter_cons, hb]
      have hc : (p.appendBase b).convertedCount = (p.convertedCount + 1) % 65536 := by
        simp [Position.appendBase, hb]
      have hu : (p.appendBase b).unconvertedCount = p.unconvertedCount := by
        simp [Position.appendBase, hb]
      have he : (p.appendBase b).empty = false := by
        simp [Position.appendBase, hb]
      have hlen : (bs.length + 1) - (convertedCalls bs + 1) = bs.length - convertedCalls bs := by
        omega
      rw [hk, List.length_cons, hlen]
      rw [hc] at i1 i3
      rw [hu] at i2 i4
      refine ⟨mod_step _ _ _ i1, i2, fun h => absurd h (Nat.succ_ne_zero _), i4, ?_, i6,
        ?_, fun h => absurd h (Nat.succ_ne_zero _), i9.trans hf.1, i10.trans hf.2.1,
        i11.trans hf.2.2⟩
      · intro _
        by_cases h0 : convertedCalls bs = 0
        · rw [i3 h0]; exact Nat.mod_lt _ (by decide)
        · exact i5 (Nat.one_le_iff_ne_zero.mpr h0)
      · intro _
        by_cases h0 : bs.length = 0
        · rw [i8 h0, he]
        · exact i7 (Nat.one_le_iff_ne_zero.mpr h0)
    · have hb2 : b.converted = false := by simpa using hb
      have hk : convertedCalls (b :: bs) = convertedCalls bs := by
        simp [convertedCalls, List.filter_cons, hb2]
      have hc : (p.appendBase b).convertedCount = p.convertedCount := by
        simp [Position.appendBase, hb2]
      have hu : (p.appendBase b).unconvertedCount = (p.unconvertedCount + 1) % 65536 := by
        simp [Position.appendBase, hb2]
      have he : (p.appendBase b).empty = false := by
        simp [Position.appendBase, hb2]
      have hlen : (bs.length + 1) - convertedCalls bs = (bs.length - convertedCalls bs) + 1 := by
        omega
      rw [hk, List.length_cons, hlen]
      rw [hc] at i1 i3
      rw [hu] at i2 i4
      refine ⟨i1, mod_step _ _ _ i2, i3, fun h => absurd h (Nat.succ_ne_zero _), i5, ?_,
        ?_, fun h => absurd h (Nat.succ_ne_zero _), i9.trans hf.1, i10.trans hf.2.1,
        i11.trans hf.2.2⟩
      · intro _
        by_cases h0 : bs.length - convertedCalls bs = 0
        · rw [i4 h0]; exact Nat.mod_lt _ (by decide)
        · exact i6 (Nat.one_le_iff_ne_zero.mpr h0)
      · intro _
        by_cases h0 : bs.length = 0
        · rw [i8 h0, he]
        · exact i7 (Nat.one_le_iff_ne_zero.mpr h0)

/-- C22. The counters of a position are 16-bit unsigned: for a position whose counters are
zero (as `initialize` leaves them, and so in every slot loaded by `appendRefPosition`)
and every sequence of `n` calls applied to it with `appendBase`, `k` of them converted,
`convertedCount` is `k mod 65536` and `unconvertedCount` is `(n - k) mod 65536`; the
position is not empty when `n ≥ 1`; and the counts are `k` and `n - k` themselves
exactly when both are below 65536. -/
theorem counters_sixteen_bit (p : Position) (calls : List PosQuality)
    (h1 : p.convertedCount = 0) (h0 : p.unconvertedCount = 0) :
    (appendBases p calls).convertedCount = convertedCalls calls % 65536 ∧
    (appendBases p calls).unconvertedCount
      = (calls.length - convertedCalls calls) % 65536 ∧
    (1 ≤ calls.length → (appendBases p calls).empty = false) ∧
    (((appendBases p calls).convertedCount = convertedCalls calls ∧
        (appendBases p calls).unconvertedCount = calls.length - convertedCalls calls) ↔
      (convertedCalls calls < 65536 ∧ calls.length - convertedCalls calls < 65536)) ∧
    convertedCalls calls ≤ calls.length ∧
    (∀ (id loc i : Int) (b : Char), (refSlot id loc i b).convertedCount = 0 ∧
      (refSlot id loc i b).unconvertedCount = 0) := by
  obtain ⟨i1, i2, i3, i4, i5, i6, i7, _⟩ := appendBases_counts p calls
  rw [h1] at i1 i3
  rw [h0] at i2 i4
  have hc : (appendBases p calls).convertedCount = convertedCalls calls % 65536 := by
    by_cases hk : convertedCalls calls = 0
    · rw [i3 hk, hk]
    · have := i5 (by omega)
      omega
  have hu : (appendBases p calls).unconvertedCount
      = (calls.length - convertedCalls calls) % 65536 := by
    by_cases hk : calls.length - convertedCalls calls = 0
    · rw [i4 hk, hk]
    · have := i6 (by omega)
      omega
  refine ⟨hc, hu, i7, ?_, convertedCalls_le calls, ?_⟩
  · rw [hc, hu]
    constructor
    · intro h; omega
    · intro h; omega
  · intro id loc i b
    unfold refSlot
    split
    · exact ⟨rfl, rfl⟩
    · split <;> exact ⟨rfl, rfl⟩

theorem convertedCalls_replicate (n : Nat) (i : Int) :
    convertedCalls (List.replicate n (convertedCall i)) = n := by
  unfold convertedCalls
  rw [List.filter_eq_self.mpr, List.length_replicate]
  intro b hb
  rw [List.eq_of_mem_replicate hb]
  rfl

/-- Witness of `counters_sixteen_bit`: 65536 converted calls applied to a freshly loaded
slot bring `convertedCount` back to 0. -/
theorem counters_sixteen_bit_witness :
    (refSlot 0 0 0 'C').convertedCount = 0 ∧ (refSlot 0 0 0 'C').unconvertedCount = 0 ∧
    convertedCalls (List.replicate 65536 (convertedCall 0)) = 65536 ∧
    (appendBases (refSlot 0 0 0 'C') (List.replicate 65536 (convertedCall 0))).convertedCount
      = convertedCalls (List.replicate 65536 (convertedCall 0)) % 65536 ∧
    (appendBases (refSlot 0 0 0 'C') (List.replicate 65536 (convertedCall 0))).convertedCount
      = 0 :=
  have h := counters_sixteen_bit (refSlot 0 0 0 'C') (List.replicate 65536 (convertedCall 0))
    rfl rfl
  ⟨rfl, rfl, convertedCalls_replicate 65536 0, h.1,
    h.1.trans (by rw [convertedCalls_replicate])⟩

theorem mdLoop_start (rest : Str) (ci : Int) (seg : Str) (d : Bool) :
    ci ≤ (mdLoop rest ci seg d).2.2 ∧
    (mdLoop rest ci seg d).2.2 ≤ ci + rest.length + 1 ∧
    ((mdLoop rest ci seg d).1 = false → (mdLoop rest ci seg d).2.2 = ci + rest.length + 1) ∧
    (seg = [] → (mdLoop rest ci seg d).1 = true → ci < (mdLoop rest ci seg d).2.2) := by
  induction rest generalizing ci seg d with
  | nil =>
    simp only [mdLoop, List.length_nil, Nat.cast_zero, add_zero]
    refine ⟨by omega, by omega, fun _ => (by first | rfl | trivial), fun _ _ => by omega⟩
  | cons c cs ih =>
    have hlen : ((c :: cs).length : Int) = cs.length + 1 := by
      simp only [List.length_cons]; push_cast; rfl
    rw [hlen]
    have hrec : ∀ (sg : Str) (dl : Bool),
        ci ≤ (mdLoop cs (ci + 1) sg dl).2.2 ∧
        (mdLoop cs (ci + 1) sg dl).2.2 ≤ ci + (cs.length + 1) + 1 ∧
        ((mdLoop cs (ci + 1) sg dl).1 = false →
          (mdLoop cs (ci + 1) sg dl).2.2 = ci + (cs.length + 1) + 1) ∧
        (seg = [] → (mdLoop cs (ci + 1) sg dl).1 = true →
          ci < (mdLoop cs (ci + 1) sg dl).2.2) := by
      intro sg dl
      obtain ⟨a1, a2, a3, _⟩ := ih (ci + 1) sg dl
      refine ⟨by omega, by omega, fun h => by rw [a3 h]; ring, fun _ _ => by omega⟩
    rw [mdLoop]
    by_cases h1 : (seg.isEmpty && decide (c = '0')) = true
    · rw [if_pos h1]; exact hrec _ _
    · rw [if_neg h1]
      by_cases h2 : isalpha c = true
      · rw [if_pos h2]
        by_cases h3 : seg.isEmpty = true
        · rw [if_pos h3]
          exact ⟨by simp, by simp only; omega, fun h => by simp at h, fun _ _ => by simp⟩
        · rw [if_neg h3]
          have hne : seg ≠ [] := by simpa using h3
          by_cases h4 : d = true
          · rw [if_pos h4]; exact hrec _ _
          · rw [if_neg h4]
            exact ⟨by simp, by simp only; omega, fun h => by simp at h,
              fun h => absurd h hne⟩
      · rw [if_neg h2]
        by_cases h5 : c = '^'
        · rw [if_pos h5]
          by_cases h3 : seg.isEmpty = true
          · rw [if_pos h3]; exact hrec _ _
          · rw [if_neg h3]
            have hne : seg ≠ [] := by simpa using h3
            exact ⟨by simp, by simp only; omega, fun h => by simp at h,
              fun h => absurd h hne⟩
        · rw [if_neg h5]
          by_cases h3 : seg.isEmpty = true
          · rw [if_pos h3]; exact hrec _ _
          · rw [if_neg h3]
            have hne : seg ≠ [] := by simpa using h3
            split
            · exact ⟨by simp, by simp only; omega, fun h => by simp at h,
                fun h => absurd h hne⟩
            · exact hrec _ _

theorem md_call_cursor (m : string_search) (seg : Str) (hL : MdLoaded m) :
    MdLoaded (MD_tag.getNextSegment m seg).2.2 ∧
    (MD_tag.getNextSegment m seg).2.2.s = m.s ∧
    (MD_tag.getNextSegment m seg).2.2.stringLen = m.stringLen ∧
    ((MD_tag.getNextSegment m seg).1 = true →
      m.start < (MD_tag.getNextSegment m seg).2.2.start ∧ m.start < m.stringLen) ∧
    ((MD_tag.getNextSegment m seg).1 = false →
      m.stringLen ≤ (MD_tag.getNextSegment m seg).2.2.start) ∧
    m.start ≤ (MD_tag.getNextSegment m seg).2.2.start ∧
    (m.start ≤ m.stringLen + 1 → (MD_tag.getNextSegment m seg).2.2.start ≤ m.stringLen + 1) ∧
    (m.stringLen ≤ m.start → (MD_tag.getNextSegment m seg).2.2 = m ∧
      (MD_tag.getNextSegment m seg).1 = false) := by
  obtain ⟨hl, h0⟩ := hL
  unfold MD_tag.getNextSegment
  by_cases hc : m.start ≥ m.stringLen
  · rw [if_pos hc]
    exact ⟨⟨hl, h0⟩, rfl, rfl, fun h => by simp at h, fun _ => hc, le_refl _, fun h => h,
      fun _ => ⟨rfl, rfl⟩⟩
  · rw [if_neg hc]
    simp only
    obtain ⟨a1, a2, a3, a4⟩ := mdLoop_start (m.s.drop m.start.toNat) m.start [] false
    have hdrop : ((m.s.drop m.start.toNat).length : Int) = m.stringLen - m.start := by
      rw [List.length_drop, hl]
      omega
    rw [hdrop] at a2 a3
    refine ⟨⟨hl, ?_⟩, (by first | rfl | trivial), (by first | rfl | trivial),
      fun h => ⟨a4 rfl h, by omega⟩, fun h => ?_, a1,
      fun _ => by omega, fun h => absurd h (by omega)⟩
    · show 0 ≤ (mdLoop (m.s.drop m.start.toNat) m.start [] false).2.2
      omega
    · rw [a3 h]
      omega

theorem md_call_seg (m : string_search) (seg : Str) :
    (MD_tag.getNextSegment m seg).1 = (MD_tag.getNextSegment m []).1 ∧
    (MD_tag.getNextSegment m seg).2.2 = (MD_tag.getNextSegment m []).2.2 := by
  unfold MD_tag.getNextSegment
  split <;> exact ⟨rfl, rfl⟩

theorem md_after_loaded (n : Nat) (m : string_search) (hL : MdLoaded m) :
    MdLoaded (MD_tag.after n m) ∧ (MD_tag.after n m).s = m.s ∧
    (MD_tag.after n m).stringLen = m.stringLen ∧ m.start ≤ (MD_tag.after n m).start ∧
    (m.start ≤ m.stringLen + 1 → (MD_tag.after n m).start ≤ m.stringLen + 1) := by
  induction n generalizing m with
  | zero => exact ⟨hL, rfl, rfl, le_refl _, fun h => h⟩
  | succ n ih =>
    have hc := md_call_cursor m [] hL
    obtain ⟨a1, a2, a3, a4, a5⟩ := ih _ hc.1
    simp only [MD_tag.after]
    refine ⟨a1, a2.trans hc.2.1, a3.trans hc.2.2.1, le_trans hc.2.2.2.2.2.1 a4, fun h => ?_⟩
    rw [hc.2.2.1] at a5
    exact a5 (hc.2.2.2.2.2.2.1 h)

theorem md_after_end (n : Nat) (m : string_search) (hL : MdLoaded m)
    (he : m.stringLen ≤ m.start) :
    MD_tag.after n m = m ∧ (MD_tag.getNextSegment (MD_tag.after n m) []).1 = false := by
  have hc := (md_call_cursor m [] hL).2.2.2.2.2.2.2 he
  induction n with
  | zero => exact ⟨rfl, hc.2⟩
  | succ n ih =>
    simp only [MD_tag.after]
    rw [hc.1]
    exact ih

theorem md_flags (k : Nat) (m : string_search) (hL : MdLoaded m)
    (hk : (m.stringLen - m.start).toNat ≤ k) :
    ∃ t, t ≤ k ∧ ∀ i, (MD_tag.getNextSegment (MD_tag.after i m) []).1 = decide (i < t) := by
  induction k generalizing m with
  | zero =>
    refine ⟨0, le_refl 0, fun i => ?_⟩
    rw [(md_after_end i m hL (by omega)).2]
    simp
  | succ k ih =>
    have hc := md_call_cursor m [] hL
    cases hf : (MD_tag.getNextSegment m []).1 with
    | false =>
      refine ⟨0, Nat.zero_le _, fun i => ?_⟩
      cases i with
      | zero => simp only [MD_tag.after]; rw [hf]; simp
      | succ i =>
        simp only [MD_tag.after]
        rw [(md_after_end i _ hc.1 (by rw [hc.2.2.1]; exact hc.2.2.2.2.1 hf)).2]
        simp
    | true =>
      have hlt := hc.2.2.2.1 hf
      obtain ⟨t, ht, hflags⟩ := ih _ hc.1 (by rw [hc.2.2.1]; omega)
      refine ⟨t + 1, by omega, fun i => ?_⟩
      cases i with
      | zero => simp only [MD_tag.after]; rw [hf]; simp
      | succ i =>
        simp only [MD_tag.after]
        rw [hflags i]
        simp

/-- C23. For every string `s` loaded into `MD_tag`, at every later moment (after any
number `j` of calls): a call of `getNextSegment` moves the cursor no further than one
past the end of the string, the scan being over the characters from the cursor to the
end; a call that returns true leaves `start` strictly greater than before, and was made
with `start` before the end; a call that returns false leaves `start` at or past the
end of the string.  Hence there is a number `t`, at most the length of the string, such
that the calls number 0 to `t - 1` return true and every later call returns false. -/
theorem md_calls_terminate (s : Str) (j : Nat) (seg : Str) :
    ((MD_tag.getNextSegment (MD_tag.after j (string_search.loadString s)) seg).1 = true →
      (MD_tag.after j (string_search.loadString s)).start
        < (MD_tag.getNextSegment (MD_tag.after j (string_search.loadString s)) seg).2.2.start ∧
      (MD_tag.after j (string_search.loadString s)).start < s.length) ∧
    ((MD_tag.getNextSegment (MD_tag.after j (string_search.loadString s)) seg).1 = false →
      (s.length : Int)
        ≤ (MD_tag.getNextSegment (MD_tag.after j (string_search.loadString s)) seg).2.2.start) ∧
    (MD_tag.getNextSegment (MD_tag.after j (string_search.loadString s)) seg).2.2.start
      ≤ s.length + 1 ∧
    ∃ t, t ≤ s.length ∧
      ∀ i, (MD_tag.getNextSegment (MD_tag.after i (string_search.loadString s)) seg).1
        = decide (i < t) := by
  have hL : MdLoaded (string_search.loadString s) := ⟨rfl, le_refl 0⟩
  have ha := md_after_loaded j _ hL
  have hc := md_call_cursor (MD_tag.after j (string_search.loadString s)) seg ha.1
  have hlen : (MD_tag.after j (string_search.loadString s)).stringLen = s.length := ha.2.2.1
  have hup := ha.2.2.2.2 (by simp [string_search.loadString]; omega)
  rw [show (string_search.loadString s).stringLen = (s.length : Int) from rfl] at hup
  rw [hlen] at hc
  refine ⟨hc.2.2.2.1, hc.2.2.2.2.1, hc.2.2.2.2.2.2.1 hup, ?_⟩
  obtain ⟨t, ht, hflags⟩ := md_flags s.length _ hL (by
    simp [string_search.loadString])
  refine ⟨t, ht, fun i => ?_⟩
  rw [(md_call_seg _ seg).1]
  exact hflags i

theorem modExact_of_range (x : Int) (h0 : 0 ≤ x) (h1 : x < 240134) : ModExact x := by
  refine ⟨h0, by unfold loadingBlockSize; omega, ?_⟩
  rw [Mod_eq_emod h0 h1]
  unfold loadingBlockSize
  rfl

theorem appendRefPosition_keeps (P : Positions) (line : Str) (hR : RingOk P)
    (hlen : line.length ≤ 67) (hloc : P.location < P.refCoveredPosition) (q : Int)
    (hq0 : P.refCoveredPosition - 120000 ≤ q) (hq1 : q < P.location) :
    (appendRefPosition P line).refPositions (q % 120067) = P.refPositions (q % 120067) := by
  obtain ⟨h0, hend, _⟩ := hR
  simp only [appendRefPosition]
  apply appendRefLoop_other
  intro k hk
  rw [Mod_eq_emod (by omega) (by omega), hend]
  omega

theorem fillLoop_keeps (n : Nat) (P : Positions) (hR : RingOk P)
    (hloc : P.location < P.refCoveredPosition)
    (hlines : P.refGood = true → SeqLinesBounded 67 P.refRest) (q : Int)
    (hq0 : P.refCoveredPosition - 120000 ≤ q) (hq1 : q < P.location) :
    (fillLoop n P).1.refPositions (q % 120067) = P.refPositions (q % 120067) := by
  induction n generalizing P with
  | zero => rfl
  | succ n ih =>
    simp only [fillLoop]
    by_cases hg : P.refGood = true
    · simp only [hg, if_true]
      have hl := seqLines_getline 67 P.refRest (hlines hg)
      split
      · rfl
      · rename_i hhead
        split
        · exact ih _ hR hloc (fun _ => hl.2) hq0 hq1
        · have hlen := hl.1 hhead
          have hR2 : RingOk (appendRefPosition
              { P with refRest := (getline P.refRest).2.1, refGood := (getline P.refRest).2.2 }
              (getline P.refRest).1) :=
            appendRefPosition_ringOk _ _ hR (by omega)
          have hk := appendRefPosition_keeps
            { P with refRest := (getline P.refRest).2.1, refGood := (getline P.refRest).2.2 }
            (getline P.refRest).1 hR hlen hloc q hq0 hq1
          split
          · exact hk
          · rename_i hnot
            have := ih _ hR2 (by omega) (fun _ => hl.2) hq0
              (by simp only [appendRefPosition]; omega)
            rw [this]
            exact hk
    · simp only [hg]
      rfl

theorem fillLoop_fillOk (n : Nat) (P : Positions) (hR : RingOk P)
    (hloc : P.location < P.refCoveredPosition)
    (hlines : P.refGood = true → SeqLinesBounded 67 P.refRest) :
    FillOk P.refPositions P.location (fillLoop n P).1 := by
  have inv := fillLoop_ringOk n P hR hloc hlines
  have f := fillLoop_frame n P
  obtain ⟨⟨hl0, hend, _⟩, hl1, _, _⟩ := inv
  unfold FillOk windowBase loadingBlockSize
  refine ⟨by omega, by omega, by omega, fun i hi0 hi1 => modExact_of_range _ (by omega)
    (by omega), ?_⟩
  intro c hc0 hc1
  rw [f.1] at hc0
  have := fillLoop_keeps n P hR hloc hlines (c - 1) (by omega)
    (by omega)
  norm_num
  exact this

theorem reset_fillOk (text : Str) (hw : SeqLinesBounded 67 text) (P0 : Positions)
    (name : Str) (id startPos : Int) (n : Nat) (ht : P0.refText = text)
    (hidx : P0.chromosomePos = LoadChromosomeNamesPos text)
    (hsp : getChromosomePosInRefFile P0.chromosomePos name = .ok startPos) :
    FillOk (resetWindow P0 name id startPos).refPositions 0
      (fillLoop n (resetWindow P0 name id startPos)).1 := by
  have g := resetWindow_frame P0 name id startPos
  have hgood : (resetWindow P0 name id startPos).refGood = true →
      SeqLinesBounded 67 (resetWindow P0 name id startPos).refRest := by
    rw [hidx] at hsp
    have hoff := getChromosomePos_goodOffset 67 text hw name startPos hsp
    unfold resetWindow seekg
    split
    · simp
    · intro _
      rcases hoff with h3 | h3
      · omega
      · simpa [ht] using h3
  have hR0 : RingOk (resetWindow P0 name id startPos) := by
    refine ⟨by rw [g.2.2.2.2.2.2.1], by rw [g.2.2.2.2.2.2.1, g.2.2.2.2.2.2.2]; rfl, ?_⟩
    intro q h0 _ h2
    rw [g.2.2.2.2.2.2.1] at h2
    omega
  have := fillLoop_fillOk n (resetWindow P0 name id startPos) hR0
    (by rw [g.2.2.2.2.2.2.1, g.2.1]; unfold loadingBlockSize; omega) hgood
  rw [g.2.2.2.2.2.2.1] at this
  exact this

/-- C21. Over a reference whose sequence lines have at most 67 bases, in every window state
reached by `loadNewChromosome`, extends and records: the number of resident positions,
`location` less the window base, is below the ring modulus `2 * blockSize + 67`; both
cursors are inside the ring, the end cursor is the start cursor advanced by that
number modulo the ring size, and so differs from it whenever a position is resident;
the slot of every resident coordinate stores the coordinate; the calls
`Mod(refPosStartPtr + blockSize)` and `Mod(i + 1)` for `i` in the ring are exact, and
so are the call of `getIndex` for a resident coordinate `c` and the call
`Mod(index + d)` of `appendPositions` while `c + d` is resident.  At
every iteration of the fill loop of the next `loadMore`, and of the fill loop of any
`loadNewChromosome`, `FillOk` holds: the call `Mod(cur + i)` of `appendRefPosition` is
exact, fewer positions are resident than the ring has slots, and no slot of a
coordinate that stays resident is written. -/
theorem ring_never_full (text : Str) (hw : SeqLinesBounded 67 text) (P : Positions)
    (hP : WindowState text P) :
    P.location - windowBase P < 2 * loadingBlockSize + 67 ∧
    (0 ≤ P.refPosStartPtr ∧ P.refPosStartPtr < 2 * loadingBlockSize + 67 ∧
      0 ≤ P.refPosEndPtr ∧ P.refPosEndPtr < 2 * loadingBlockSize + 67) ∧
    P.refPosEndPtr
      = (P.refPosStartPtr + (P.location - windowBase P)) % (2 * loadingBlockSize + 67) ∧
    (windowBase P < P.location → P.refPosEndPtr ≠ P.refPosStartPtr) ∧
    (∀ c : Int, windowBase P < c → c ≤ P.location →
      (P.refPositions ((c - 1) % (2 * loadingBlockSize + 67))).location = c) ∧
    ModExact (P.refPosStartPtr + loadingBlockSize) ∧
    (∀ i : Int, 0 ≤ i → i < 2 * loadingBlockSize + 67 → ModExact (i + 1)) ∧
    (∀ c : Int, windowBase P < c → c ≤ P.location →
      ModExact (toInt32 (c - toInt32 (P.refPositions P.refPosStartPtr).location
        + P.refPosStartPtr))) ∧
    (∀ c d : Int, windowBase P < c → 0 ≤ d → c + d ≤ P.location →
      ModExact (getIndex P c + d)) ∧
    (∀ n, FillOk P.refPositions P.location (fillLoop n (advanceWindow P)).1) ∧
    ∀ (P0 : Positions) (name : Str) (id startPos : Int) (n : Nat),
      P0.refText = text → P0.chromosomePos = LoadChromosomeNamesPos text →
      getChromosomePosInRefFile P0.chromosomePos name = .ok startPos →
      FillOk (resetWindow P0 name id startPos).refPositions 0
        (fillLoop n (resetWindow P0 name id startPos)).1 := by
  obtain ⟨hR, ⟨k, hk1, hk2⟩, hloc, hlines⟩ := windowState_winOk text hw P hP
  have hR2 := hR
  obtain ⟨hl0, hend, hslots⟩ := hR
  have hfirst : (k * 60000 : Int) < P.location →
      (P.refPositions P.refPosStartPtr).location = (k * 60000 : Int) + 1 := by
    intro h
    rw [hk2]
    exact hslots (k * 60000) (by omega) (by omega) (by omega)
  refine ⟨?_, ?_, ?_, ?_, ?_, ?_, ?_, ?_, ?_, ?_, ?_⟩
  · unfold windowBase loadingBlockSize; omega
  · unfold loadingBlockSize; omega
  · unfold windowBase loadingBlockSize; omega
  · unfold windowBase loadingBlockSize; omega
  · intro c hc0 hc1
    unfold windowBase loadingBlockSize at hc0
    have := hslots (c - 1) (by omega) (by omega) (by omega)
    norm_num [loadingBlockSize]
    rw [this]
    ring
  · exact modExact_of_range _ (by unfold loadingBlockSize; omega)
      (by unfold loadingBlockSize; omega)
  · intro i hi0 hi1
    exact modExact_of_range _ (by omega) (by unfold loadingBlockSize at hi1; omega)
  · intro c hc0 hc1
    unfold windowBase loadingBlockSize at hc0
    rw [hfirst (by omega)]
    have e : toInt32 (c - toInt32 ((k * 60000 : Int) + 1) + P.refPosStartPtr)
        = c - k * 60000 - 1 + P.refPosStartPtr := by
      unfold toInt32; omega
    rw [e]
    exact modExact_of_range _ (by omega) (by omega)
  · intro c d hc0 hd hc1
    unfold windowBase loadingBlockSize at hc0
    rw [getIndex_eq P c (k * 60000) (hfirst (by omega)) (by omega) (by omega) (by omega)
      (by omega)]
    exact modExact_of_range _ (by omega) (by omega)
  · intro n
    exact fillLoop_fillOk n (advanceWindow P) hR2
      (by simp only [advanceWindow]; unfold loadingBlockSize; omega) hlines
  · intro P0 name id startPos n ht hidx hsp
    exact reset_fillOk text hw P0 name id startPos n ht hidx hsp

/-- Witness of `ring_never_full`: the window of Scenario A after the reset. -/
theorem ring_never_full_witness :
    SeqLinesBounded 67 scenarioRef ∧ WindowState scenarioRef scenarioLoaded ∧
    scenarioLoaded.location - windowBase scenarioLoaded = 6 ∧
    scenarioLoaded.location - windowBase scenarioLoaded < 2 * loadingBlockSize + 67 ∧
    scenarioLoaded.refPosEndPtr ≠ scenarioLoaded.refPosStartPtr :=
  have hs : WindowState scenarioRef scenarioLoaded :=
    WindowState.reset (Positions.new scenarioRef) scenarioLoaded "chr1".toList 0 rfl rfl rfl
  have h := ring_never_full scenarioRef scenarioRef_lines scenarioLoaded hs
  ⟨scenarioRef_lines, hs, by decide, h.1, h.2.2.2.1 (by decide)⟩

end Hisat3n
